import Mathlib

/-!
The `Group` scheduler of ApplicationPool2: a shallow embedding.

The definitions follow `ext/common/ApplicationPool2/Group.h`.

Conventions of the embedding.

* A `ProcessPtr` is an address (`Nat`); the `Process` objects live in the store
  `Group.heap`, so that every alias of a pointer (the two process lists, the
  priority queue, the disable wait list) reads the same `enabled` tag.
* `int` counters are `Int`: the code decrements them without a guard.
* `assert` aborts: every operation returns `Except Fault _`, and a failed
  assertion is `Fault.assertion`.
* `process->it` and `process->pqHandle` always designate the node that was
  created by the last `push_back`/`push` of that very process.  Erasing through
  them removes the entry of the process (one node); when the process has no
  entry the iterator dangles, which C++ leaves undefined, and the model
  reports `Fault.invalidIterator`.
* Callbacks are identified by numbers; `postLockActions` is a list of
  `Callback` values to be run outside the lock.
* `needsRestart`, `restart` and `shouldSpawn` are declared in `Group.h` but
  defined elsewhere; `get` takes their results from an `Env`.
* The process made by a no-op `get` is referenced by the returned session only,
  so it is carried by the session (`ProcessRef.dummy`) and not put in the store.
* `Process`, `Options` and `PriorityQueue` come from headers that are not part of
  the sources; what `Group.h` uses of them is modelled from the spec.

The results about an operation are stated in two parts: when the call returns
(its assertions hold and the iterators it erases through are valid), and what
holds of the result whenever it returns.
-/

namespace ApplicationPool2

/-- Values of `Process::enabled`. -/
inductive EnabledStatus where
  | ENABLED
  | DISABLING
  | DISABLED
  deriving DecidableEq, Repr

/-- Ways in which an operation can fail to return. -/
inductive Fault where
  | assertion
  | nullPointer
  | invalidIterator
  | outOfBounds
  | badFunctionCall
  deriving DecidableEq, Repr

/-- Modelled from the spec: `Process.h` is not part of the sources.  The spec
gives a process a usage (its current session count), a per-process concurrency
cap, an enablement tag and a group back-reference. -/
structure Process where
  enabled : EnabledStatus
  group : Option Nat
  sessions : Nat
  concurrency : Nat
  deriving DecidableEq, Repr

/-- Modelled from the spec: usage is the current session count of the process
(`Process::usage` is declared in `Process.h`, not part of the sources). -/
def Process.usage (p : Process) : Nat := p.sessions

/-- Modelled from the spec: a process is at full capacity when its usage has
reached its concurrency cap (`Process::atFullCapacity`, in `Process.h`). -/
def Process.atFullCapacity (p : Process) : Bool := decide (p.concurrency ≤ p.usage)

/-- Modelled from the spec: opening a session raises the session count of the
process by one (`Process::newSession`, in `Process.h`). -/
def Process.newSession (p : Process) : Process := { p with sessions := p.sessions + 1 }

/-- Modelled from the spec: the object built by the `Process` constructor, which
is in `Process.h`: enabled, no group, no session. -/
def Process.make : Process :=
  { enabled := EnabledStatus.ENABLED, group := none, sessions := 0, concurrency := 0 }

/-- The fields of `Options` that `Group.h` reads or writes. -/
structure Options where
  maxRequests : Nat
  minProcesses : Nat
  statThrottleRate : Nat
  spawnerTimeout : Nat
  memoryLimit : Nat
  noop : Bool
  deriving DecidableEq, Repr

/-- Modelled from the spec: `Options::getSpawnerTimeout` is in `Options.h`; the spec
knows the spawner timeout as the option `spawnerTimeout`, in seconds. -/
def Options.getSpawnerTimeout (o : Options) : Nat := o.spawnerTimeout

/-- Modelled from the spec: `Options::clearPerRequestFields` is in `Options.h`;
section 6 of the spec lists `noop` as the per-request flag. -/
def Options.clearPerRequestFields (o : Options) : Options := { o with noop := false }

/-- The process a session refers to: a process object of the store, or an object
made by the call that returned the session and referenced by nothing else. -/
inductive ProcessRef where
  | ptr (addr : Nat)
  | dummy (obj : Process)
  deriving DecidableEq, Repr

/-- A session: its process, and whether `onInitiateFailure` and `onClose` were set
to the hooks of the group. -/
structure Session where
  process : ProcessRef
  onInitiateFailure : Bool
  onClose : Bool
  deriving DecidableEq, Repr

/-- An entry of `postLockActions`: a disable callback, or a get callback bound to
its session and exception arguments. -/
inductive Callback where
  | plain (callback : Nat)
  | bound (callback : Nat) (session : Option Session) (exception : Option Nat)
  deriving DecidableEq, Repr

/-- Entries of `getWaitlist`. -/
structure GetWaiter where
  options : Options
  callback : Nat
  deriving DecidableEq, Repr

/-- Entries of `disableWaitlist`. -/
structure DisableWaiter where
  process : Nat
  callback : Nat
  deriving DecidableEq, Repr

/-- One element of the priority queue: a process and the key it was pushed with. -/
structure PQEntry where
  process : Nat
  key : Nat
  deriving DecidableEq, Repr

/-- Modelled from the spec: `PriorityQueue` (`Utils/PriorityQueue.h`) is not part of
the sources.  Section 4.1: insertion with a numeric key, removal by handle,
retrieval of the minimum; ties are broken by insertion order. -/
abbrev PriorityQueue := List PQEntry

/-- Modelled from the spec: the entry with the smallest key, the earliest inserted
among equals. -/
def PriorityQueue.topEntry : PriorityQueue → Option PQEntry
  | [] => none
  | e :: es =>
    match PriorityQueue.topEntry es with
    | none => some e
    | some m => if m.key < e.key then some m else some e

/-- Modelled from the spec: `pqueue.top()`, `none` standing for `NULL`. -/
def PriorityQueue.top (q : PriorityQueue) : Option Nat :=
  (PriorityQueue.topEntry q).map PQEntry.process

/-- Modelled from the spec: `pqueue.pop()` removes the top entry. -/
def PriorityQueue.pop (q : PriorityQueue) : PriorityQueue :=
  match PriorityQueue.topEntry q with
  | none => q
  | some e => List.erase q e

/-- Modelled from the spec: `pqueue.push(process, key)`. -/
def PriorityQueue.push (q : PriorityQueue) (p key : Nat) : PriorityQueue :=
  q ++ [{ process := p, key := key }]

/-- Modelled from the spec: `pqueue.erase(process->pqHandle)` removes the entry of
the process. -/
def PriorityQueue.eraseProcess (q : PriorityQueue) (p : Nat) : PriorityQueue :=
  List.eraseP (fun e => decide (e.process = p)) q

/-- The processes that have an entry in the queue, in insertion order. -/
def PriorityQueue.members (q : PriorityQueue) : List Nat := q.map PQEntry.process

/-- The state of a `Group` together with the store of the process objects. -/
structure Group where
  self : Nat
  heap : Nat → Process
  options : Options
  count : Int
  disablingCount : Int
  disabledCount : Int
  pqueue : PriorityQueue
  processes : List Nat
  disabledProcesses : List Nat
  getWaitlist : List GetWaiter
  disableWaitlist : List DisableWaiter
  m_spawning : Bool
  spawnThreads : List Options

/-- Writes one process object of the store. -/
def setProcess (heap : Nat → Process) (p : Nat) (v : Process) : Nat → Process :=
  fun q => if q = p then v else heap q

/-- The results of the calls whose code is outside `Group.h`. -/
structure Env where
  needsRestart : Group → Options → Bool
  restart : Options → Group → Except Fault Group
  shouldSpawn : Group → Bool

namespace Group

/-- Method `Group::spawning`. -/
def spawning (g : Group) : Bool := g.m_spawning

/-- Method `Group::mergeOptions`. -/
def mergeOptions (g : Group) (other : Options) : Group :=
  { g with options :=
      { g.options with
        maxRequests := other.maxRequests
        minProcesses := other.minProcesses
        statThrottleRate := other.statThrottleRate
        spawnerTimeout := other.spawnerTimeout } }

/-- Method `Group::spawn`: the thread it creates is recorded with the options it is bound
to. -/
def spawn (g : Group) : Group :=
  if g.spawning then g
  else
    { g with
      spawnThreads := g.spawnThreads ++ [g.options.clearPerRequestFields]
      m_spawning := true }

/-- Method `Group::usage`: the `int` result is returned as `unsigned int`. -/
def usage (g : Group) : Nat :=
  Int.toNat ((if g.spawning then g.count + 1 else g.count) % 2 ^ 32)

/-- Subtraction of `unsigned long long` values. -/
def u64sub (a b : Nat) : Nat := (a % 2 ^ 64 + (2 ^ 64 - b % 2 ^ 64)) % 2 ^ 64

/-- Multiplication of `unsigned long long` values. -/
def u64mul (a b : Nat) : Nat := (a % 2 ^ 64 * (b % 2 ^ 64)) % 2 ^ 64

/-- Method `Group::garbageCollectable`.  `lastUsed` is the result of
`spawner->lastUsed()` and `clock` the result of `SystemTime::getUsec()`, both
outside `Group.h`. -/
def garbageCollectable (g : Group) (lastUsed clock : Nat) (now : Nat) : Bool :=
  let now1 := if now = 0 then clock else now
  g.usage == 0
    && g.getWaitlist.isEmpty
    && g.disabledProcesses.isEmpty
    && g.options.getSpawnerTimeout != 0
    && decide (u64mul g.options.getSpawnerTimeout 1000000 < u64sub now1 lastUsed)

/-- Method `Group::newSession`. -/
def newSession (g : Group) : Except Fault (Group × Session) :=
  if 0 < g.count then
    match g.pqueue.top with
    | none => Except.error Fault.nullPointer
    | some p =>
      let heap1 := setProcess g.heap p (g.heap p).newSession
      let session : Session :=
        { process := ProcessRef.ptr p, onInitiateFailure := true, onClose := true }
      Except.ok
        ({ g with
            heap := heap1
            pqueue := (g.pqueue.pop).push p (heap1 p).usage },
          session)
  else Except.error Fault.assertion

/-- The loop of `Group::assignSessionsToGetWaiters`; the first argument is the
part of `getWaitlist` still to be served. -/
def assignSessionsLoop :
    List GetWaiter → Group → List Callback → Except Fault (Group × List Callback)
  | [], g, acts => Except.ok ({ g with getWaitlist := [] }, acts)
  | w :: ws, g, acts =>
    match g.pqueue.top with
    | none => Except.ok ({ g with getWaitlist := w :: ws }, acts)
    | some p =>
      if (g.heap p).atFullCapacity then Except.ok ({ g with getWaitlist := w :: ws }, acts)
      else
        match g.newSession with
        | Except.error f => Except.error f
        | Except.ok (g1, s) =>
          assignSessionsLoop ws g1 (acts ++ [Callback.bound w.callback (some s) none])

/-- Method `Group::assignSessionsToGetWaiters`. -/
def assignSessionsToGetWaiters (g : Group) (postLockActions : List Callback) :
    Except Fault (Group × List Callback) :=
  assignSessionsLoop g.getWaitlist g postLockActions

/-- The loop of `Group::assignExceptionToGetWaiters`: the waiters still in
`getWaitlist` and the actions; `exception` is the `ExceptionPtr` handed to every
callback. -/
def assignExceptionLoop (exception : Option Nat) :
    List GetWaiter → List Callback → List Callback
  | [], acts => acts
  | w :: ws, acts =>
    assignExceptionLoop exception ws (acts ++ [Callback.bound w.callback none exception])

/-- Method `Group::assignExceptionToGetWaiters`. -/
def assignExceptionToGetWaiters (g : Group) (exception : Option Nat)
    (postLockActions : List Callback) : Group × List Callback :=
  ({ g with getWaitlist := [] },
    assignExceptionLoop exception g.getWaitlist postLockActions)

/-- The loop of `Group::removeFromDisableWaitlist`: the waiters still to visit, the
new list built so far and the actions. -/
def removeLoop (p : Nat) :
    List DisableWaiter → List DisableWaiter → List Callback →
      List DisableWaiter × List Callback
  | [], newList, acts => (newList, acts)
  | w :: ws, newList, acts =>
    if w.process = p then removeLoop p ws newList (acts ++ [Callback.plain w.callback])
    else removeLoop p ws (newList ++ [w]) acts

/-- Method `Group::removeFromDisableWaitlist`. -/
def removeFromDisableWaitlist (g : Group) (p : Nat) (postLockActions : List Callback) :
    Group × List Callback :=
  let r := removeLoop p g.disableWaitlist [] postLockActions
  ({ g with disableWaitlist := r.1 }, r.2)

/-- Method `Group::get`. -/
def get (env : Env) (g : Group) (newOptions : Options) (callback : Nat) :
    Except Fault (Group × Option Session) :=
  let merged : Except Fault Group :=
    if env.needsRestart g newOptions then env.restart newOptions g
    else Except.ok (g.mergeOptions newOptions)
  match merged with
  | Except.error f => Except.error f
  | Except.ok g1 =>
    let g2 := if !newOptions.noop && env.shouldSpawn g1 then g1.spawn else g1
    if newOptions.noop then
      let process : Process := { Process.make with group := some g2.self }
      Except.ok (g2,
        some { process := ProcessRef.dummy process, onInitiateFailure := false, onClose := false })
    else if g2.count = 0 then
      if g2.spawning then
        Except.ok
          ({ g2 with getWaitlist := g2.getWaitlist ++ [{ options := newOptions, callback := callback }] },
            none)
      else Except.error Fault.assertion
    else
      match g2.pqueue.top with
      | none => Except.error Fault.assertion
      | some p =>
        if (g2.heap p).atFullCapacity then
          Except.ok
            ({ g2 with getWaitlist := g2.getWaitlist ++ [{ options := newOptions, callback := callback }] },
              none)
        else
          match g2.newSession with
          | Except.error f => Except.error f
          | Except.ok (g3, s) => Except.ok (g3, some s)

/-- The body of the `if` in the loop of `Group::attach`: a DISABLING process becomes
DISABLED and moves from `processes` and `pqueue` to `disabledProcesses`. -/
def moveToDisabled (g : Group) (q : Nat) : Group :=
  { g with
    heap := setProcess g.heap q { g.heap q with enabled := EnabledStatus.DISABLED }
    processes := g.processes.erase q
    pqueue := g.pqueue.eraseProcess q
    disabledProcesses := g.disabledProcesses ++ [q]
    count := g.count - 1
    disablingCount := g.disablingCount - 1
    disabledCount := g.disabledCount + 1 }

/-- The loop of `Group::attach` over `disableWaitlist`. -/
def attachLoop :
    List DisableWaiter → Group → List Callback → Except Fault (Group × List Callback)
  | [], g, acts => Except.ok (g, acts)
  | w :: ws, g, acts =>
    match (g.heap w.process).enabled with
    | EnabledStatus.ENABLED => Except.error Fault.assertion
    | EnabledStatus.DISABLED => attachLoop ws g (acts ++ [Callback.plain w.callback])
    | EnabledStatus.DISABLING =>
      if w.process ∈ g.processes ∧ w.process ∈ g.pqueue.members then
        attachLoop ws (g.moveToDisabled w.process) (acts ++ [Callback.plain w.callback])
      else Except.error Fault.invalidIterator

/-- The first part of `Group::attach`, up to `count++`: the process joins the group
as an enabled process. -/
def addEnabled (g : Group) (process : Nat) : Group :=
  { g with
    heap := setProcess g.heap process
      { g.heap process with group := some g.self, enabled := EnabledStatus.ENABLED }
    processes := g.processes ++ [process]
    pqueue := g.pqueue.push process (g.heap process).usage
    count := g.count + 1 }

/-- Method `Group::attach`. -/
def attach (g : Group) (process : Nat) (postLockActions : List Callback) :
    Except Fault (Group × List Callback) :=
  if (g.heap process).group = none then
    match attachLoop g.disableWaitlist (g.addEnabled process) postLockActions with
    | Except.error f => Except.error f
    | Except.ok (g2, acts) => Except.ok ({ g2 with disableWaitlist := [] }, acts)
  else Except.error Fault.assertion

/-- Method `Group::detach`. -/
def detach (g : Group) (process : Nat) (postLockActions : List Callback) :
    Except Fault (Group × List Callback) :=
  if (g.heap process).group = some g.self then
    if (g.heap process).enabled = EnabledStatus.ENABLED
        ∨ (g.heap process).enabled = EnabledStatus.DISABLING then
      if 0 < g.count then
        if process ∈ g.processes ∧ process ∈ g.pqueue.members then
          let g1 : Group :=
            { g with
              heap := setProcess g.heap process { g.heap process with group := none }
              processes := g.processes.erase process
              pqueue := g.pqueue.eraseProcess process
              count := g.count - 1 }
          if (g1.heap process).enabled = EnabledStatus.DISABLING then
            Except.ok
              (removeFromDisableWaitlist { g1 with disablingCount := g1.disablingCount - 1 }
                process postLockActions)
          else Except.ok (g1, postLockActions)
        else Except.error Fault.invalidIterator
      else Except.error Fault.assertion
    else
      if g.disabledProcesses ≠ [] then
        if process ∈ g.disabledProcesses then
          Except.ok
            ({ g with
                heap := setProcess g.heap process { g.heap process with group := none }
                disabledProcesses := g.disabledProcesses.erase process
                disabledCount := g.disabledCount - 1 },
              postLockActions)
        else Except.error Fault.invalidIterator
      else Except.error Fault.assertion
  else Except.error Fault.assertion

/-- The first loop of `Group::detachAll`: clears the group of every listed process. -/
def clearGroups : List Nat → (Nat → Process) → (Nat → Process)
  | [], heap => heap
  | p :: ps, heap => clearGroups ps (setProcess heap p { heap p with group := none })

/-- The second loop of `Group::detachAll`, over `disableWaitlist`. -/
def detachAllLoop (heap : Nat → Process) :
    List DisableWaiter → List Callback → Except Fault (List Callback)
  | [], acts => Except.ok acts
  | w :: ws, acts =>
    if (heap w.process).enabled = EnabledStatus.DISABLING then
      detachAllLoop heap ws (acts ++ [Callback.plain w.callback])
    else Except.error Fault.assertion

/-- Method `Group::detachAll`. -/
def detachAll (g : Group) (postLockActions : List Callback) :
    Except Fault (Group × List Callback) :=
  let heap1 := clearGroups g.processes g.heap
  match detachAllLoop heap1 g.disableWaitlist postLockActions with
  | Except.error f => Except.error f
  | Except.ok acts =>
    Except.ok
      ({ g with
          heap := heap1
          processes := []
          disabledProcesses := []
          pqueue := []
          count := 0
          disablingCount := 0
          disabledCount := 0
          disableWaitlist := [] },
        acts)

/-- Method `Group::enable`. -/
def enable (g : Group) (process : Nat) (postLockActions : List Callback) :
    Except Fault (Group × List Callback) :=
  if (g.heap process).group = some g.self then
    match (g.heap process).enabled with
    | EnabledStatus.DISABLING =>
      Except.ok
        (removeFromDisableWaitlist
          { g with
            heap := setProcess g.heap process
              { g.heap process with enabled := EnabledStatus.ENABLED }
            disablingCount := g.disablingCount - 1 }
          process postLockActions)
    | EnabledStatus.DISABLED =>
      if process ∈ g.disabledProcesses then
        Except.ok
          ({ g with
              heap := setProcess g.heap process
                { g.heap process with enabled := EnabledStatus.ENABLED }
              disabledProcesses := g.disabledProcesses.erase process
              processes := g.processes ++ [process]
              pqueue := g.pqueue.push process (g.heap process).usage
              count := g.count + 1
              disabledCount := g.disabledCount - 1 },
            postLockActions)
      else Except.error Fault.invalidIterator
    | EnabledStatus.ENABLED => Except.ok (g, postLockActions)
  else Except.error Fault.assertion

/-- Method `Group::disable`; the result `true` is the synchronous answer and `false` the
pending one. -/
def disable (g : Group) (process : Nat) (callback : Nat) : Except Fault (Group × Bool) :=
  if (g.heap process).group = some g.self then
    match (g.heap process).enabled with
    | EnabledStatus.ENABLED =>
      if 0 < g.count then
        if g.count - g.disablingCount = 1 then
          Except.ok
            (spawn
              { g with
                heap := setProcess g.heap process
                  { g.heap process with enabled := EnabledStatus.DISABLING }
                disablingCount := g.disablingCount + 1
                disableWaitlist :=
                  g.disableWaitlist ++ [{ process := process, callback := callback }] },
              false)
        else if 1 < g.count - g.disablingCount then
          if process ∈ g.processes ∧ process ∈ g.pqueue.members then
            Except.ok
              ({ g with
                  heap := setProcess g.heap process
                    { g.heap process with enabled := EnabledStatus.DISABLED }
                  processes := g.processes.erase process
                  disabledProcesses := g.disabledProcesses ++ [process]
                  pqueue := g.pqueue.eraseProcess process },
                true)
          else Except.error Fault.invalidIterator
        else Except.error Fault.assertion
      else Except.error Fault.assertion
    | EnabledStatus.DISABLING =>
      Except.ok
        ({ g with
            disableWaitlist :=
              g.disableWaitlist ++ [{ process := process, callback := callback }] },
          false)
    | EnabledStatus.DISABLED => Except.ok (g, true)
  else Except.error Fault.assertion

end Group

/-- The group after `n` sessions were opened in a row by `newSession`, each on the
top process of its time; a fault ends the iteration. -/
def afterSessions : Nat → Group → Group
  | 0, g => g
  | n + 1, g =>
    match g.newSession with
    | Except.ok (g1, _) => afterSessions n g1
    | Except.error _ => g

/-- The distinct elements of a list, in the order of their first occurrence. -/
def distinct : List Nat → List Nat
  | [] => []
  | a :: l => a :: (distinct l).filter (fun x => decide (x ≠ a))

/-- The callbacks of a list of disable waiters, as actions. -/
def disableCallbacks (ws : List DisableWaiter) : List Callback :=
  ws.map (fun w => Callback.plain w.callback)

/-- The distinct processes of a list of disable waiters that are tagged DISABLING
in the group, in the order of their first occurrence. -/
def pendingDisabling (g : Group) (ws : List DisableWaiter) : List Nat :=
  distinct ((ws.map DisableWaiter.process).filter
    (fun q => decide ((g.heap q).enabled = EnabledStatus.DISABLING)))

/-- A call of one of the operations of a group.  `get` carries the answer of
`shouldSpawn()` for that call; calls of `get` that restart the group are not
covered, `Group::restart` being outside `Group.h`. -/
inductive Op where
  | get (shouldSpawn : Bool) (newOptions : Options) (callback : Nat)
  | assignSessionsToGetWaiters
  | attach (process : Nat)
  | detach (process : Nat)
  | detachAll
  | enable (process : Nat)
  | disable (process : Nat) (callback : Nat)
  deriving DecidableEq, Repr

/-- The environment of a call of `get` that does not restart the group. -/
def Env.noRestart (shouldSpawn : Bool) : Env :=
  { needsRestart := fun _ _ => false
    restart := fun _ g => Except.ok g
    shouldSpawn := fun _ => shouldSpawn }

/-- The group left by one call, the actions starting from an empty list. -/
def step (g : Group) : Op → Except Fault Group
  | Op.get b o cb => (Group.get (Env.noRestart b) g o cb).map Prod.fst
  | Op.assignSessionsToGetWaiters => (g.assignSessionsToGetWaiters []).map Prod.fst
  | Op.attach p => (g.attach p []).map Prod.fst
  | Op.detach p => (g.detach p []).map Prod.fst
  | Op.detachAll => (g.detachAll []).map Prod.fst
  | Op.enable p => (g.enable p []).map Prod.fst
  | Op.disable p cb => (g.disable p cb).map Prod.fst

/-- Runs a sequence of calls, stopping at the first fault. -/
def run : Group → List Op → Except Fault Group
  | g, [] => Except.ok g
  | g, op :: ops =>
    match step g op with
    | Except.error f => Except.error f
    | Except.ok g1 => run g1 ops

/-- A group without processes and waiters, to which no process refers. -/
def Group.isEmptyGroup (g : Group) : Prop :=
  g.processes = [] ∧ g.disabledProcesses = [] ∧ g.pqueue = [] ∧
  g.count = 0 ∧ g.disablingCount = 0 ∧ g.disabledCount = 0 ∧
  g.getWaitlist = [] ∧ g.disableWaitlist = [] ∧
  ∀ p, (g.heap p).group ≠ some g.self

/-- The groups reached from an empty group by calls that satisfy `allowed`. -/
inductive Reachable (allowed : Op → Prop) : Group → Prop where
  | init (g : Group) : g.isEmptyGroup → Reachable allowed g
  | step (g g1 : Group) (op : Op) :
      Reachable allowed g → allowed op → step g op = Except.ok g1 → Reachable allowed g1

/-- Options used in the examples. -/
def exampleOptions : Options :=
  { maxRequests := 0, minProcesses := 1, statThrottleRate := 0, spawnerTimeout := 0,
    memoryLimit := 0, noop := false }

/-- An empty group at address 0; every process object is fresh, with a concurrency
cap of 2. -/
def emptyGroup : Group :=
  { self := 0
    heap := fun _ => { Process.make with concurrency := 2 }
    options := exampleOptions
    count := 0
    disablingCount := 0
    disabledCount := 0
    pqueue := []
    processes := []
    disabledProcesses := []
    getWaitlist := []
    disableWaitlist := []
    m_spawning := false
    spawnThreads := [] }

/-- A group at address 0 whose only process, at address 1, is enabled and idle. -/
def oneEnabled : Group :=
  { emptyGroup with
    heap := fun q =>
      if q = 1 then
        { enabled := EnabledStatus.ENABLED, group := some 0, sessions := 0, concurrency := 2 }
      else { Process.make with concurrency := 2 }
    count := 1
    pqueue := [{ process := 1, key := 0 }]
    processes := [1] }

/-- A group at address 0 whose only process, at address 1, is DISABLING, with two
disable callbacks waiting for it. -/
def oneDisabling : Group :=
  { emptyGroup with
    heap := fun q =>
      if q = 1 then
        { enabled := EnabledStatus.DISABLING, group := some 0, sessions := 0, concurrency := 2 }
      else { Process.make with concurrency := 2 }
    count := 1
    disablingCount := 1
    pqueue := [{ process := 1, key := 0 }]
    processes := [1]
    disableWaitlist := [{ process := 1, callback := 7 }, { process := 1, callback := 8 }]
    m_spawning := true
    spawnThreads := [exampleOptions] }

/-- The group `oneEnabled` with three `get` requests waiting: the state right after
the attach of process 1, whose concurrency cap is 2. -/
def oneEnabledThreeWaiting : Group :=
  { oneEnabled with
    getWaitlist :=
      [{ options := exampleOptions, callback := 5 }, { options := exampleOptions, callback := 6 },
        { options := exampleOptions, callback := 7 }] }

/-- The group on which `get` works after its options and spawn steps agrees with
the group before the call on everything but the options and the spawn state. -/
def SameProcesses (g g2 : Group) : Prop :=
  g2.self = g.self ∧ g2.heap = g.heap ∧ g2.count = g.count ∧
  g2.disablingCount = g.disablingCount ∧ g2.disabledCount = g.disabledCount ∧
  g2.pqueue = g.pqueue ∧ g2.processes = g.processes ∧
  g2.disabledProcesses = g.disabledProcesses ∧ g2.getWaitlist = g.getWaitlist ∧
  g2.disableWaitlist = g.disableWaitlist

/-- The priority queue lists every process at most once, and only processes of
this group that are not DISABLED. -/
def QueueInv (g : Group) : Prop :=
  g.pqueue.members.Nodup ∧
  ∀ q ∈ g.pqueue.members,
    (g.heap q).enabled ≠ EnabledStatus.DISABLED ∧ (g.heap q).group = some g.self

/-- Every entry of the disable wait list names a DISABLING process. -/
def WaitersInv (g : Group) : Prop :=
  ∀ w ∈ g.disableWaitlist, (g.heap w.process).enabled = EnabledStatus.DISABLING

/-- The group reached from the empty group by `attach(1)` and `disable(1, 7)`: its
only process is DISABLING and a spawn is under way. -/
def afterDisableLast : Group :=
  match run emptyGroup [Op.attach 1, Op.disable 1 7] with
  | Except.ok g => g
  | Except.error _ => emptyGroup

/-- An idle empty group whose spawner may be collected one second after its last
use. -/
def idleGroup : Group :=
  { emptyGroup with options := { exampleOptions with spawnerTimeout := 1 } }

/-- Request options that ask for a memory limit of 512 MB. -/
def limitOptions : Options := { exampleOptions with memoryLimit := 512 }

/-- A group at address 0 with two enabled processes: process 1 has one session open,
process 2 has none. -/
def twoLoaded : Group :=
  { emptyGroup with
    heap := fun q =>
      if q = 1 then
        { enabled := EnabledStatus.ENABLED, group := some 0, sessions := 1, concurrency := 2 }
      else if q = 2 then
        { enabled := EnabledStatus.ENABLED, group := some 0, sessions := 0, concurrency := 2 }
      else { Process.make with concurrency := 2 }
    count := 2
    pqueue := [{ process := 1, key := 1 }, { process := 2, key := 0 }]
    processes := [1, 2] }

/-- The lists of a group agree with its priority queue and with the process
objects: the queue lists the processes of `processes`, each once; the processes
of `disabledProcesses`, each listed once, are the DISABLED processes that refer
to the group; every other process that refers to the group is in `processes`;
and `count` is at least the length of `processes`. -/
structure ListInv (g : Group) : Prop where
  queue : QueueInv g
  index : g.pqueue.members.Perm g.processes
  disabled_nodup : g.disabledProcesses.Nodup
  disabled_tag : ∀ x ∈ g.disabledProcesses,
    (g.heap x).enabled = EnabledStatus.DISABLED ∧ (g.heap x).group = some g.self
  member : ∀ x, (g.heap x).group = some g.self →
    (g.heap x).enabled ≠ EnabledStatus.DISABLED → x ∈ g.processes
  count_ge : (g.processes.length : Int) ≤ g.count

/-- The disable wait list names exactly the DISABLING processes of `processes`,
and `disablingCount` is the number of distinct processes it names. -/
structure WaitInv (g : Group) : Prop where
  waiters : WaitersInv g
  disabling_eq :
    g.disablingCount = ((distinct (g.disableWaitlist.map DisableWaiter.process)).length : Int)
  listed : ∀ w ∈ g.disableWaitlist, w.process ∈ g.processes
  waits : ∀ x ∈ g.processes, (g.heap x).enabled = EnabledStatus.DISABLING →
    x ∈ g.disableWaitlist.map DisableWaiter.process

/-- The group reached from the empty group by `attach(1)`, `attach(2)` and
`disable(1, 7)`: process 2 is enabled and process 1 is disabled. -/
def afterDisableOfTwo : Group :=
  match run emptyGroup [Op.attach 1, Op.attach 2, Op.disable 1 7] with
  | Except.ok g => g
  | Except.error _ => emptyGroup

/-- The group reached from the empty group by `attach(1)`, `disable(1, 7)` and
`disable(1, 8)`: its only process is DISABLING, with two entries in the disable
wait list. -/
def afterDisableTwice : Group :=
  match run emptyGroup [Op.attach 1, Op.disable 1 7, Op.disable 1 8] with
  | Except.ok g => g
  | Except.error _ => emptyGroup

/-- The group reached from the empty group by `attach(1)` and `attach(2)`: two
enabled processes. -/
def twoAttached : Group :=
  match run emptyGroup [Op.attach 1, Op.attach 2] with
  | Except.ok g => g
  | Except.error _ => emptyGroup

/-- The group reached from the empty group by `attach(1)`, `attach(2)`,
`disable(1, 7)` and `detachAll`: process 1 was disabled when all processes were
detached. -/
def afterDetachAllOfDisabled : Group :=
  match run emptyGroup [Op.attach 1, Op.attach 2, Op.disable 1 7, Op.detachAll] with
  | Except.ok g => g
  | Except.error _ => emptyGroup

/-- Modelled from the spec: `ProcessMetrics` is declared outside the sources; the
real memory of a process, `realMemory()`, is a size in KB. -/
structure ProcessMetrics where
  realMemory : Nat
  deriving DecidableEq, Repr

/-- The part of a process object that `Pool::updateProcessMetrics` reads or writes:
its pid, its group (`getGroup()`, `none` for `NULL`), its last metrics, and the
answers of `isDummy()` and `osProcessExists()`. -/
structure PoolProcess where
  pid : Int
  group : Option Nat
  metrics : ProcessMetrics
  isDummy : Bool
  osProcessExists : Bool
  deriving DecidableEq, Repr

namespace Pool

/-- The assignment `process->metrics = metrics_it->second`. -/
def setMetrics (heap : Nat → PoolProcess) (process : Nat) (m : ProcessMetrics) :
    Nat → PoolProcess :=
  fun q => if q = process then { heap process with metrics := m } else heap q

/-- Method `Pool::updateProcessMetrics`.  The processes are addresses into the store
`heap`, `groups` gives the options of the group at an address, and `allMetrics`
is the lookup `allMetrics.find` by pid. -/
def updateProcessMetrics (groups : Nat → Options) (allMetrics : Int → Option ProcessMetrics) :
    List Nat → (Nat → PoolProcess) → List Nat → Except Fault ((Nat → PoolProcess) × List Nat)
  | [], heap, processesToDetach => Except.ok (heap, processesToDetach)
  | process :: rest, heap, processesToDetach =>
    match allMetrics (heap process).pid with
    | some m =>
      match (setMetrics heap process m process).group with
      | none => Except.error Fault.nullPointer
      | some group =>
        if 0 < (groups group).memoryLimit
            ∧ (groups group).memoryLimit
              < (setMetrics heap process m process).metrics.realMemory / 1024 then
          updateProcessMetrics groups allMetrics rest (setMetrics heap process m)
            (processesToDetach ++ [process])
        else
          updateProcessMetrics groups allMetrics rest (setMetrics heap process m)
            processesToDetach
    | none =>
      if (!(heap process).isDummy && !(heap process).osProcessExists) = true then
        updateProcessMetrics groups allMetrics rest heap (processesToDetach ++ [process])
      else updateProcessMetrics groups allMetrics rest heap processesToDetach

/-- The detach decision in the words of the specification: a process is queued when
its pid has metrics, the memory limit of its group is positive and its real
memory in MB, `realMemory() / 1024`, is above the limit; or when its pid has no
metrics, it is not a dummy and it no longer exists in the OS. -/
def queuedForDetach (groups : Nat → Options) (allMetrics : Int → Option ProcessMetrics)
    (heap : Nat → PoolProcess) (process : Nat) : Bool :=
  match allMetrics (heap process).pid with
  | some m =>
    match (heap process).group with
    | some group =>
      decide (0 < (groups group).memoryLimit)
        && decide ((groups group).memoryLimit < m.realMemory / 1024)
    | none => false
  | none => !(heap process).isDummy && !(heap process).osProcessExists

/-- Two stores agree on everything but the metrics of the processes. -/
def SameIdentity (heap1 heap : Nat → PoolProcess) : Prop :=
  ∀ q, (heap1 q).pid = (heap q).pid ∧ (heap1 q).group = (heap q).group ∧
    (heap1 q).isDummy = (heap q).isDummy ∧ (heap1 q).osProcessExists = (heap q).osProcessExists

end Pool

/-- A store in which every address holds a process with pid 10, in the group at
address 0, not a dummy and alive. -/
def measuredHeap : Nat → PoolProcess :=
  fun _ =>
    { pid := 10, group := some 0, metrics := { realMemory := 0 }, isDummy := false,
      osProcessExists := true }

/-- The metrics reported for pid 10: a real memory of 512 MB and 1023 KB. -/
def measuredMetrics : Int → Option ProcessMetrics :=
  fun pid => if pid = 10 then some { realMemory := 525311 } else none

/-- The struct `Group::GetAction`: the get callback, `none` for an empty function
object, and the session to hand to it, `none` for a null pointer. -/
structure GetAction where
  callback : Option Nat
  session : Option Session
  deriving DecidableEq, Repr

/-- One `assert` of `Group::verifyInvariants`. -/
def assertThat (b : Bool) : Except Fault Unit :=
  if b then Except.ok () else Except.error Fault.assertion

/-- The call `pqueue.top()->atFullCapacity()`. -/
def Group.topAtFullCapacity (g : Group) : Except Fault Bool :=
  match g.pqueue.top with
  | none => Except.error Fault.nullPointer
  | some p => Except.ok (g.heap p).atFullCapacity

/-- Method `Group::verifyInvariants`: its assertions in their order, the operands of
`||` and `&&` being evaluated from left to right as far as needed. -/
def Group.verifyInvariants (g : Group) : Except Fault Unit := do
  assertThat (decide (0 ≤ g.count))
  assertThat (decide (0 ≤ g.disablingCount) && decide (g.disablingCount ≤ g.count))
  assertThat (g.processes.isEmpty == decide (g.count = 0))
  assertThat (g.processes.isEmpty == g.pqueue.top.isNone)
  assertThat (decide (0 ≤ g.disabledCount))
  assertThat (g.disabledProcesses.isEmpty == decide (g.disabledCount = 0))
  assertThat (!(decide (0 < g.count) && decide (g.disablingCount = g.count)) || g.spawning)
  let served ←
    if g.getWaitlist.isEmpty then pure true
    else if g.processes.isEmpty then pure true
    else g.topAtFullCapacity
  assertThat served
  let waiting ←
    if g.processes.isEmpty then pure true
    else g.topAtFullCapacity >>= fun full =>
      if full then pure true else pure g.getWaitlist.isEmpty
  assertThat waiting
  assertThat (!(g.processes.isEmpty && !g.spawning) || g.getWaitlist.isEmpty)
  assertThat (g.getWaitlist.isEmpty || (!g.processes.isEmpty || g.spawning))
  assertThat (decide (g.disablingCount ≤ (g.disableWaitlist.length : Int)))

/-- The loop of the array branch of `Group::assignSessionsToGetWaitersQuickly`: the
part of `getWaitlist` still to be served, the group, the array `actions` and the
`unsigned int` counter `count`.  A write past the end of the array is a fault. -/
def Group.quickArrayLoop :
    List GetWaiter → Group → List GetAction → Nat →
      Except Fault (Group × List GetAction × Nat)
  | [], g, actions, count => Except.ok ({ g with getWaitlist := [] }, actions, count)
  | w :: ws, g, actions, count =>
    match g.pqueue.top with
    | none => Except.ok ({ g with getWaitlist := w :: ws }, actions, count)
    | some p =>
      if (g.heap p).atFullCapacity then
        Except.ok ({ g with getWaitlist := w :: ws }, actions, count)
      else if count < actions.length then
        match g.newSession with
        | Except.error f => Except.error f
        | Except.ok (g1, s) =>
          Group.quickArrayLoop ws g1
            (actions.set count { callback := some w.callback, session := some s })
            ((count + 1) % 2 ^ 32)
      else Except.error Fault.outOfBounds

/-- The calls `actions[i].callback(actions[i].session, ExceptionPtr())` of the array
branch, for `i` from the given index, `n` rounds being left; the calls made are
collected in order.  Calling an empty function object is a fault. -/
def Group.callArray (actions : List GetAction) :
    Nat → Nat → List Callback → Except Fault (List Callback)
  | _, 0, called => Except.ok called
  | i, n + 1, called =>
    match actions[i]? with
    | none => Except.error Fault.outOfBounds
    | some a =>
      match a.callback with
      | none => Except.error Fault.badFunctionCall
      | some cb =>
        Group.callArray actions (i + 1) n (called ++ [Callback.bound cb a.session none])

/-- The loop of the vector branch of `Group::assignSessionsToGetWaitersQuickly`. -/
def Group.quickVectorLoop :
    List GetWaiter → Group → List GetAction → Except Fault (Group × List GetAction)
  | [], g, actions => Except.ok ({ g with getWaitlist := [] }, actions)
  | w :: ws, g, actions =>
    match g.pqueue.top with
    | none => Except.ok ({ g with getWaitlist := w :: ws }, actions)
    | some p =>
      if (g.heap p).atFullCapacity then
        Except.ok ({ g with getWaitlist := w :: ws }, actions)
      else
        match g.newSession with
        | Except.error f => Except.error f
        | Except.ok (g1, s) =>
          Group.quickVectorLoop ws g1
            (actions ++ [{ callback := some w.callback, session := some s }])

/-- The calls `it->callback(it->session, ExceptionPtr())` of the vector branch, in
order. -/
def Group.callVector : List GetAction → List Callback → Except Fault (List Callback)
  | [], called => Except.ok called
  | a :: rest, called =>
    match a.callback with
    | none => Except.error Fault.badFunctionCall
    | some cb => Group.callVector rest (called ++ [Callback.bound cb a.session none])

/-- The array branch of `Group::assignSessionsToGetWaitersQuickly`: the loop over an
array of `getWaitlist.size()` actions, `verifyInvariants()`, then the calls, which
the function makes itself once the lock is released; they are returned in the
order in which they are made. -/
def Group.quicklyArray (g : Group) : Except Fault (Group × List Callback) :=
  match Group.quickArrayLoop g.getWaitlist g
      (List.replicate g.getWaitlist.length { callback := none, session := none }) 0 with
  | Except.error f => Except.error f
  | Except.ok (g1, actions, count) =>
    match g1.verifyInvariants with
    | Except.error f => Except.error f
    | Except.ok _ =>
      match Group.callArray actions 0 count [] with
      | Except.error f => Except.error f
      | Except.ok called => Except.ok (g1, called)

/-- The vector branch of `Group::assignSessionsToGetWaitersQuickly`. -/
def Group.quicklyVector (g : Group) : Except Fault (Group × List Callback) :=
  match Group.quickVectorLoop g.getWaitlist g [] with
  | Except.error f => Except.error f
  | Except.ok (g1, actions) =>
    match g1.verifyInvariants with
    | Except.error f => Except.error f
    | Except.ok _ =>
      match Group.callVector actions [] with
      | Except.error f => Except.error f
      | Except.ok called => Except.ok (g1, called)

/-- Method `Group::assignSessionsToGetWaitersQuickly`; `clang` tells whether the
array branch was compiled out (`__clang__`). -/
def Group.assignSessionsToGetWaitersQuickly (clang : Bool) (g : Group) :
    Except Fault (Group × List Callback) :=
  if clang = false ∧ g.getWaitlist.length < 50 then g.quicklyArray else g.quicklyVector

/-- The drain followed by the check of `verifyInvariants()` on the group it
leaves. -/
def Group.drainThenVerify (g : Group) : Except Fault (Group × List Callback) :=
  match g.assignSessionsToGetWaiters [] with
  | Except.error f => Except.error f
  | Except.ok (g1, acts) =>
    match g1.verifyInvariants with
    | Except.error f => Except.error f
    | Except.ok _ => Except.ok (g1, acts)

/-- The group reached from the empty group by a `get` that starts a spawn and waits,
`attach(1)`, `attach(2)` and `disable(1, 7)`: a request waits, process 2 can
serve it, and process 1 is disabled. -/
def waitingAfterDisable : Group :=
  match run emptyGroup
      [Op.get true exampleOptions 5, Op.attach 1, Op.attach 2, Op.disable 1 7] with
  | Except.ok g => g
  | Except.error _ => emptyGroup

/-- Every DISABLED process that refers to the group is in `disabledProcesses`. -/
def DisabledListed (g : Group) : Prop :=
  ∀ x, (g.heap x).group = some g.self → (g.heap x).enabled = EnabledStatus.DISABLED →
    x ∈ g.disabledProcesses

/-- The group reached from the empty group by `attach(1)`, `attach(2)`,
`disable(1, 7)` and `disable(2, 8)`: both calls of `disable` were synchronous, no
process is left in `processes` and `count` is still 2. -/
def afterTwoSyncDisables : Group :=
  match run emptyGroup [Op.attach 1, Op.attach 2, Op.disable 1 7, Op.disable 2 8] with
  | Except.ok g => g
  | Except.error _ => emptyGroup

/-- The calls `attach`, `enable` and `disable`. -/
def Op.isAttachEnableDisable : Op → Bool
  | Op.attach _ => true
  | Op.enable _ => true
  | Op.disable _ _ => true
  | _ => false

/-! ## Elementary facts about the helpers -/

theorem setProcess_same (heap : Nat → Process) (p : Nat) (v : Process) :
    setProcess heap p v p = v := by
  simp [setProcess]

theorem setProcess_other (heap : Nat → Process) (p q : Nat) (v : Process) (h : q ≠ p) :
    setProcess heap p v q = heap q := by
  simp [setProcess, h]

theorem spawn_spawning (g : Group) : g.spawn.spawning = true := by
  unfold Group.spawn
  split
  · assumption
  · rfl

theorem spawn_count (g : Group) : g.spawn.count = g.count := by
  unfold Group.spawn; split <;> rfl

theorem spawn_pqueue (g : Group) : g.spawn.pqueue = g.pqueue := by
  unfold Group.spawn; split <;> rfl

theorem spawn_heap (g : Group) : g.spawn.heap = g.heap := by
  unfold Group.spawn; split <;> rfl

theorem spawn_getWaitlist (g : Group) : g.spawn.getWaitlist = g.getWaitlist := by
  unfold Group.spawn; split <;> rfl

theorem spawn_disableWaitlist (g : Group) : g.spawn.disableWaitlist = g.disableWaitlist := by
  unfold Group.spawn; split <;> rfl

theorem spawn_processes (g : Group) : g.spawn.processes = g.processes := by
  unfold Group.spawn; split <;> rfl

theorem spawn_disabledProcesses (g : Group) :
    g.spawn.disabledProcesses = g.disabledProcesses := by
  unfold Group.spawn; split <;> rfl

theorem spawn_disablingCount (g : Group) : g.spawn.disablingCount = g.disablingCount := by
  unfold Group.spawn; split <;> rfl

theorem spawn_disabledCount (g : Group) : g.spawn.disabledCount = g.disabledCount := by
  unfold Group.spawn; split <;> rfl

theorem spawn_self (g : Group) : g.spawn.self = g.self := by
  unfold Group.spawn; split <;> rfl

/-- What `newSession` returns when its assertion holds and the queue has a top. -/
theorem newSession_ok (g : Group) (p : Nat) (hc : 0 < g.count) (ht : g.pqueue.top = some p) :
    g.newSession = Except.ok
      ({ g with
          heap := setProcess g.heap p (g.heap p).newSession
          pqueue := (g.pqueue.pop).push p (setProcess g.heap p (g.heap p).newSession p).usage },
        { process := ProcessRef.ptr p, onInitiateFailure := true, onClose := true }) := by
  simp [Group.newSession, hc, ht]

/-! ## Totality of `get` -/

/-- Totality of `get` on a call that is not a no-op and does not restart the group:
when the assertions of `get` hold (`count` is not negative, a group without
processes is spawning once `get` has had its chance to start a spawn, a group
with processes has a top process) the call returns, with the result that the
dispatch rule prescribes. -/
theorem get_total (env : Env) (g : Group) (newOptions : Options) (callback : Nat)
    (hrestart : env.needsRestart g newOptions = false)
    (hnoop : newOptions.noop = false)
    (hcount : 0 ≤ g.count)
    (hspawning : g.count = 0 →
      g.spawning = true ∨ env.shouldSpawn (g.mergeOptions newOptions) = true)
    (htop : 0 < g.count → g.pqueue.top ≠ none) :
    ∃ g1 r, Group.get env g newOptions callback = Except.ok (g1, r) ∧
      (r ≠ none ↔
        0 < g.count ∧ ∃ p, g.pqueue.top = some p ∧ (g.heap p).atFullCapacity = false) ∧
      (∀ s, r = some s →
        g1.getWaitlist = g.getWaitlist ∧ g1.disableWaitlist = g.disableWaitlist ∧
        ∃ p, g.pqueue.top = some p ∧ s.process = ProcessRef.ptr p) ∧
      (r = none →
        g1.getWaitlist = g.getWaitlist ++ [{ options := newOptions, callback := callback }]) := by
  obtain ⟨g2, hg2, hc2, hq2, hh2, hw2, hd2, hs2⟩ :
      ∃ g2 : Group,
        g2 = (if env.shouldSpawn (g.mergeOptions newOptions) = true
          then (g.mergeOptions newOptions).spawn else g.mergeOptions newOptions) ∧
        g2.count = g.count ∧ g2.pqueue = g.pqueue ∧ g2.heap = g.heap ∧
        g2.getWaitlist = g.getWaitlist ∧ g2.disableWaitlist = g.disableWaitlist ∧
        (g.count = 0 → g2.spawning = true) := by
    refine ⟨_, rfl, ?_, ?_, ?_, ?_, ?_, ?_⟩
    · split
      · rw [spawn_count]; rfl
      · rfl
    · split
      · rw [spawn_pqueue]; rfl
      · rfl
    · split
      · rw [spawn_heap]; rfl
      · rfl
    · split
      · rw [spawn_getWaitlist]; rfl
      · rfl
    · split
      · rw [spawn_disableWaitlist]; rfl
      · rfl
    · intro h0
      split
      · exact spawn_spawning _
      · rename_i hns
        rcases hspawning h0 with h | h
        · exact h
        · exact absurd h hns
  have hget : Group.get env g newOptions callback =
      (if g2.count = 0 then
        if g2.spawning then
          Except.ok
            ({ g2 with getWaitlist :=
                g2.getWaitlist ++ [{ options := newOptions, callback := callback }] },
              none)
        else Except.error Fault.assertion
      else
        match g2.pqueue.top with
        | none => Except.error Fault.assertion
        | some p =>
          if (g2.heap p).atFullCapacity then
            Except.ok
              ({ g2 with getWaitlist :=
                  g2.getWaitlist ++ [{ options := newOptions, callback := callback }] },
                none)
          else
            match g2.newSession with
            | Except.error f => Except.error f
            | Except.ok (g3, s) => Except.ok (g3, some s)) := by
    simp only [Group.get, hrestart, hnoop, hg2]
    simp
  rw [hget]
  by_cases h0 : g.count = 0
  · have hs := hs2 h0
    rw [if_pos (by rw [hc2]; exact h0), if_pos hs]
    refine ⟨_, none, rfl, ?_, ?_, ?_⟩
    · simp [h0]
    · intro s hs1; cases hs1
    · intro _; simp [hw2]
  · have hpos : 0 < g.count := lt_of_le_of_ne hcount (Ne.symm h0)
    have hpos2 : 0 < g2.count := by rw [hc2]; exact hpos
    rw [if_neg (by rw [hc2]; exact h0)]
    cases ht : g.pqueue.top with
    | none => exact absurd ht (htop hpos)
    | some p =>
      have ht2 : g2.pqueue.top = some p := by rw [hq2]; exact ht
      simp only [ht2]
      cases hf : (g.heap p).atFullCapacity with
      | true =>
        rw [if_pos (by rw [hh2]; exact hf)]
        refine ⟨_, none, rfl, ?_, ?_, ?_⟩
        · simp [hf]
        · intro s hs1; cases hs1
        · intro _; simp [hw2]
      | false =>
        rw [if_neg (by rw [hh2, hf]; simp), newSession_ok g2 p hpos2 ht2]
        refine ⟨_, _, rfl, ?_, ?_, ?_⟩
        · simp [hpos, hf]
        · intro s hs1
          cases hs1
          exact ⟨hw2, hd2, p, rfl, rfl⟩
        · intro hn; cases hn

/-! ## Runs from the empty group -/

theorem emptyGroup_isEmptyGroup : emptyGroup.isEmptyGroup := by
  refine ⟨rfl, rfl, rfl, rfl, rfl, rfl, rfl, rfl, ?_⟩
  intro p h
  simp [emptyGroup, Process.make] at h

theorem reachable_of_run (allowed : Op → Prop) (ops : List Op) :
    ∀ g g1 : Group, Reachable allowed g → (∀ op ∈ ops, allowed op) →
      run g ops = Except.ok g1 → Reachable allowed g1 := by
  induction ops with
  | nil =>
    intro g g1 hg _ hrun
    simp only [run, Except.ok.injEq] at hrun
    exact hrun ▸ hg
  | cons op ops ih =>
    intro g g1 hg hall hrun
    simp only [run] at hrun
    cases hstep : step g op with
    | error f => rw [hstep] at hrun; cases hrun
    | ok g2 =>
      rw [hstep] at hrun
      exact ih g2 g1 (Reachable.step g g2 op hg (hall op (List.mem_cons_self _ _)) hstep)
        (fun o ho => hall o (List.mem_cons_of_mem _ ho)) hrun

/-! ## C2 and C3: the synchronous branch of `disable` leaves the counters alone -/

/-- C2, evaluated on the code: after `attach(1)` and `attach(2)` on an empty group
the counters agree with the lists; `disable(1)` then answers synchronously,
moves process 1 to `disabledProcesses`, and leaves `count = 2` with one process
listed and `disabledCount = 0` with one disabled process listed. -/
theorem disable_sync_counters_disagree :
    ∃ g g1, run emptyGroup [Op.attach 1, Op.attach 2] = Except.ok g ∧
      ((g.processes.length : Int) = g.count ∧
        (g.disabledProcesses.length : Int) = g.disabledCount) ∧
      (g.heap 1).enabled = EnabledStatus.ENABLED ∧ (g.heap 1).group = some g.self ∧
      g.disable 1 7 = Except.ok (g1, true) ∧
      g1.processes = [2] ∧ g1.count = 2 ∧
      g1.disabledProcesses = [1] ∧ g1.disabledCount = 0 := by
  refine ⟨_, _, rfl, ⟨by decide, by decide⟩, by decide, by decide, rfl, ?_, ?_, ?_, ?_⟩ <;> rfl

/-- C3, evaluated on the code: after `attach(1)`, `attach(2)` and `disable(1)` the
process 2 is the only enabled process of the group, and `disable(2)` still
answers synchronously and leaves `processes` and the priority queue empty,
because `count` is still 2. -/
theorem disable_sync_empties_processes :
    ∃ g g1, Reachable (fun op => op.isAttachEnableDisable = true) g ∧
      run emptyGroup [Op.attach 1, Op.attach 2, Op.disable 1 7] = Except.ok g ∧
      g.processes = [2] ∧ g.count = 2 ∧ g.disablingCount = 0 ∧
      (g.heap 2).enabled = EnabledStatus.ENABLED ∧ (g.heap 2).group = some g.self ∧
      g.disable 2 8 = Except.ok (g1, true) ∧
      g1.processes = [] ∧ g1.pqueue = [] := by
  refine ⟨_, _, ?_, rfl, rfl, rfl, rfl, by decide, by decide, rfl, rfl, rfl⟩
  exact reachable_of_run _ [Op.attach 1, Op.attach 2, Op.disable 1 7] emptyGroup _
    (Reachable.init _ emptyGroup_isEmptyGroup) (by decide) rfl

/-! ## The drain of `disableWaitlist` in `attach` -/

theorem distinct_filter (f : Nat → Bool) (l : List Nat) :
    distinct (l.filter f) = (distinct l).filter f := by
  induction l with
  | nil => rfl
  | cons a l ih =>
    by_cases ha : f a = true
    · simp only [List.filter_cons_of_pos ha, distinct, ih, List.filter_filter]
      congr 1
      apply List.filter_congr
      intro x _
      exact Bool.and_comm _ _
    · simp only [List.filter_cons_of_neg ha, distinct, ih, List.filter_filter]
      apply List.filter_congr
      intro x _
      by_cases hx : x = a
      · subst hx; simp [ha]
      · simp [hx]

theorem mem_distinct (l : List Nat) (x : Nat) : x ∈ distinct l ↔ x ∈ l := by
  induction l with
  | nil => simp [distinct]
  | cons a l ih =>
    simp only [distinct, List.mem_cons, List.mem_filter, ih, decide_eq_true_eq]
    constructor
    · rintro (h | ⟨h, _⟩)
      · exact Or.inl h
      · exact Or.inr h
    · intro h
      by_cases hx : x = a
      · exact Or.inl hx
      · rcases h with h | h
        · exact absurd h hx
        · exact Or.inr ⟨h, hx⟩

theorem mem_members_eraseProcess_of_ne (q : PriorityQueue) (p x : Nat) (h : x ≠ p) :
    x ∈ (q.eraseProcess p).members ↔ x ∈ q.members := by
  induction q with
  | nil => simp [PriorityQueue.eraseProcess]
  | cons e es ih =>
    simp only [PriorityQueue.eraseProcess, PriorityQueue.members] at ih ⊢
    by_cases he : e.process = p
    · rw [List.eraseP_cons_of_pos (by simpa using he)]
      simp only [List.map_cons, List.mem_cons]
      constructor
      · exact Or.inr
      · rintro (h1 | h1)
        · exact absurd (h1.trans he) h
        · exact h1
    · rw [List.eraseP_cons_of_neg (by simpa using he)]
      simp only [List.map_cons, List.mem_cons, ih]

theorem pendingDisabling_cons_disabled (g : Group) (w : DisableWaiter)
    (ws : List DisableWaiter) (h : (g.heap w.process).enabled = EnabledStatus.DISABLED) :
    pendingDisabling g (w :: ws) = pendingDisabling g ws := by
  simp [pendingDisabling, h]

theorem pendingDisabling_cons_disabling (g : Group) (w : DisableWaiter)
    (ws : List DisableWaiter) (h : (g.heap w.process).enabled = EnabledStatus.DISABLING) :
    pendingDisabling g (w :: ws) =
      w.process :: pendingDisabling (g.moveToDisabled w.process) ws := by
  have hpred : (fun q => decide (((g.moveToDisabled w.process).heap q).enabled
        = EnabledStatus.DISABLING))
      = fun q => (decide (q ≠ w.process)
          && decide ((g.heap q).enabled = EnabledStatus.DISABLING)) := by
    funext q
    by_cases hq : q = w.process
    · simp [Group.moveToDisabled, setProcess, hq]
    · simp [Group.moveToDisabled, setProcess, hq]
  simp only [pendingDisabling, List.map_cons, h, decide_True, List.filter_cons_of_pos,
    distinct, hpred]
  rw [← List.filter_filter]
  simp only [distinct_filter]

theorem attachLoop_ok :
    ∀ (ws : List DisableWaiter) (g : Group) (acts : List Callback),
      (∀ w ∈ ws, (g.heap w.process).enabled = EnabledStatus.DISABLED ∨
        ((g.heap w.process).enabled = EnabledStatus.DISABLING ∧
          w.process ∈ g.processes ∧ w.process ∈ g.pqueue.members)) →
      Group.attachLoop ws g acts =
        Except.ok ((pendingDisabling g ws).foldl Group.moveToDisabled g,
          acts ++ disableCallbacks ws) := by
  intro ws
  induction ws with
  | nil =>
    intro g acts _
    simp [Group.attachLoop, pendingDisabling, distinct, disableCallbacks]
  | cons w ws ih =>
    intro g acts h
    have hw := h w (List.mem_cons_self _ _)
    rcases hw with hd | ⟨hd, hp, hq⟩
    · rw [pendingDisabling_cons_disabled g w ws hd]
      simp only [Group.attachLoop, hd]
      rw [ih g _ (fun x hx => h x (List.mem_cons_of_mem _ hx))]
      simp [disableCallbacks]
    · rw [pendingDisabling_cons_disabling g w ws hd]
      simp only [Group.attachLoop, hd, hp, hq, and_self, if_true, List.foldl_cons]
      rw [ih (g.moveToDisabled w.process) _ ?_]
      · simp [disableCallbacks]
      · intro x hx
        by_cases hxw : x.process = w.process
        · left
          simp [Group.moveToDisabled, setProcess, hxw]
        · rcases h x (List.mem_cons_of_mem _ hx) with h1 | ⟨h1, h2, h3⟩
          · left
            simpa [Group.moveToDisabled, setProcess, hxw] using h1
          · right
            refine ⟨by simpa [Group.moveToDisabled, setProcess, hxw] using h1, ?_, ?_⟩
            · exact (List.mem_erase_of_ne hxw).mpr h2
            · exact (mem_members_eraseProcess_of_ne _ _ _ hxw).mpr h3

theorem foldl_moveToDisabled_processes (D : List Nat) (g : Group) :
    (D.foldl Group.moveToDisabled g).processes = D.foldl List.erase g.processes := by
  induction D generalizing g with
  | nil => rfl
  | cons q D ih => simp only [List.foldl_cons, ih]; rfl

theorem foldl_moveToDisabled_pqueue (D : List Nat) (g : Group) :
    (D.foldl Group.moveToDisabled g).pqueue = D.foldl PriorityQueue.eraseProcess g.pqueue := by
  induction D generalizing g with
  | nil => rfl
  | cons q D ih => simp only [List.foldl_cons, ih]; rfl

theorem foldl_moveToDisabled_disabledProcesses (D : List Nat) (g : Group) :
    (D.foldl Group.moveToDisabled g).disabledProcesses = g.disabledProcesses ++ D := by
  induction D generalizing g with
  | nil => simp
  | cons q D ih => simp [List.foldl_cons, ih, Group.moveToDisabled]

theorem foldl_moveToDisabled_count (D : List Nat) (g : Group) :
    (D.foldl Group.moveToDisabled g).count = g.count - D.length := by
  induction D generalizing g with
  | nil => simp
  | cons q D ih =>
    simp only [List.foldl_cons, ih, Group.moveToDisabled, List.length_cons]
    push_cast
    ring

theorem foldl_moveToDisabled_disablingCount (D : List Nat) (g : Group) :
    (D.foldl Group.moveToDisabled g).disablingCount = g.disablingCount - D.length := by
  induction D generalizing g with
  | nil => simp
  | cons q D ih =>
    simp only [List.foldl_cons, ih, Group.moveToDisabled, List.length_cons]
    push_cast
    ring

theorem foldl_moveToDisabled_disabledCount (D : List Nat) (g : Group) :
    (D.foldl Group.moveToDisabled g).disabledCount = g.disabledCount + D.length := by
  induction D generalizing g with
  | nil => simp
  | cons q D ih =>
    simp only [List.foldl_cons, ih, Group.moveToDisabled, List.length_cons]
    push_cast
    ring

theorem foldl_moveToDisabled_frame (D : List Nat) (g : Group) :
    (D.foldl Group.moveToDisabled g).getWaitlist = g.getWaitlist ∧
    (D.foldl Group.moveToDisabled g).disableWaitlist = g.disableWaitlist ∧
    (D.foldl Group.moveToDisabled g).options = g.options ∧
    (D.foldl Group.moveToDisabled g).m_spawning = g.m_spawning ∧
    (D.foldl Group.moveToDisabled g).spawnThreads = g.spawnThreads ∧
    (D.foldl Group.moveToDisabled g).self = g.self := by
  induction D generalizing g with
  | nil => simp
  | cons q D ih => simp only [List.foldl_cons]; exact ih _

theorem foldl_moveToDisabled_heap (D : List Nat) (g : Group) (x : Nat) :
    (D.foldl Group.moveToDisabled g).heap x =
      if x ∈ D then { g.heap x with enabled := EnabledStatus.DISABLED } else g.heap x := by
  induction D generalizing g with
  | nil => simp
  | cons q D ih =>
    simp only [List.foldl_cons, ih, List.mem_cons]
    by_cases hx : x = q
    · subst hx
      by_cases hD : x ∈ D <;> simp [hD, Group.moveToDisabled, setProcess]
    · by_cases hD : x ∈ D <;> simp [hD, hx, Group.moveToDisabled, setProcess]

theorem pendingDisabling_addEnabled (g : Group) (p : Nat) (ws : List DisableWaiter)
    (h : ∀ w ∈ ws, w.process ≠ p) :
    pendingDisabling (g.addEnabled p) ws = pendingDisabling g ws := by
  unfold pendingDisabling
  congr 1
  apply List.filter_congr
  intro x hx
  obtain ⟨w, hw, rfl⟩ := List.mem_map.mp hx
  simp [Group.addEnabled, setProcess, h w hw]

/-- What `attach` returns when its assertions hold and its iterators are valid. -/
theorem attach_ok (g : Group) (p : Nat) (acts : List Callback)
    (hgrp : (g.heap p).group = none)
    (hws : ∀ w ∈ g.disableWaitlist, w.process ≠ p ∧
      ((g.heap w.process).enabled = EnabledStatus.DISABLED ∨
        ((g.heap w.process).enabled = EnabledStatus.DISABLING ∧
          w.process ∈ g.processes ∧ w.process ∈ g.pqueue.members))) :
    g.attach p acts =
      Except.ok
        ({ (pendingDisabling g g.disableWaitlist).foldl Group.moveToDisabled (g.addEnabled p)
            with disableWaitlist := [] },
          acts ++ disableCallbacks g.disableWaitlist) := by
  have hloop := attachLoop_ok g.disableWaitlist (g.addEnabled p) acts (by
    intro w hw
    obtain ⟨hne, h⟩ := hws w hw
    rcases h with h | ⟨h1, h2, h3⟩
    · left
      simpa [Group.addEnabled, setProcess, hne] using h
    · right
      refine ⟨by simpa [Group.addEnabled, setProcess, hne] using h1, ?_, ?_⟩
      · simp [Group.addEnabled, h2]
      · simp only [Group.addEnabled, PriorityQueue.push, PriorityQueue.members,
          List.map_append, List.mem_append]
        exact Or.inl h3)
  rw [pendingDisabling_addEnabled g p _ (fun w hw => (hws w hw).1)] at hloop
  simp only [Group.attach, hgrp, if_true, hloop]

theorem members_eraseProcess (q : PriorityQueue) (p : Nat) :
    (q.eraseProcess p).members = q.members.erase p := by
  induction q with
  | nil => rfl
  | cons e es ih =>
    simp only [PriorityQueue.eraseProcess, PriorityQueue.members] at ih ⊢
    by_cases he : e.process = p
    · rw [List.eraseP_cons_of_pos (by simpa using he)]
      simp [he]
    · rw [List.eraseP_cons_of_neg (by simpa using he)]
      simp only [List.map_cons, ih]
      rw [List.erase_cons_tail (by simpa using he)]

theorem members_foldl_eraseProcess (D : List Nat) (q : PriorityQueue) :
    (D.foldl PriorityQueue.eraseProcess q).members = D.foldl List.erase q.members := by
  induction D generalizing q with
  | nil => rfl
  | cons d D ih => simp only [List.foldl_cons, ih, members_eraseProcess]

theorem erase_append_singleton (l : List Nat) (p q : Nat) (h : q ≠ p) :
    (l ++ [p]).erase q = l.erase q ++ [p] := by
  by_cases hq : q ∈ l
  · exact List.erase_append_left _ hq
  · rw [List.erase_append_right _ hq, List.erase_of_not_mem hq]
    congr 1
    exact List.erase_of_not_mem (by simpa using h)

theorem foldl_erase_append_singleton (D : List Nat) (l : List Nat) (p : Nat) (h : p ∉ D) :
    D.foldl List.erase (l ++ [p]) = D.foldl List.erase l ++ [p] := by
  induction D generalizing l with
  | nil => rfl
  | cons d D ih =>
    simp only [List.mem_cons, not_or] at h
    simp only [List.foldl_cons]
    rw [erase_append_singleton l p d (Ne.symm h.1), ih _ h.2]

theorem count_foldl_erase_le (D : List Nat) (l : List Nat) (x : Nat) :
    (D.foldl List.erase l).count x ≤ l.count x := by
  induction D generalizing l with
  | nil => exact le_refl _
  | cons d D ih =>
    simp only [List.foldl_cons]
    exact le_trans (ih _) ((List.erase_sublist d l).count_le x)

theorem not_mem_foldl_erase (D : List Nat) (l : List Nat) (x : Nat) (hx : x ∈ D)
    (hl : l.count x ≤ 1) : x ∉ D.foldl List.erase l := by
  induction D generalizing l with
  | nil => cases hx
  | cons d D ih =>
    simp only [List.foldl_cons]
    by_cases hd : x = d
    · subst hd
      have h0 : (l.erase x).count x = 0 := by
        rw [List.count_erase_self]
        omega
      have h1 := count_foldl_erase_le D (l.erase x) x
      exact List.count_eq_zero.mp (by omega)
    · have hxD : x ∈ D := by
        rcases List.mem_cons.mp hx with h | h
        · exact absurd h hd
        · exact h
      apply ih _ hxD
      rw [List.count_erase_of_ne hd]
      exact hl

theorem pendingDisabling_all (g : Group) (ws : List DisableWaiter)
    (h : ∀ w ∈ ws, (g.heap w.process).enabled = EnabledStatus.DISABLING) :
    pendingDisabling g ws = distinct (ws.map DisableWaiter.process) := by
  unfold pendingDisabling
  congr 1
  apply List.filter_eq_self.mpr
  intro x hx
  obtain ⟨w, hw, rfl⟩ := List.mem_map.mp hx
  simp [h w hw]

/-! ## Totality of `attach` -/

/-- Totality of `attach`: when p has no group, every waiting process is DISABLING
with its nodes in `processes` and `pqueue`, and p itself is not waiting, the call
returns, and the result is the drained group. -/
theorem attach_total (g : Group) (p : Nat) (acts : List Callback)
    (hgrp : (g.heap p).group = none)
    (hws : ∀ w ∈ g.disableWaitlist,
      (g.heap w.process).enabled = EnabledStatus.DISABLING ∧ w.process ∈ g.processes)
    (hpq : ∀ w ∈ g.disableWaitlist, w.process ∈ g.pqueue.members)
    (hp : ∀ w ∈ g.disableWaitlist, w.process ≠ p) :
    ∃ g1, g.attach p acts = Except.ok (g1, acts ++ disableCallbacks g.disableWaitlist) ∧
      (g1.heap p).enabled = EnabledStatus.ENABLED ∧
      g1.processes.getLast? = some p ∧ p ∈ g1.pqueue.members ∧
      g1.disableWaitlist = [] ∧
      (∀ q ∈ distinct (g.disableWaitlist.map DisableWaiter.process),
        (g1.heap q).enabled = EnabledStatus.DISABLED) ∧
      g1.processes =
        (distinct (g.disableWaitlist.map DisableWaiter.process)).foldl List.erase
          (g.processes ++ [p]) ∧
      g1.pqueue =
        (distinct (g.disableWaitlist.map DisableWaiter.process)).foldl
          PriorityQueue.eraseProcess (g.pqueue.push p (g.heap p).usage) ∧
      g1.disabledProcesses =
        g.disabledProcesses ++ distinct (g.disableWaitlist.map DisableWaiter.process) ∧
      (g.processes.Nodup → ∀ q ∈ distinct (g.disableWaitlist.map DisableWaiter.process),
        q ∉ g1.processes) ∧
      (g.pqueue.members.Nodup → ∀ q ∈ distinct (g.disableWaitlist.map DisableWaiter.process),
        q ∉ g1.pqueue.members) ∧
      g1.count = g.count + 1 - (distinct (g.disableWaitlist.map DisableWaiter.process)).length ∧
      g1.disablingCount =
        g.disablingCount - (distinct (g.disableWaitlist.map DisableWaiter.process)).length ∧
      g1.disabledCount =
        g.disabledCount + (distinct (g.disableWaitlist.map DisableWaiter.process)).length := by
  have hok := attach_ok g p acts hgrp (fun w hw =>
    ⟨hp w hw, Or.inr ⟨(hws w hw).1, (hws w hw).2, hpq w hw⟩⟩)
  rw [pendingDisabling_all g _ (fun w hw => (hws w hw).1)] at hok
  have hpD : p ∉ distinct (g.disableWaitlist.map DisableWaiter.process) := by
    rw [mem_distinct]
    intro hmem
    obtain ⟨w, hw, hwp⟩ := List.mem_map.mp hmem
    exact hp w hw hwp
  have hprocs := foldl_erase_append_singleton _ g.processes p hpD
  have hmembers :
      ((distinct (g.disableWaitlist.map DisableWaiter.process)).foldl
        PriorityQueue.eraseProcess (g.pqueue.push p (g.heap p).usage)).members =
      (distinct (g.disableWaitlist.map DisableWaiter.process)).foldl List.erase
        g.pqueue.members ++ [p] := by
    rw [members_foldl_eraseProcess, ← foldl_erase_append_singleton _ g.pqueue.members p hpD]
    simp [PriorityQueue.push, PriorityQueue.members]
  refine ⟨_, hok, ?_, ?_, ?_, rfl, ?_, ?_, ?_, ?_, ?_, ?_, ?_, ?_, ?_⟩
  · simp [foldl_moveToDisabled_heap, hpD, Group.addEnabled, setProcess]
  · simp only [foldl_moveToDisabled_processes, Group.addEnabled, hprocs]
    simp
  · show p ∈ PriorityQueue.members
      (List.foldl Group.moveToDisabled (g.addEnabled p) _).pqueue
    rw [foldl_moveToDisabled_pqueue]
    show p ∈ PriorityQueue.members
      (List.foldl PriorityQueue.eraseProcess (g.pqueue.push p (g.heap p).usage) _)
    rw [hmembers]
    simp
  · intro q hq
    simp [foldl_moveToDisabled_heap, hq]
  · simp only [foldl_moveToDisabled_processes, Group.addEnabled]
  · simp only [foldl_moveToDisabled_pqueue, Group.addEnabled]
  · simp only [foldl_moveToDisabled_disabledProcesses, Group.addEnabled]
  · intro hnd q hq
    simp only [foldl_moveToDisabled_processes, Group.addEnabled, hprocs, List.mem_append,
      List.mem_singleton, not_or]
    refine ⟨not_mem_foldl_erase _ _ q hq (List.nodup_iff_count_le_one.mp hnd q), ?_⟩
    rintro rfl
    exact hpD hq
  · intro hnd q hq
    show q ∉ PriorityQueue.members
      (List.foldl Group.moveToDisabled (g.addEnabled p) _).pqueue
    rw [foldl_moveToDisabled_pqueue]
    show q ∉ PriorityQueue.members
      (List.foldl PriorityQueue.eraseProcess (g.pqueue.push p (g.heap p).usage) _)
    rw [hmembers]
    simp only [List.mem_append, List.mem_singleton, not_or]
    refine ⟨not_mem_foldl_erase _ _ q hq (List.nodup_iff_count_le_one.mp hnd q), ?_⟩
    rintro rfl
    exact hpD hq
  · simp only [foldl_moveToDisabled_count, Group.addEnabled]
  · simp only [foldl_moveToDisabled_disablingCount, Group.addEnabled]
  · simp only [foldl_moveToDisabled_disabledCount, Group.addEnabled]

/-! ## C5: disabling the last enabled process -/

/-- C5. On a group whose only process is P, enabled, with `count = 1`, no disabling
or disabled process and an empty `disableWaitlist`, `disable(P, cb)` answers
pending and leaves P tagged DISABLING and still in `processes`, with
`disablingCount = 1`, the group spawning and `disableWaitlist = [(P, cb)]`.  A
following `attach(P2, acts)` of a process without group tags P as DISABLED, moves
it to `disabledProcesses`, appends `cb` to the actions, and leaves `count = 1`
with P2 enabled, `disablingCount = 0`, `disabledCount = 1` and an empty
`disableWaitlist`. -/
theorem disable_last_scenario (g : Group) (P P2 cb : Nat) (acts : List Callback)
    (hproc : g.processes = [P]) (hdis : g.disabledProcesses = [])
    (hpq : g.pqueue.members = [P])
    (hen : (g.heap P).enabled = EnabledStatus.ENABLED)
    (hgrp : (g.heap P).group = some g.self)
    (hcount : g.count = 1) (hdc : g.disablingCount = 0) (hdd : g.disabledCount = 0)
    (hwl : g.disableWaitlist = [])
    (hP2 : (g.heap P2).group = none) :
    ∃ g1, g.disable P cb = Except.ok (g1, false) ∧
      (g1.heap P).enabled = EnabledStatus.DISABLING ∧ g1.processes = [P] ∧
      g1.disablingCount = 1 ∧ g1.spawning = true ∧
      g1.disableWaitlist = [{ process := P, callback := cb }] ∧
      ∃ g2, g1.attach P2 acts = Except.ok (g2, acts ++ [Callback.plain cb]) ∧
        (g2.heap P).enabled = EnabledStatus.DISABLED ∧
        g2.processes = [P2] ∧ g2.disabledProcesses = [P] ∧ g2.pqueue.members = [P2] ∧
        (g2.heap P2).enabled = EnabledStatus.ENABLED ∧
        g2.count = 1 ∧ g2.disablingCount = 0 ∧ g2.disabledCount = 1 ∧
        g2.disableWaitlist = [] := by
  have hne : P2 ≠ P := by
    intro h
    rw [h, hgrp] at hP2
    cases hP2
  obtain ⟨g1, hd, fheap, fprocs, fdis, fpq, fcount, fdc, fdd, fwl, fsp⟩ :
      ∃ g1 : Group, g.disable P cb = Except.ok (g1, false) ∧
        g1.heap = setProcess g.heap P { g.heap P with enabled := EnabledStatus.DISABLING } ∧
        g1.processes = [P] ∧ g1.disabledProcesses = [] ∧ g1.pqueue.members = [P] ∧
        g1.count = 1 ∧ g1.disablingCount = 1 ∧ g1.disabledCount = 0 ∧
        g1.disableWaitlist = [{ process := P, callback := cb }] ∧ g1.spawning = true := by
    refine ⟨Group.spawn
        { g with
          heap := setProcess g.heap P { g.heap P with enabled := EnabledStatus.DISABLING }
          disablingCount := g.disablingCount + 1
          disableWaitlist := g.disableWaitlist ++ [{ process := P, callback := cb }] },
      ?_, spawn_heap _, ?_, ?_, ?_, ?_, ?_, ?_, ?_, spawn_spawning _⟩
    · simp [Group.disable, hgrp, hen, hcount, hdc]
    · rw [spawn_processes]; exact hproc
    · rw [spawn_disabledProcesses]; exact hdis
    · rw [spawn_pqueue]; exact hpq
    · rw [spawn_count]; exact hcount
    · rw [spawn_disablingCount]; simp [hdc]
    · rw [spawn_disabledCount]; exact hdd
    · rw [spawn_disableWaitlist]; simp [hwl]
  have htag : (g1.heap P).enabled = EnabledStatus.DISABLING := by
    rw [fheap]; simp [setProcess]
  refine ⟨g1, hd, htag, fprocs, fdc, fsp, fwl, ?_⟩
  have hok := attach_ok g1 P2 acts (by rw [fheap]; simp [setProcess, hne, hP2])
    (by
      intro w hw
      rw [fwl, List.mem_singleton] at hw
      subst hw
      exact ⟨hne.symm, Or.inr ⟨htag, by simp [fprocs], by simp [fpq]⟩⟩)
  have hpend : pendingDisabling g1 [{ process := P, callback := cb }] = [P] := by
    simp [pendingDisabling, distinct, htag]
  rw [fwl, hpend] at hok
  refine ⟨_, hok, ?_, ?_, ?_, ?_, ?_, ?_, ?_, ?_, rfl⟩
  · simp [Group.moveToDisabled, setProcess]
  · simp [Group.moveToDisabled, Group.addEnabled, fprocs, hne]
  · simp [Group.moveToDisabled, Group.addEnabled, fdis]
  · show PriorityQueue.members (PriorityQueue.eraseProcess (g1.addEnabled P2).pqueue P) = [P2]
    rw [members_eraseProcess]
    simp only [Group.addEnabled, PriorityQueue.push]
    have : PriorityQueue.members (g1.pqueue ++ [{ process := P2, key := (g1.heap P2).usage }])
        = [P, P2] := by
      simp only [PriorityQueue.members, List.map_append] at fpq ⊢
      rw [fpq]; rfl
    rw [this]
    simp
  · simp [Group.moveToDisabled, Group.addEnabled, setProcess, hne]
  · simp [Group.moveToDisabled, Group.addEnabled, fcount]
  · simp [Group.moveToDisabled, Group.addEnabled, fdc]
  · simp [Group.moveToDisabled, Group.addEnabled, fdd]

/-- Witness for C5: the group with the single enabled process 1; process 2 is the
replacement. -/
theorem disable_last_scenario_witness :
    (oneEnabled.processes = [1] ∧ oneEnabled.disabledProcesses = [] ∧
      oneEnabled.pqueue.members = [1] ∧
      (oneEnabled.heap 1).enabled = EnabledStatus.ENABLED ∧
      (oneEnabled.heap 1).group = some oneEnabled.self ∧
      oneEnabled.count = 1 ∧ oneEnabled.disablingCount = 0 ∧ oneEnabled.disabledCount = 0 ∧
      oneEnabled.disableWaitlist = [] ∧ (oneEnabled.heap 2).group = none) ∧
    ∃ g1, oneEnabled.disable 1 7 = Except.ok (g1, false) ∧
      (g1.heap 1).enabled = EnabledStatus.DISABLING ∧ g1.processes = [1] ∧
      g1.disablingCount = 1 ∧ g1.spawning = true ∧
      g1.disableWaitlist = [{ process := 1, callback := 7 }] ∧
      ∃ g2, g1.attach 2 [] = Except.ok (g2, [Callback.plain 7]) ∧
        (g2.heap 1).enabled = EnabledStatus.DISABLED ∧
        g2.processes = [2] ∧ g2.disabledProcesses = [1] ∧ g2.pqueue.members = [2] ∧
        (g2.heap 2).enabled = EnabledStatus.ENABLED ∧
        g2.count = 1 ∧ g2.disablingCount = 0 ∧ g2.disabledCount = 1 ∧
        g2.disableWaitlist = [] :=
  ⟨⟨by decide, by decide, by decide, by decide, by decide, by decide, by decide, by decide,
      by decide, by decide⟩,
    disable_last_scenario oneEnabled 1 2 7 [] (by decide) (by decide) (by decide) (by decide)
      (by decide) (by decide) (by decide) (by decide) (by decide) (by decide)⟩

/-! ## Totality of `disable` -/

/-- Totality of `disable`: when p belongs to the group and the assertions hold for
an enabled p (`count > 0`, `count - disablingCount >= 1`, and p has its nodes in
`processes` and `pqueue` when it is to be moved), the call returns, with the
result described. -/
theorem disable_total (g : Group) (p cb : Nat)
    (hgrp : (g.heap p).group = some g.self)
    (hpre : (g.heap p).enabled = EnabledStatus.ENABLED →
      0 < g.count ∧ 1 ≤ g.count - g.disablingCount ∧
        (1 < g.count - g.disablingCount → p ∈ g.processes ∧ p ∈ g.pqueue.members)) :
    ∃ g1 r, g.disable p cb = Except.ok (g1, r) ∧
      (r = true ↔
        (g.heap p).enabled = EnabledStatus.DISABLED ∨
          ((g.heap p).enabled = EnabledStatus.ENABLED ∧ 1 < g.count - g.disablingCount)) ∧
      (r = false →
        g1.disableWaitlist = g.disableWaitlist ++ [{ process := p, callback := cb }]) ∧
      (r = true → g1.disableWaitlist = g.disableWaitlist) ∧
      ((g.heap p).enabled = EnabledStatus.DISABLED → g1 = g) := by
  cases htag : (g.heap p).enabled with
  | DISABLED =>
    have hd : g.disable p cb = Except.ok (g, true) := by
      simp [Group.disable, hgrp, htag]
    refine ⟨g, true, hd, ?_, ?_, ?_, ?_⟩
    · simp
    · intro h; cases h
    · intro _; rfl
    · intro _; rfl
  | DISABLING =>
    have hd : g.disable p cb = Except.ok
        ({ g with disableWaitlist :=
            g.disableWaitlist ++ [{ process := p, callback := cb }] }, false) := by
      simp only [Group.disable, hgrp, htag, if_true]
    refine ⟨_, false, hd, ?_, ?_, ?_, ?_⟩
    · simp
    · intro _; rfl
    · intro h; cases h
    · intro h; cases h
  | ENABLED =>
    obtain ⟨hc, h1, hmem⟩ := hpre htag
    by_cases hone : g.count - g.disablingCount = 1
    · have hd : g.disable p cb = Except.ok
          (Group.spawn
            { g with
              heap := setProcess g.heap p
                { g.heap p with enabled := EnabledStatus.DISABLING }
              disablingCount := g.disablingCount + 1
              disableWaitlist :=
                g.disableWaitlist ++ [{ process := p, callback := cb }] }, false) := by
        simp only [Group.disable, hgrp, htag, if_true, hc, hone]
      refine ⟨_, false, hd, ?_, ?_, ?_, ?_⟩
      · simp [hone]
      · intro _; rw [spawn_disableWaitlist]
      · intro h; cases h
      · intro h; cases h
    · have hgt : 1 < g.count - g.disablingCount := lt_of_le_of_ne h1 (Ne.symm hone)
      obtain ⟨hm1, hm2⟩ := hmem hgt
      have hd : g.disable p cb = Except.ok
          ({ g with
              heap := setProcess g.heap p
                { g.heap p with enabled := EnabledStatus.DISABLED }
              processes := g.processes.erase p
              disabledProcesses := g.disabledProcesses ++ [p]
              pqueue := g.pqueue.eraseProcess p }, true) := by
        simp only [Group.disable, hgrp, htag, if_true, hc, hone, if_false, hgt, hm1, hm2,
          and_self]
      refine ⟨_, true, hd, ?_, ?_, ?_, ?_⟩
      · simp [hgt]
      · intro h; cases h
      · intro _; rfl
      · intro h; cases h

/-! ## Totality of `detach` -/

theorem removeLoop_eq (p : Nat) (ws newList : List DisableWaiter) (acts : List Callback) :
    Group.removeLoop p ws newList acts =
      (newList ++ ws.filter (fun w => decide (w.process ≠ p)),
        acts ++ disableCallbacks (ws.filter (fun w => decide (w.process = p)))) := by
  induction ws generalizing newList acts with
  | nil => simp [Group.removeLoop, disableCallbacks]
  | cons w ws ih =>
    by_cases hw : w.process = p
    · simp [Group.removeLoop, hw, ih, disableCallbacks]
    · simp [Group.removeLoop, hw, ih, disableCallbacks]

theorem removeFromDisableWaitlist_eq (g : Group) (p : Nat) (acts : List Callback) :
    g.removeFromDisableWaitlist p acts =
      ({ g with disableWaitlist := g.disableWaitlist.filter (fun w => decide (w.process ≠ p)) },
        acts ++ disableCallbacks (g.disableWaitlist.filter (fun w => decide (w.process = p)))) := by
  simp [Group.removeFromDisableWaitlist, removeLoop_eq]

/-- Totality of `detach`: when p belongs to the group and has its nodes in the
lists that its tag designates (with `count > 0` for a listed p), the call
returns, with the result described. -/
theorem detach_total (g : Group) (p : Nat) (acts : List Callback)
    (hgrp : (g.heap p).group = some g.self)
    (hlisted : (g.heap p).enabled ≠ EnabledStatus.DISABLED →
      0 < g.count ∧ p ∈ g.processes ∧ p ∈ g.pqueue.members)
    (hdisabled : (g.heap p).enabled = EnabledStatus.DISABLED → p ∈ g.disabledProcesses) :
    ∃ g1 acts1, g.detach p acts = Except.ok (g1, acts1) ∧
      (g1.heap p).group = none ∧
      g1.getWaitlist = g.getWaitlist ∧
      ((g.heap p).enabled ≠ EnabledStatus.DISABLED →
        g1.processes = g.processes.erase p ∧ g1.pqueue = g.pqueue.eraseProcess p ∧
        (g.processes.Nodup → p ∉ g1.processes) ∧
        (g.pqueue.members.Nodup → p ∉ g1.pqueue.members) ∧
        g1.count = g.count - 1 ∧
        g1.disabledProcesses = g.disabledProcesses ∧ g1.disabledCount = g.disabledCount) ∧
      ((g.heap p).enabled = EnabledStatus.ENABLED →
        g1.disablingCount = g.disablingCount ∧ g1.disableWaitlist = g.disableWaitlist ∧
        acts1 = acts) ∧
      ((g.heap p).enabled = EnabledStatus.DISABLING →
        g1.disablingCount = g.disablingCount - 1 ∧
        g1.disableWaitlist = g.disableWaitlist.filter (fun w => decide (w.process ≠ p)) ∧
        acts1 = acts ++
          disableCallbacks (g.disableWaitlist.filter (fun w => decide (w.process = p)))) ∧
      ((g.heap p).enabled = EnabledStatus.DISABLED →
        g1.disabledProcesses = g.disabledProcesses.erase p ∧
        (g.disabledProcesses.Nodup → p ∉ g1.disabledProcesses) ∧
        g1.disabledCount = g.disabledCount - 1 ∧
        g1.processes = g.processes ∧ g1.pqueue = g.pqueue ∧ g1.count = g.count ∧
        g1.disablingCount = g.disablingCount ∧ g1.disableWaitlist = g.disableWaitlist ∧
        acts1 = acts) := by
  have herase : ∀ l : List Nat, l.Nodup → p ∉ l.erase p := fun l hl hmem =>
    ((hl.mem_erase_iff).mp hmem).1 rfl
  cases htag : (g.heap p).enabled with
  | DISABLED =>
    have hmem := hdisabled htag
    have hne : g.disabledProcesses ≠ [] := List.ne_nil_of_mem hmem
    have hd : g.detach p acts = Except.ok
        ({ g with
            heap := setProcess g.heap p { g.heap p with group := none }
            disabledProcesses := g.disabledProcesses.erase p
            disabledCount := g.disabledCount - 1 }, acts) := by
      simp [Group.detach, hgrp, htag, hne, hmem]
    refine ⟨_, _, hd, ?_, rfl, ?_, ?_, ?_, ?_⟩
    · simp [setProcess]
    · intro h; exact absurd rfl h
    · intro h; cases h
    · intro h; cases h
    · intro _
      exact ⟨rfl, herase _, rfl, rfl, rfl, rfl, rfl, rfl, rfl⟩
  | ENABLED =>
    obtain ⟨hc, hm1, hm2⟩ := hlisted (by rw [htag]; decide)
    have hd : g.detach p acts = Except.ok
        ({ g with
            heap := setProcess g.heap p { g.heap p with group := none }
            processes := g.processes.erase p
            pqueue := g.pqueue.eraseProcess p
            count := g.count - 1 }, acts) := by
      simp [Group.detach, hgrp, htag, hc, hm1, hm2, setProcess]
    refine ⟨_, _, hd, ?_, rfl, ?_, ?_, ?_, ?_⟩
    · simp [setProcess]
    · intro _
      refine ⟨rfl, rfl, herase _, ?_, rfl, rfl, rfl⟩
      intro hnd
      show p ∉ PriorityQueue.members (g.pqueue.eraseProcess p)
      rw [members_eraseProcess]
      exact herase _ hnd
    · intro _; exact ⟨rfl, rfl, rfl⟩
    · intro h; cases h
    · intro h; cases h
  | DISABLING =>
    obtain ⟨hc, hm1, hm2⟩ := hlisted (by rw [htag]; decide)
    have hd : g.detach p acts = Except.ok
        ({ g with
            heap := setProcess g.heap p { g.heap p with group := none }
            processes := g.processes.erase p
            pqueue := g.pqueue.eraseProcess p
            count := g.count - 1
            disablingCount := g.disablingCount - 1
            disableWaitlist := g.disableWaitlist.filter (fun w => decide (w.process ≠ p)) },
          acts ++
            disableCallbacks (g.disableWaitlist.filter (fun w => decide (w.process = p)))) := by
      simp [Group.detach, hgrp, htag, hc, hm1, hm2, setProcess, removeFromDisableWaitlist_eq]
    refine ⟨_, _, hd, ?_, rfl, ?_, ?_, ?_, ?_⟩
    · simp [setProcess]
    · intro _
      refine ⟨rfl, rfl, herase _, ?_, rfl, rfl, rfl⟩
      intro hnd
      show p ∉ PriorityQueue.members (g.pqueue.eraseProcess p)
      rw [members_eraseProcess]
      exact herase _ hnd
    · intro h; cases h
    · intro _; exact ⟨rfl, rfl, rfl⟩
    · intro h; cases h

/-! ## Totality of the drain of the get wait list -/

theorem topEntry_eq_none_iff (q : PriorityQueue) : q.topEntry = none ↔ q = [] := by
  cases q with
  | nil => simp [PriorityQueue.topEntry]
  | cons e es =>
    simp only [PriorityQueue.topEntry, reduceCtorEq, iff_false]
    cases PriorityQueue.topEntry es with
    | none => simp
    | some m => by_cases h : m.key < e.key <;> simp [h]

theorem top_eq_none_iff (q : PriorityQueue) : q.top = none ↔ q = [] := by
  simp [PriorityQueue.top, topEntry_eq_none_iff]

theorem afterSessions_succ_of_ok (n : Nat) (g g1 : Group) (s : Session)
    (h : g.newSession = Except.ok (g1, s)) :
    afterSessions (n + 1) g = afterSessions n g1 := by
  simp [afterSessions, h]

/-- The loop of the drain: it serves the first `k` waiters, one session each on the
top process of the moment, and stops on an empty list, an empty queue or a top
process at full capacity. -/
theorem assignSessionsLoop_spec :
    ∀ (ws : List GetWaiter) (g : Group) (acts : List Callback),
      (g.pqueue ≠ [] → 0 < g.count) →
      ∃ k served,
        Group.assignSessionsLoop ws g acts =
          Except.ok ({ afterSessions k g with getWaitlist := ws.drop k }, acts ++ served) ∧
        k ≤ ws.length ∧ served.length = k ∧
        (∀ i, i < k → ∃ w p, ws[i]? = some w ∧
          (afterSessions i g).pqueue.top = some p ∧
          ((afterSessions i g).heap p).atFullCapacity = false ∧
          served[i]? = some (Callback.bound w.callback
            (some { process := ProcessRef.ptr p, onInitiateFailure := true, onClose := true })
            none)) ∧
        (ws.drop k = [] ∨ (afterSessions k g).pqueue.top = none ∨
          ∃ p, (afterSessions k g).pqueue.top = some p ∧
            ((afterSessions k g).heap p).atFullCapacity = true) ∧
        (afterSessions k g).processes = g.processes ∧
        (k = 0 ∨ (afterSessions k g).pqueue ≠ []) := by
  intro ws
  induction ws with
  | nil =>
    intro g acts _
    refine ⟨0, [], ?_, le_refl _, rfl, ?_, Or.inl rfl, rfl, Or.inl rfl⟩
    · simp [Group.assignSessionsLoop, afterSessions]
    · intro i hi; exact absurd hi (Nat.not_lt_zero _)
  | cons w ws ih =>
    intro g acts hcount
    cases ht : g.pqueue.top with
    | none =>
      refine ⟨0, [], ?_, Nat.zero_le _, rfl, ?_, Or.inr (Or.inl ht), rfl, Or.inl rfl⟩
      · simp [Group.assignSessionsLoop, afterSessions, ht]
      · intro i hi; exact absurd hi (Nat.not_lt_zero _)
    | some p =>
      cases hf : (g.heap p).atFullCapacity with
      | true =>
        refine ⟨0, [], ?_, Nat.zero_le _, rfl, ?_, Or.inr (Or.inr ⟨p, ht, hf⟩), rfl,
          Or.inl rfl⟩
        · simp [Group.assignSessionsLoop, afterSessions, ht, hf]
        · intro i hi; exact absurd hi (Nat.not_lt_zero _)
      | false =>
        have hne : g.pqueue ≠ [] := by
          intro h
          rw [(top_eq_none_iff _).mpr h] at ht
          cases ht
        have hc := hcount hne
        have hns := newSession_ok g p hc ht
        obtain ⟨k, served, hloop, hk, hlen, hserved, hstop, hprocs, hpq⟩ :=
          ih { g with
                heap := setProcess g.heap p (g.heap p).newSession
                pqueue := (g.pqueue.pop).push p
                  (setProcess g.heap p (g.heap p).newSession p).usage }
            (acts ++ [Callback.bound w.callback
              (some { process := ProcessRef.ptr p, onInitiateFailure := true, onClose := true })
              none])
            (fun _ => hc)
        have hsucc := fun n => afterSessions_succ_of_ok n g _ _ hns
        refine ⟨k + 1, Callback.bound w.callback
            (some { process := ProcessRef.ptr p, onInitiateFailure := true, onClose := true })
            none :: served, ?_, ?_, ?_, ?_, ?_, ?_, ?_⟩
        · simp only [Group.assignSessionsLoop, ht, hf, hns, hsucc, List.drop_succ_cons]
          simp only [Bool.false_eq_true, if_false]
          rw [hloop]
          simp
        · simp only [List.length_cons]; omega
        · simp only [List.length_cons, hlen]
        · intro i hi
          cases i with
          | zero =>
            exact ⟨w, p, by simp, ht, hf, by simp⟩
          | succ j =>
            obtain ⟨w1, p1, h1, h2, h3, h4⟩ := hserved j (by omega)
            refine ⟨w1, p1, ?_, ?_, ?_, ?_⟩
            · simpa using h1
            · rw [hsucc]; exact h2
            · rw [hsucc]; exact h3
            · simpa using h4
        · rw [hsucc, List.drop_succ_cons]; exact hstop
        · rw [hsucc]; exact hprocs
        · right
          rw [hsucc]
          rcases hpq with h0 | h0
          · subst h0
            simp [afterSessions, PriorityQueue.push]
          · exact h0

/-! ## What a successful call did -/

theorem newSession_cases (g g1 : Group) (s : Session) (h : g.newSession = Except.ok (g1, s)) :
    ∃ p, 0 < g.count ∧ g.pqueue.top = some p ∧
      g1 = { g with
              heap := setProcess g.heap p (g.heap p).newSession
              pqueue := (g.pqueue.pop).push p
                (setProcess g.heap p (g.heap p).newSession p).usage } ∧
      s = { process := ProcessRef.ptr p, onInitiateFailure := true, onClose := true } := by
  unfold Group.newSession at h
  split at h
  · rename_i hc
    split at h
    · cases h
    · rename_i p hp
      simp only [Except.ok.injEq, Prod.mk.injEq] at h
      exact ⟨p, hc, hp, h.1.symm, h.2.symm⟩
  · cases h

theorem disable_cases (g g1 : Group) (p cb : Nat) (r : Bool)
    (h : g.disable p cb = Except.ok (g1, r)) :
    (g.heap p).group = some g.self ∧
    (((g.heap p).enabled = EnabledStatus.ENABLED ∧ 0 < g.count ∧
        g.count - g.disablingCount = 1 ∧ r = false ∧
        g1 = Group.spawn
          { g with
            heap := setProcess g.heap p { g.heap p with enabled := EnabledStatus.DISABLING }
            disablingCount := g.disablingCount + 1
            disableWaitlist := g.disableWaitlist ++ [{ process := p, callback := cb }] }) ∨
      ((g.heap p).enabled = EnabledStatus.ENABLED ∧ 0 < g.count ∧
        1 < g.count - g.disablingCount ∧ p ∈ g.processes ∧ p ∈ g.pqueue.members ∧ r = true ∧
        g1 = { g with
                heap := setProcess g.heap p { g.heap p with enabled := EnabledStatus.DISABLED }
                processes := g.processes.erase p
                disabledProcesses := g.disabledProcesses ++ [p]
                pqueue := g.pqueue.eraseProcess p }) ∨
      ((g.heap p).enabled = EnabledStatus.DISABLING ∧ r = false ∧
        g1 = { g with
                disableWaitlist := g.disableWaitlist ++ [{ process := p, callback := cb }] }) ∨
      ((g.heap p).enabled = EnabledStatus.DISABLED ∧ r = true ∧ g1 = g)) := by
  unfold Group.disable at h
  split at h
  · rename_i hg
    refine ⟨hg, ?_⟩
    split at h
    · rename_i htag
      split at h
      · rename_i hc
        split at h
        · rename_i hone
          simp only [Except.ok.injEq, Prod.mk.injEq] at h
          exact Or.inl ⟨htag, hc, hone, h.2.symm, h.1.symm⟩
        · split at h
          · rename_i hgt
            split at h
            · rename_i hm
              simp only [Except.ok.injEq, Prod.mk.injEq] at h
              exact Or.inr (Or.inl ⟨htag, hc, hgt, hm.1, hm.2, h.2.symm, h.1.symm⟩)
            · cases h
          · cases h
      · cases h
    · rename_i htag
      simp only [Except.ok.injEq, Prod.mk.injEq] at h
      exact Or.inr (Or.inr (Or.inl ⟨htag, h.2.symm, h.1.symm⟩))
    · rename_i htag
      simp only [Except.ok.injEq, Prod.mk.injEq] at h
      exact Or.inr (Or.inr (Or.inr ⟨htag, h.2.symm, h.1.symm⟩))
  · cases h

theorem enable_cases (g g1 : Group) (p : Nat) (acts acts1 : List Callback)
    (h : g.enable p acts = Except.ok (g1, acts1)) :
    (g.heap p).group = some g.self ∧
    (((g.heap p).enabled = EnabledStatus.DISABLING ∧
        g1 = { g with
                heap := setProcess g.heap p { g.heap p with enabled := EnabledStatus.ENABLED }
                disablingCount := g.disablingCount - 1
                disableWaitlist :=
                  g.disableWaitlist.filter (fun w => decide (w.process ≠ p)) } ∧
        acts1 = acts ++
          disableCallbacks (g.disableWaitlist.filter (fun w => decide (w.process = p)))) ∨
      ((g.heap p).enabled = EnabledStatus.DISABLED ∧ p ∈ g.disabledProcesses ∧
        g1 = { g with
                heap := setProcess g.heap p { g.heap p with enabled := EnabledStatus.ENABLED }
                disabledProcesses := g.disabledProcesses.erase p
                processes := g.processes ++ [p]
                pqueue := g.pqueue.push p (g.heap p).usage
                count := g.count + 1
                disabledCount := g.disabledCount - 1 } ∧
        acts1 = acts) ∨
      ((g.heap p).enabled = EnabledStatus.ENABLED ∧ g1 = g ∧ acts1 = acts)) := by
  unfold Group.enable at h
  split at h
  · rename_i hg
    refine ⟨hg, ?_⟩
    split at h
    · rename_i htag
      rw [removeFromDisableWaitlist_eq] at h
      simp only [Except.ok.injEq, Prod.mk.injEq] at h
      exact Or.inl ⟨htag, h.1.symm, h.2.symm⟩
    · rename_i htag
      split at h
      · rename_i hm
        simp only [Except.ok.injEq, Prod.mk.injEq] at h
        exact Or.inr (Or.inl ⟨htag, hm, h.1.symm, h.2.symm⟩)
      · cases h
    · rename_i htag
      simp only [Except.ok.injEq, Prod.mk.injEq] at h
      exact Or.inr (Or.inr ⟨htag, h.1.symm, h.2.symm⟩)
  · cases h

theorem detach_cases (g g1 : Group) (p : Nat) (acts acts1 : List Callback)
    (h : g.detach p acts = Except.ok (g1, acts1)) :
    (g.heap p).group = some g.self ∧
    (((g.heap p).enabled = EnabledStatus.ENABLED ∧ 0 < g.count ∧
        p ∈ g.processes ∧ p ∈ g.pqueue.members ∧
        g1 = { g with
                heap := setProcess g.heap p { g.heap p with group := none }
                processes := g.processes.erase p
                pqueue := g.pqueue.eraseProcess p
                count := g.count - 1 } ∧
        acts1 = acts) ∨
      ((g.heap p).enabled = EnabledStatus.DISABLING ∧ 0 < g.count ∧
        p ∈ g.processes ∧ p ∈ g.pqueue.members ∧
        g1 = { g with
                heap := setProcess g.heap p { g.heap p with group := none }
                processes := g.processes.erase p
                pqueue := g.pqueue.eraseProcess p
                count := g.count - 1
                disablingCount := g.disablingCount - 1
                disableWaitlist :=
                  g.disableWaitlist.filter (fun w => decide (w.process ≠ p)) } ∧
        acts1 = acts ++
          disableCallbacks (g.disableWaitlist.filter (fun w => decide (w.process = p)))) ∨
      ((g.heap p).enabled = EnabledStatus.DISABLED ∧ p ∈ g.disabledProcesses ∧
        g1 = { g with
                heap := setProcess g.heap p { g.heap p with group := none }
                disabledProcesses := g.disabledProcesses.erase p
                disabledCount := g.disabledCount - 1 } ∧
        acts1 = acts)) := by
  unfold Group.detach at h
  split at h
  · rename_i hg
    refine ⟨hg, ?_⟩
    split at h
    · rename_i htag
      split at h
      · rename_i hc
        split at h
        · rename_i hm
          dsimp only at h
          split at h
          · rename_i hdis
            have hdis1 : (g.heap p).enabled = EnabledStatus.DISABLING := by
              simpa [setProcess] using hdis
            rw [removeFromDisableWaitlist_eq] at h
            simp only [Except.ok.injEq, Prod.mk.injEq] at h
            exact Or.inr (Or.inl ⟨hdis1, hc, hm.1, hm.2, h.1.symm, h.2.symm⟩)
          · rename_i hdis
            have hdis1 : ¬ (g.heap p).enabled = EnabledStatus.DISABLING := by
              simpa [setProcess] using hdis
            have hen : (g.heap p).enabled = EnabledStatus.ENABLED := by
              rcases htag with h1 | h1
              · exact h1
              · exact absurd h1 hdis1
            simp only [Except.ok.injEq, Prod.mk.injEq] at h
            exact Or.inl ⟨hen, hc, hm.1, hm.2, h.1.symm, h.2.symm⟩
        · cases h
      · cases h
    · rename_i htag
      have hd : (g.heap p).enabled = EnabledStatus.DISABLED := by
        cases hcase : (g.heap p).enabled with
        | ENABLED => exact absurd (Or.inl hcase) htag
        | DISABLING => exact absurd (Or.inr hcase) htag
        | DISABLED => rfl
      split at h
      · split at h
        · rename_i hm
          simp only [Except.ok.injEq, Prod.mk.injEq] at h
          exact Or.inr (Or.inr ⟨hd, hm, h.1.symm, h.2.symm⟩)
        · cases h
      · cases h
  · cases h

theorem attach_cases (g g1 : Group) (p : Nat) (acts acts1 : List Callback)
    (h : g.attach p acts = Except.ok (g1, acts1)) :
    (g.heap p).group = none ∧
    ∃ g2, Group.attachLoop g.disableWaitlist (g.addEnabled p) acts = Except.ok (g2, acts1) ∧
      g1 = { g2 with disableWaitlist := [] } := by
  unfold Group.attach at h
  split at h
  · rename_i hg
    refine ⟨hg, ?_⟩
    split at h
    · cases h
    · rename_i g2 acts2 hloop
      simp only [Except.ok.injEq, Prod.mk.injEq] at h
      refine ⟨g2, ?_, h.1.symm⟩
      rw [hloop, h.2]
  · cases h

/-- Induction over the loop of `attach`: a property kept by every move of a
DISABLING process to the disabled list holds after the loop. -/
theorem attachLoop_induct (P : Group → Prop)
    (hstep : ∀ g q, P g → (g.heap q).enabled = EnabledStatus.DISABLING →
      q ∈ g.processes → q ∈ g.pqueue.members → P (g.moveToDisabled q)) :
    ∀ (ws : List DisableWaiter) (g g2 : Group) (acts acts2 : List Callback),
      Group.attachLoop ws g acts = Except.ok (g2, acts2) → P g → P g2 := by
  intro ws
  induction ws with
  | nil =>
    intro g g2 acts acts2 h hP
    simp only [Group.attachLoop, Except.ok.injEq, Prod.mk.injEq] at h
    exact h.1 ▸ hP
  | cons w ws ih =>
    intro g g2 acts acts2 h hP
    unfold Group.attachLoop at h
    split at h
    · cases h
    · exact ih _ _ _ _ h hP
    · rename_i htag
      split at h
      · rename_i hm
        exact ih _ _ _ _ h (hstep g w.process hP htag hm.1 hm.2)
      · cases h

theorem clearGroups_enabled (ps : List Nat) (heap : Nat → Process) (x : Nat) :
    (Group.clearGroups ps heap x).enabled = (heap x).enabled := by
  induction ps generalizing heap with
  | nil => rfl
  | cons p ps ih =>
    simp only [Group.clearGroups, ih]
    by_cases hx : x = p
    · simp [setProcess, hx]
    · simp [setProcess, hx]

theorem detachAllLoop_ok (heap : Nat → Process) (ws : List DisableWaiter)
    (acts : List Callback)
    (h : ∀ w ∈ ws, (heap w.process).enabled = EnabledStatus.DISABLING) :
    Group.detachAllLoop heap ws acts = Except.ok (acts ++ disableCallbacks ws) := by
  induction ws generalizing acts with
  | nil => simp [Group.detachAllLoop, disableCallbacks]
  | cons w ws ih =>
    simp only [Group.detachAllLoop, h w (List.mem_cons_self _ _), if_true]
    rw [ih _ (fun x hx => h x (List.mem_cons_of_mem _ hx))]
    simp [disableCallbacks]

theorem detachAll_cases (g g1 : Group) (acts acts1 : List Callback)
    (h : g.detachAll acts = Except.ok (g1, acts1)) :
    g1 = { g with
            heap := Group.clearGroups g.processes g.heap
            processes := []
            disabledProcesses := []
            pqueue := []
            count := 0
            disablingCount := 0
            disabledCount := 0
            disableWaitlist := [] } := by
  unfold Group.detachAll at h
  dsimp only at h
  split at h
  · cases h
  · simp only [Except.ok.injEq, Prod.mk.injEq] at h
    exact h.1.symm

/-- The body of `get` on a call that does not restart the group: it works on a
group `g2` that differs from the group before the call in the options and the
spawn state only. -/
theorem get_noRestart_eq (env : Env) (g : Group) (o : Options) (cb : Nat)
    (hr : env.needsRestart g o = false) :
    ∃ g2, SameProcesses g g2 ∧
      Group.get env g o cb =
        (if o.noop = true then
          Except.ok (g2,
            some { process := ProcessRef.dummy { Process.make with group := some g2.self },
                   onInitiateFailure := false, onClose := false })
        else if g2.count = 0 then
          if g2.spawning = true then
            Except.ok
              ({ g2 with getWaitlist := g2.getWaitlist ++ [{ options := o, callback := cb }] },
                none)
          else Except.error Fault.assertion
        else
          match g2.pqueue.top with
          | none => Except.error Fault.assertion
          | some p =>
            if (g2.heap p).atFullCapacity = true then
              Except.ok
                ({ g2 with getWaitlist :=
                    g2.getWaitlist ++ [{ options := o, callback := cb }] },
                  none)
            else
              match g2.newSession with
              | Except.error f => Except.error f
              | Except.ok (g3, s) => Except.ok (g3, some s)) := by
  have hsame : ∀ b : Bool, SameProcesses g
      (if b = true then (g.mergeOptions o).spawn else g.mergeOptions o) := by
    intro b
    cases b
    · exact ⟨rfl, rfl, rfl, rfl, rfl, rfl, rfl, rfl, rfl, rfl⟩
    · exact ⟨spawn_self _, spawn_heap _, spawn_count _, spawn_disablingCount _,
        spawn_disabledCount _, spawn_pqueue _, spawn_processes _, spawn_disabledProcesses _,
        spawn_getWaitlist _, spawn_disableWaitlist _⟩
  refine ⟨_, hsame (!o.noop && env.shouldSpawn (g.mergeOptions o)), ?_⟩
  simp only [Group.get, hr]
  rfl

theorem get_cases (env : Env) (g g1 : Group) (o : Options) (cb : Nat) (r : Option Session)
    (hr : env.needsRestart g o = false)
    (h : Group.get env g o cb = Except.ok (g1, r)) :
    ∃ g2, SameProcesses g g2 ∧
      ((o.noop = true ∧ g1 = g2 ∧ ∃ obj, r = some
          { process := ProcessRef.dummy obj, onInitiateFailure := false, onClose := false }) ∨
        (o.noop = false ∧ r = none ∧
          g1 = { g2 with getWaitlist :=
                  g2.getWaitlist ++ [{ options := o, callback := cb }] } ∧
          (g2.count = 0 ∨
            ∃ p, g2.pqueue.top = some p ∧ (g2.heap p).atFullCapacity = true)) ∨
        (o.noop = false ∧ ∃ s p, r = some s ∧ g2.pqueue.top = some p ∧
          (g2.heap p).atFullCapacity = false ∧ g2.newSession = Except.ok (g1, s))) := by
  obtain ⟨g2, hsame, heq⟩ := get_noRestart_eq env g o cb hr
  rw [heq] at h
  refine ⟨g2, hsame, ?_⟩
  split at h
  · rename_i hn
    simp only [Except.ok.injEq, Prod.mk.injEq] at h
    exact Or.inl ⟨hn, h.1.symm, _, h.2.symm⟩
  · rename_i hn
    have hn1 : o.noop = false := by simpa using hn
    right
    split at h
    · rename_i hzero
      split at h
      · simp only [Except.ok.injEq, Prod.mk.injEq] at h
        exact Or.inl ⟨hn1, h.2.symm, h.1.symm, Or.inl hzero⟩
      · cases h
    · split at h
      · cases h
      · rename_i p hp
        split at h
        · rename_i hfull
          simp only [Except.ok.injEq, Prod.mk.injEq] at h
          exact Or.inl ⟨hn1, h.2.symm, h.1.symm, Or.inr ⟨p, hp, hfull⟩⟩
        · rename_i hf
          split at h
          · cases h
          · rename_i g3 s hns
            simp only [Except.ok.injEq, Prod.mk.injEq] at h
            right
            refine ⟨hn1, s, p, h.2.symm, hp, by simpa using hf, ?_⟩
            rw [hns, h.1]

/-! ## The priority queue holds no DISABLED process -/

theorem topEntry_mem (q : PriorityQueue) (e : PQEntry) (h : q.topEntry = some e) : e ∈ q := by
  induction q generalizing e with
  | nil => simp [PriorityQueue.topEntry] at h
  | cons a l ih =>
    simp only [PriorityQueue.topEntry] at h
    cases hl : PriorityQueue.topEntry l with
    | none =>
      rw [hl] at h
      simp only [Option.some.injEq] at h
      exact h ▸ List.mem_cons_self _ _
    | some m =>
      rw [hl] at h
      by_cases hk : m.key < a.key
      · simp only [hk, if_true, Option.some.injEq] at h
        exact List.mem_cons_of_mem _ (ih m hl |> fun hm => h ▸ hm)
      · simp only [hk, if_false, Option.some.injEq] at h
        exact h ▸ List.mem_cons_self _ _

theorem top_mem_members (q : PriorityQueue) (p : Nat) (h : q.top = some p) :
    p ∈ q.members := by
  simp only [PriorityQueue.top, Option.map_eq_some'] at h
  obtain ⟨e, he, hp⟩ := h
  exact List.mem_map.mpr ⟨e, topEntry_mem q e he, hp⟩

theorem map_process_erase (q : PriorityQueue) (e : PQEntry)
    (hnd : (q.map PQEntry.process).Nodup) (he : e ∈ q) :
    (q.erase e).map PQEntry.process = (q.map PQEntry.process).erase e.process := by
  induction q with
  | nil => cases he
  | cons a l ih =>
    by_cases hae : a = e
    · subst hae
      simp
    · have hel : e ∈ l := by
        rcases List.mem_cons.mp he with h | h
        · exact absurd h.symm hae
        · exact h
      have hnd1 := List.nodup_cons.mp hnd
      have hpe : a.process ≠ e.process := by
        intro hp
        exact hnd1.1 (hp ▸ List.mem_map.mpr ⟨e, hel, rfl⟩)
      rw [List.erase_cons_tail (by simpa using hae)]
      simp only [List.map_cons]
      rw [List.erase_cons_tail (by simpa using hpe), ih hnd1.2 hel]

theorem members_pop (q : PriorityQueue) (p : Nat) (hnd : q.members.Nodup)
    (h : q.top = some p) : q.pop.members = q.members.erase p := by
  simp only [PriorityQueue.top, Option.map_eq_some'] at h
  obtain ⟨e, he, hp⟩ := h
  simp only [PriorityQueue.pop, he, PriorityQueue.members]
  rw [map_process_erase q e hnd (topEntry_mem q e he), hp]

theorem members_push (q : PriorityQueue) (p k : Nat) :
    (q.push p k).members = q.members ++ [p] := by
  simp [PriorityQueue.push, PriorityQueue.members]

theorem nodup_erase_append (l : List Nat) (p : Nat) (h : l.Nodup) :
    (l.erase p ++ [p]).Nodup := by
  rw [List.nodup_append]
  refine ⟨h.erase p, List.nodup_singleton p, ?_⟩
  intro x hx hx1
  rw [List.mem_singleton] at hx1
  subst hx1
  exact ((h.mem_erase_iff).mp hx).1 rfl

theorem mem_erase_append (l : List Nat) (p x : Nat) (hp : p ∈ l)
    (hx : x ∈ l.erase p ++ [p]) : x ∈ l := by
  rcases List.mem_append.mp hx with h | h
  · exact List.mem_of_mem_erase h
  · rw [List.mem_singleton] at h
    exact h ▸ hp

theorem QueueInv_same (g g2 : Group) (h : SameProcesses g g2) (hI : QueueInv g) :
    QueueInv g2 := by
  obtain ⟨hself, hheap, _, _, _, hpq, _⟩ := h
  unfold QueueInv
  rw [hself, hheap, hpq]
  exact hI

theorem QueueInv_newSession (g g1 : Group) (s : Session)
    (h : g.newSession = Except.ok (g1, s)) (hI : QueueInv g) : QueueInv g1 := by
  obtain ⟨p, _, htop, rfl, _⟩ := newSession_cases g g1 s h
  obtain ⟨hnd, hall⟩ := hI
  have hp := top_mem_members _ _ htop
  have hm : ((g.pqueue.pop).push p
      (setProcess g.heap p (g.heap p).newSession p).usage).members
      = g.pqueue.members.erase p ++ [p] := by
    rw [members_push, members_pop _ _ hnd htop]
  refine ⟨?_, ?_⟩
  · show (PriorityQueue.members _).Nodup
    rw [hm]
    exact nodup_erase_append _ _ hnd
  · intro q hq
    have hq1 : q ∈ g.pqueue.members := by
      have hq2 : q ∈ ((g.pqueue.pop).push p
          (setProcess g.heap p (g.heap p).newSession p).usage).members := hq
      rw [hm] at hq2
      exact mem_erase_append _ _ _ hp hq2
    have := hall q hq1
    by_cases hqp : q = p
    · subst hqp
      simpa [setProcess, Process.newSession] using this
    · simpa [setProcess, hqp] using this

theorem QueueInv_getWaitlist (g : Group) (ws : List GetWaiter) (hI : QueueInv g) :
    QueueInv { g with getWaitlist := ws } := hI

theorem QueueInv_moveToDisabled (g : Group) (q : Nat) (hI : QueueInv g) :
    QueueInv (g.moveToDisabled q) := by
  obtain ⟨hnd, hall⟩ := hI
  refine ⟨?_, ?_⟩
  · show (PriorityQueue.members (g.pqueue.eraseProcess q)).Nodup
    rw [members_eraseProcess]
    exact hnd.erase q
  · intro x hx
    have hx1 : x ∈ PriorityQueue.members (g.pqueue.eraseProcess q) := hx
    rw [members_eraseProcess] at hx1
    obtain ⟨hne, hmem⟩ := (hnd.mem_erase_iff).mp hx1
    simpa [Group.moveToDisabled, setProcess, hne] using hall x hmem

theorem QueueInv_addEnabled (g : Group) (p : Nat) (hg : (g.heap p).group = none)
    (hI : QueueInv g) : QueueInv (g.addEnabled p) := by
  obtain ⟨hnd, hall⟩ := hI
  have hp : p ∉ g.pqueue.members := by
    intro hmem
    have := (hall p hmem).2
    rw [hg] at this
    cases this
  refine ⟨?_, ?_⟩
  · show (PriorityQueue.members (g.pqueue.push p _)).Nodup
    rw [members_push]
    exact List.Nodup.append hnd (List.nodup_singleton p) (by
      intro x hx hx1
      rw [List.mem_singleton] at hx1
      exact hp (hx1 ▸ hx))
  · intro x hx
    have hx1 : x ∈ PriorityQueue.members (g.pqueue.push p (g.heap p).usage) := hx
    rw [members_push] at hx1
    by_cases hxp : x = p
    · subst hxp
      simp [Group.addEnabled, setProcess]
    · rcases List.mem_append.mp hx1 with h | h
      · simpa [Group.addEnabled, setProcess, hxp] using hall x h
      · rw [List.mem_singleton] at h
        exact absurd h hxp

theorem QueueInv_get (env : Env) (g g1 : Group) (o : Options) (cb : Nat)
    (r : Option Session) (hr : env.needsRestart g o = false)
    (h : Group.get env g o cb = Except.ok (g1, r)) (hI : QueueInv g) : QueueInv g1 := by
  obtain ⟨g2, hsame, hcases⟩ := get_cases env g g1 o cb r hr h
  have hI2 := QueueInv_same g g2 hsame hI
  rcases hcases with ⟨_, rfl, _⟩ | ⟨_, _, rfl, _⟩ | ⟨_, s, p, _, _, _, hns⟩
  · exact hI2
  · exact hI2
  · exact QueueInv_newSession g2 g1 s hns hI2

/-- Induction over the loop of the drain: a property kept by `newSession` and
indifferent to `getWaitlist` holds after the loop. -/
theorem assignSessionsLoop_induct (P : Group → Prop)
    (hstep : ∀ g g1 s, P g → g.newSession = Except.ok (g1, s) → P g1)
    (hframe : ∀ g ws, P g → P { g with getWaitlist := ws }) :
    ∀ (ws : List GetWaiter) (g g2 : Group) (acts acts2 : List Callback),
      Group.assignSessionsLoop ws g acts = Except.ok (g2, acts2) → P g → P g2 := by
  intro ws
  induction ws with
  | nil =>
    intro g g2 acts acts2 h hP
    simp only [Group.assignSessionsLoop, Except.ok.injEq, Prod.mk.injEq] at h
    exact h.1 ▸ hframe g [] hP
  | cons w ws ih =>
    intro g g2 acts acts2 h hP
    unfold Group.assignSessionsLoop at h
    split at h
    · simp only [Except.ok.injEq, Prod.mk.injEq] at h
      exact h.1 ▸ hframe g _ hP
    · split at h
      · simp only [Except.ok.injEq, Prod.mk.injEq] at h
        exact h.1 ▸ hframe g _ hP
      · split at h
        · cases h
        · rename_i g1 s hns
          exact ih _ _ _ _ h (hstep g g1 s hP hns)

theorem QueueInv_drain (g g1 : Group) (acts acts1 : List Callback)
    (h : g.assignSessionsToGetWaiters acts = Except.ok (g1, acts1)) (hI : QueueInv g) :
    QueueInv g1 :=
  assignSessionsLoop_induct QueueInv (fun g g1 s hP hns => QueueInv_newSession g g1 s hns hP)
    (fun _ _ hP => hP) _ _ _ _ _ h hI

theorem QueueInv_attach (g g1 : Group) (p : Nat) (acts acts1 : List Callback)
    (h : g.attach p acts = Except.ok (g1, acts1)) (hI : QueueInv g) : QueueInv g1 := by
  obtain ⟨hg, g2, hloop, rfl⟩ := attach_cases g g1 p acts acts1 h
  have h2 : QueueInv g2 :=
    attachLoop_induct QueueInv (fun g q hP _ _ _ => QueueInv_moveToDisabled g q hP)
      _ _ _ _ _ hloop (QueueInv_addEnabled g p hg hI)
  exact h2

theorem QueueInv_detach (g g1 : Group) (p : Nat) (acts acts1 : List Callback)
    (h : g.detach p acts = Except.ok (g1, acts1)) (hI : QueueInv g) : QueueInv g1 := by
  obtain ⟨hnd, hall⟩ := hI
  have herased : ∀ x, x ∈ PriorityQueue.members (g.pqueue.eraseProcess p) →
      x ≠ p ∧ x ∈ g.pqueue.members := by
    intro x hx
    rw [members_eraseProcess] at hx
    exact (hnd.mem_erase_iff).mp hx
  have hnd1 : (PriorityQueue.members (g.pqueue.eraseProcess p)).Nodup := by
    rw [members_eraseProcess]
    exact hnd.erase p
  obtain ⟨hg, hcases⟩ := detach_cases g g1 p acts acts1 h
  rcases hcases with ⟨_, _, _, _, rfl, _⟩ | ⟨_, _, _, _, rfl, _⟩ | ⟨htag, _, rfl, _⟩
  · refine ⟨hnd1, ?_⟩
    intro x hx
    obtain ⟨hne, hmem⟩ := herased x hx
    simpa [setProcess, hne] using hall x hmem
  · refine ⟨hnd1, ?_⟩
    intro x hx
    obtain ⟨hne, hmem⟩ := herased x hx
    simpa [setProcess, hne] using hall x hmem
  · refine ⟨hnd, ?_⟩
    intro x hx
    have hne : x ≠ p := by
      rintro rfl
      exact (hall x hx).1 htag
    simpa [setProcess, hne] using hall x hx

theorem QueueInv_detachAll (g g1 : Group) (acts acts1 : List Callback)
    (h : g.detachAll acts = Except.ok (g1, acts1)) : QueueInv g1 := by
  rw [detachAll_cases g g1 acts acts1 h]
  exact ⟨List.nodup_nil, fun q hq => absurd hq (List.not_mem_nil q)⟩

theorem QueueInv_enable (g g1 : Group) (p : Nat) (acts acts1 : List Callback)
    (h : g.enable p acts = Except.ok (g1, acts1)) (hI : QueueInv g) : QueueInv g1 := by
  obtain ⟨hnd, hall⟩ := hI
  obtain ⟨hg, hcases⟩ := enable_cases g g1 p acts acts1 h
  rcases hcases with ⟨_, rfl, _⟩ | ⟨htag, _, rfl, _⟩ | ⟨_, rfl, _⟩
  · refine ⟨hnd, ?_⟩
    intro x hx
    by_cases hxp : x = p
    · subst hxp
      simpa [setProcess] using (hall x hx).2
    · simpa [setProcess, hxp] using hall x hx
  · have hp : p ∉ g.pqueue.members := fun hmem => (hall p hmem).1 htag
    refine ⟨?_, ?_⟩
    · show (PriorityQueue.members (g.pqueue.push p _)).Nodup
      rw [members_push]
      exact List.Nodup.append hnd (List.nodup_singleton p) (by
        intro x hx hx1
        rw [List.mem_singleton] at hx1
        exact hp (hx1 ▸ hx))
    · intro x hx
      have hx1 : x ∈ PriorityQueue.members (g.pqueue.push p (g.heap p).usage) := hx
      rw [members_push] at hx1
      by_cases hxp : x = p
      · subst hxp
        simpa [setProcess] using hg
      · rcases List.mem_append.mp hx1 with h1 | h1
        · simpa [setProcess, hxp] using hall x h1
        · rw [List.mem_singleton] at h1
          exact absurd h1 hxp
  · exact ⟨hnd, hall⟩

theorem QueueInv_disable (g g1 : Group) (p cb : Nat) (r : Bool)
    (h : g.disable p cb = Except.ok (g1, r)) (hI : QueueInv g) : QueueInv g1 := by
  obtain ⟨hnd, hall⟩ := hI
  obtain ⟨hg, hcases⟩ := disable_cases g g1 p cb r h
  rcases hcases with ⟨_, _, _, _, rfl⟩ | ⟨_, _, _, _, _, _, rfl⟩ | ⟨_, _, rfl⟩ | ⟨_, _, rfl⟩
  · unfold QueueInv
    rw [spawn_pqueue, spawn_heap, spawn_self]
    refine ⟨hnd, ?_⟩
    intro x hx
    by_cases hxp : x = p
    · subst hxp
      simpa [setProcess] using (hall x hx).2
    · simpa [setProcess, hxp] using hall x hx
  · refine ⟨?_, ?_⟩
    · show (PriorityQueue.members (g.pqueue.eraseProcess p)).Nodup
      rw [members_eraseProcess]
      exact hnd.erase p
    · intro x hx
      have hx1 : x ∈ PriorityQueue.members (g.pqueue.eraseProcess p) := hx
      rw [members_eraseProcess] at hx1
      obtain ⟨hne, hmem⟩ := (hnd.mem_erase_iff).mp hx1
      simpa [setProcess, hne] using hall x hmem
  · exact ⟨hnd, hall⟩
  · exact ⟨hnd, hall⟩

theorem map_fst_ok {α β : Type} (x : Except Fault (α × β)) (a : α)
    (h : x.map Prod.fst = Except.ok a) : ∃ b, x = Except.ok (a, b) := by
  cases x with
  | error f => cases h
  | ok v =>
    obtain ⟨a1, b1⟩ := v
    simp only [Except.map, Except.ok.injEq] at h
    exact ⟨b1, by rw [h]⟩

theorem QueueInv_step (g g1 : Group) (op : Op) (h : step g op = Except.ok g1)
    (hI : QueueInv g) : QueueInv g1 := by
  cases op with
  | get b o cb =>
    obtain ⟨r, hr⟩ := map_fst_ok _ _ h
    exact QueueInv_get (Env.noRestart b) g g1 o cb r rfl hr hI
  | assignSessionsToGetWaiters =>
    obtain ⟨r, hr⟩ := map_fst_ok _ _ h
    exact QueueInv_drain g g1 [] r hr hI
  | attach p =>
    obtain ⟨r, hr⟩ := map_fst_ok _ _ h
    exact QueueInv_attach g g1 p [] r hr hI
  | detach p =>
    obtain ⟨r, hr⟩ := map_fst_ok _ _ h
    exact QueueInv_detach g g1 p [] r hr hI
  | detachAll =>
    obtain ⟨r, hr⟩ := map_fst_ok _ _ h
    exact QueueInv_detachAll g g1 [] r hr
  | enable p =>
    obtain ⟨r, hr⟩ := map_fst_ok _ _ h
    exact QueueInv_enable g g1 p [] r hr hI
  | disable p cb =>
    obtain ⟨r, hr⟩ := map_fst_ok _ _ h
    exact QueueInv_disable g g1 p cb r hr hI

theorem QueueInv_reachable (allowed : Op → Prop) (g : Group) (h : Reachable allowed g) :
    QueueInv g := by
  induction h with
  | init g hempty =>
    obtain ⟨_, _, hpq, _⟩ := hempty
    unfold QueueInv
    rw [hpq]
    exact ⟨List.nodup_nil, fun q hq => absurd hq (List.not_mem_nil q)⟩
  | step g g1 op _ _ hstep ih => exact QueueInv_step g g1 op hstep ih

/-! ## C4: which processes receive new sessions -/

theorem enabled_or_disabling (t : EnabledStatus) (h : t ≠ EnabledStatus.DISABLED) :
    t = EnabledStatus.ENABLED ∨ t = EnabledStatus.DISABLING := by
  cases t with
  | ENABLED => exact Or.inl rfl
  | DISABLING => exact Or.inr rfl
  | DISABLED => exact absurd rfl h

theorem assignSessionsLoop_served :
    ∀ (ws : List GetWaiter) (g g1 : Group) (acts acts1 : List Callback),
      Group.assignSessionsLoop ws g acts = Except.ok (g1, acts1) → QueueInv g →
      ∃ served, acts1 = acts ++ served ∧
        ∀ a ∈ served, ∃ cb p,
          a = Callback.bound cb
            (some { process := ProcessRef.ptr p, onInitiateFailure := true, onClose := true })
            none ∧
          p ∈ g.pqueue.members ∧ (g.heap p).enabled ≠ EnabledStatus.DISABLED := by
  intro ws
  induction ws with
  | nil =>
    intro g g1 acts acts1 h _
    simp only [Group.assignSessionsLoop, Except.ok.injEq, Prod.mk.injEq] at h
    exact ⟨[], by simp [h.2], fun a ha => absurd ha (List.not_mem_nil a)⟩
  | cons w ws ih =>
    intro g g1 acts acts1 h hI
    unfold Group.assignSessionsLoop at h
    split at h
    · simp only [Except.ok.injEq, Prod.mk.injEq] at h
      exact ⟨[], by simp [h.2], fun a ha => absurd ha (List.not_mem_nil a)⟩
    · rename_i p0 htop0
      split at h
      · simp only [Except.ok.injEq, Prod.mk.injEq] at h
        exact ⟨[], by simp [h.2], fun a ha => absurd ha (List.not_mem_nil a)⟩
      · split at h
        · cases h
        · rename_i g2 s hns
          have hI2 := QueueInv_newSession g g2 s hns hI
          obtain ⟨served, hacts, hserved⟩ := ih g2 g1 _ acts1 h hI2
          obtain ⟨p, _, htop, hg2, hs⟩ := newSession_cases g g2 s hns
          have hpm := top_mem_members _ _ htop
          refine ⟨Callback.bound w.callback (some s) none :: served, ?_, ?_⟩
          · rw [hacts]; simp
          · intro a ha
            rcases List.mem_cons.mp ha with ha1 | ha1
            · exact ⟨w.callback, p, by rw [ha1, hs], hpm, (hI.2 p hpm).1⟩
            · obtain ⟨cb, q, hq1, hq2, hq3⟩ := hserved a ha1
              have hqm : q ∈ g.pqueue.members := by
                rw [hg2] at hq2
                have hq4 : q ∈ ((g.pqueue.pop).push p
                    (setProcess g.heap p (g.heap p).newSession p).usage).members := hq2
                rw [members_push, members_pop _ _ hI.1 htop] at hq4
                exact mem_erase_append _ _ _ hpm hq4
              exact ⟨cb, q, hq1, hqm, (hI.2 q hqm).1⟩

/-- C4, against the claim as stated: after `attach(1)` and `disable(1, 7)` on an
empty group the only process is DISABLING, and the next `get` opens its session
on that very process. -/
theorem get_opens_session_on_disabling :
    ∃ g g1 s, Reachable (fun _ => True) g ∧
      run emptyGroup [Op.attach 1, Op.disable 1 7] = Except.ok g ∧
      (g.heap 1).enabled = EnabledStatus.DISABLING ∧
      Group.get (Env.noRestart false) g exampleOptions 5 = Except.ok (g1, some s) ∧
      s.process = ProcessRef.ptr 1 := by
  refine ⟨_, _, _, ?_, rfl, rfl, rfl, rfl⟩
  exact reachable_of_run _ [Op.attach 1, Op.disable 1 7] emptyGroup _
    (Reachable.init _ emptyGroup_isEmptyGroup) (fun _ _ => trivial) rfl

/-- C4, amended. In every group reached from an empty group by calls of `get`, the
drain, `attach`, `detach`, `detachAll`, `enable` and `disable`: a `get` that is
not a no-op and does not restart the group, when it opens a session, opens it on
the top process of the queue, which is tagged ENABLED or DISABLING, never
DISABLED; and every action queued by the drain of the get wait list carries a
session on a process of the queue that is tagged ENABLED or DISABLING, never
DISABLED. -/
theorem session_process_not_disabled (allowed : Op → Prop) (g : Group)
    (hreach : Reachable allowed g) :
    (∀ (env : Env) (o : Options) (cb : Nat) (g1 : Group) (s : Session),
      env.needsRestart g o = false → o.noop = false →
      Group.get env g o cb = Except.ok (g1, some s) →
      ∃ p, s.process = ProcessRef.ptr p ∧ g.pqueue.top = some p ∧
        ((g.heap p).enabled = EnabledStatus.ENABLED ∨
          (g.heap p).enabled = EnabledStatus.DISABLING)) ∧
    (∀ (acts acts1 : List Callback) (g1 : Group),
      g.assignSessionsToGetWaiters acts = Except.ok (g1, acts1) →
      ∃ served, acts1 = acts ++ served ∧
        ∀ a ∈ served, ∃ cb p,
          a = Callback.bound cb
            (some { process := ProcessRef.ptr p, onInitiateFailure := true, onClose := true })
            none ∧
          p ∈ g.pqueue.members ∧
          ((g.heap p).enabled = EnabledStatus.ENABLED ∨
            (g.heap p).enabled = EnabledStatus.DISABLING)) := by
  have hI := QueueInv_reachable allowed g hreach
  constructor
  · intro env o cb g1 s hr hn hget
    obtain ⟨g2, hsame, hcases⟩ := get_cases env g g1 o cb (some s) hr hget
    obtain ⟨_, hheap, _, _, _, hpq, _⟩ := hsame
    rcases hcases with ⟨hn1, _⟩ | ⟨_, hnone, _⟩ | ⟨_, s1, p, hs1, htop, _, hns⟩
    · rw [hn] at hn1; cases hn1
    · cases hnone
    · obtain ⟨p1, _, htop1, _, hs⟩ := newSession_cases g2 g1 s1 hns
      rw [htop] at htop1
      cases htop1
      simp only [Option.some.injEq] at hs1
      rw [hpq] at htop
      refine ⟨p, by rw [hs1, hs], htop, ?_⟩
      exact enabled_or_disabling _ (hI.2 p (top_mem_members _ _ htop)).1
  · intro acts acts1 g1 hdrain
    obtain ⟨served, hacts, hserved⟩ :=
      assignSessionsLoop_served g.getWaitlist g g1 acts acts1 hdrain hI
    refine ⟨served, hacts, ?_⟩
    intro a ha
    obtain ⟨cb, p, h1, h2, h3⟩ := hserved a ha
    exact ⟨cb, p, h1, h2, enabled_or_disabling _ h3⟩

theorem afterDisableLast_reachable : Reachable (fun _ => True) afterDisableLast :=
  reachable_of_run _ [Op.attach 1, Op.disable 1 7] emptyGroup _
    (Reachable.init _ emptyGroup_isEmptyGroup) (fun _ _ => trivial) rfl

/-- Witness for C4 (amended): the group whose only process is DISABLING. -/
theorem session_process_not_disabled_witness :
    Reachable (fun _ => True) afterDisableLast ∧
    ((∀ (env : Env) (o : Options) (cb : Nat) (g1 : Group) (s : Session),
      env.needsRestart afterDisableLast o = false → o.noop = false →
      Group.get env afterDisableLast o cb = Except.ok (g1, some s) →
      ∃ p, s.process = ProcessRef.ptr p ∧ afterDisableLast.pqueue.top = some p ∧
        ((afterDisableLast.heap p).enabled = EnabledStatus.ENABLED ∨
          (afterDisableLast.heap p).enabled = EnabledStatus.DISABLING)) ∧
    (∀ (acts acts1 : List Callback) (g1 : Group),
      afterDisableLast.assignSessionsToGetWaiters acts = Except.ok (g1, acts1) →
      ∃ served, acts1 = acts ++ served ∧
        ∀ a ∈ served, ∃ cb p,
          a = Callback.bound cb
            (some { process := ProcessRef.ptr p, onInitiateFailure := true, onClose := true })
            none ∧
          p ∈ afterDisableLast.pqueue.members ∧
          ((afterDisableLast.heap p).enabled = EnabledStatus.ENABLED ∨
            (afterDisableLast.heap p).enabled = EnabledStatus.DISABLING))) :=
  ⟨afterDisableLast_reachable,
    session_process_not_disabled (fun _ => True) afterDisableLast afterDisableLast_reachable⟩

/-! ## C10: `detachAll` -/

theorem WaitersInv_same (g g2 : Group) (h : SameProcesses g g2) (hI : WaitersInv g) :
    WaitersInv g2 := by
  obtain ⟨_, hheap, _, _, _, _, _, _, _, hdw⟩ := h
  unfold WaitersInv
  rw [hheap, hdw]
  exact hI

theorem WaitersInv_newSession (g g1 : Group) (s : Session)
    (h : g.newSession = Except.ok (g1, s)) (hI : WaitersInv g) : WaitersInv g1 := by
  obtain ⟨p, _, _, rfl, _⟩ := newSession_cases g g1 s h
  intro w hw
  have := hI w hw
  by_cases hwp : w.process = p
  · simpa [setProcess, hwp, Process.newSession] using (hwp ▸ this)
  · simpa [setProcess, hwp] using this

theorem WaitersInv_get (env : Env) (g g1 : Group) (o : Options) (cb : Nat)
    (r : Option Session) (hr : env.needsRestart g o = false)
    (h : Group.get env g o cb = Except.ok (g1, r)) (hI : WaitersInv g) : WaitersInv g1 := by
  obtain ⟨g2, hsame, hcases⟩ := get_cases env g g1 o cb r hr h
  have hI2 := WaitersInv_same g g2 hsame hI
  rcases hcases with ⟨_, rfl, _⟩ | ⟨_, _, rfl, _⟩ | ⟨_, s, p, _, _, _, hns⟩
  · exact hI2
  · exact hI2
  · exact WaitersInv_newSession g2 g1 s hns hI2

theorem WaitersInv_drain (g g1 : Group) (acts acts1 : List Callback)
    (h : g.assignSessionsToGetWaiters acts = Except.ok (g1, acts1)) (hI : WaitersInv g) :
    WaitersInv g1 :=
  assignSessionsLoop_induct WaitersInv
    (fun g g1 s hP hns => WaitersInv_newSession g g1 s hns hP)
    (fun _ _ hP => hP) _ _ _ _ _ h hI

theorem WaitersInv_attach (g g1 : Group) (p : Nat) (acts acts1 : List Callback)
    (h : g.attach p acts = Except.ok (g1, acts1)) : WaitersInv g1 := by
  obtain ⟨_, g2, _, rfl⟩ := attach_cases g g1 p acts acts1 h
  intro w hw
  exact absurd hw (List.not_mem_nil w)

theorem WaitersInv_detachAll (g g1 : Group) (acts acts1 : List Callback)
    (h : g.detachAll acts = Except.ok (g1, acts1)) : WaitersInv g1 := by
  rw [detachAll_cases g g1 acts acts1 h]
  intro w hw
  exact absurd hw (List.not_mem_nil w)

theorem WaitersInv_detach (g g1 : Group) (p : Nat) (acts acts1 : List Callback)
    (h : g.detach p acts = Except.ok (g1, acts1)) (hI : WaitersInv g) : WaitersInv g1 := by
  have htags : ∀ x, (setProcess g.heap p { g.heap p with group := none } x).enabled
      = (g.heap x).enabled := by
    intro x
    by_cases hx : x = p
    · subst hx; simp [setProcess]
    · simp [setProcess, hx]
  obtain ⟨_, hcases⟩ := detach_cases g g1 p acts acts1 h
  rcases hcases with ⟨_, _, _, _, rfl, _⟩ | ⟨_, _, _, _, rfl, _⟩ | ⟨_, _, rfl, _⟩
  · intro w hw
    exact (htags _).trans (hI w hw)
  · intro w hw
    exact (htags _).trans (hI w (List.mem_of_mem_filter hw))
  · intro w hw
    exact (htags _).trans (hI w hw)

theorem WaitersInv_enable (g g1 : Group) (p : Nat) (acts acts1 : List Callback)
    (h : g.enable p acts = Except.ok (g1, acts1)) (hI : WaitersInv g) : WaitersInv g1 := by
  obtain ⟨_, hcases⟩ := enable_cases g g1 p acts acts1 h
  rcases hcases with ⟨_, rfl, _⟩ | ⟨htag, _, rfl, _⟩ | ⟨_, rfl, _⟩
  · intro w hw
    have hw1 : w ∈ g.disableWaitlist.filter (fun w => decide (w.process ≠ p)) := hw
    obtain ⟨hmem, hne⟩ := List.mem_filter.mp hw1
    have hne1 : w.process ≠ p := by simpa using hne
    simpa [setProcess, hne1] using hI w hmem
  · intro w hw
    have hne : w.process ≠ p := by
      intro hwp
      have := hI w hw
      rw [hwp, htag] at this
      cases this
    simpa [setProcess, hne] using hI w hw
  · exact hI

theorem WaitersInv_disable (g g1 : Group) (p cb : Nat) (r : Bool)
    (h : g.disable p cb = Except.ok (g1, r)) (hI : WaitersInv g) : WaitersInv g1 := by
  obtain ⟨_, hcases⟩ := disable_cases g g1 p cb r h
  rcases hcases with ⟨_, _, _, _, rfl⟩ | ⟨htag, _, _, _, _, _, rfl⟩ | ⟨htag, _, rfl⟩ |
    ⟨_, _, rfl⟩
  · unfold WaitersInv
    rw [spawn_disableWaitlist, spawn_heap]
    intro w hw
    by_cases hwp : w.process = p
    · simp [setProcess, hwp]
    · rcases List.mem_append.mp hw with h1 | h1
      · simpa [setProcess, hwp] using hI w h1
      · rw [List.mem_singleton] at h1
        exact absurd (by rw [h1]) hwp
  · intro w hw
    have hne : w.process ≠ p := by
      intro hwp
      have := hI w hw
      rw [hwp, htag] at this
      cases this
    simpa [setProcess, hne] using hI w hw
  · intro w hw
    rcases List.mem_append.mp hw with h1 | h1
    · exact hI w h1
    · rw [List.mem_singleton] at h1
      rw [h1]
      exact htag
  · exact hI

theorem WaitersInv_step (g g1 : Group) (op : Op) (h : step g op = Except.ok g1)
    (hI : WaitersInv g) : WaitersInv g1 := by
  cases op with
  | get b o cb =>
    obtain ⟨r, hr⟩ := map_fst_ok _ _ h
    exact WaitersInv_get (Env.noRestart b) g g1 o cb r rfl hr hI
  | assignSessionsToGetWaiters =>
    obtain ⟨r, hr⟩ := map_fst_ok _ _ h
    exact WaitersInv_drain g g1 [] r hr hI
  | attach p =>
    obtain ⟨r, hr⟩ := map_fst_ok _ _ h
    exact WaitersInv_attach g g1 p [] r hr
  | detach p =>
    obtain ⟨r, hr⟩ := map_fst_ok _ _ h
    exact WaitersInv_detach g g1 p [] r hr hI
  | detachAll =>
    obtain ⟨r, hr⟩ := map_fst_ok _ _ h
    exact WaitersInv_detachAll g g1 [] r hr
  | enable p =>
    obtain ⟨r, hr⟩ := map_fst_ok _ _ h
    exact WaitersInv_enable g g1 p [] r hr hI
  | disable p cb =>
    obtain ⟨r, hr⟩ := map_fst_ok _ _ h
    exact WaitersInv_disable g g1 p cb r hr hI

theorem WaitersInv_reachable (allowed : Op → Prop) (g : Group) (h : Reachable allowed g) :
    WaitersInv g := by
  induction h with
  | init g hempty =>
    obtain ⟨_, _, _, _, _, _, _, hdw, _⟩ := hempty
    unfold WaitersInv
    rw [hdw]
    exact fun w hw => absurd hw (List.not_mem_nil w)
  | step g g1 op _ _ hstep ih => exact WaitersInv_step g g1 op hstep ih

/-- C10. In every group reached from an empty group by calls of `get`, the drain,
`attach`, `detach`, `detachAll`, `enable` and `disable`, `detachAll(acts)` returns
(its assertion on the waiters holds); afterwards `processes`, `disabledProcesses`
and `pqueue` are empty, the three counters are 0, `disableWaitlist` is empty, the
actions are the old actions followed by the callback of every old
`disableWaitlist` entry in wait-list order, and `getWaitlist`, `options` and the
spawning flag are unchanged. -/
theorem detachAll_effect (allowed : Op → Prop) (g : Group) (hreach : Reachable allowed g)
    (acts : List Callback) :
    ∃ g1, g.detachAll acts = Except.ok (g1, acts ++ disableCallbacks g.disableWaitlist) ∧
      g1.processes = [] ∧ g1.disabledProcesses = [] ∧ g1.pqueue = [] ∧
      g1.count = 0 ∧ g1.disablingCount = 0 ∧ g1.disabledCount = 0 ∧
      g1.disableWaitlist = [] ∧
      g1.getWaitlist = g.getWaitlist ∧ g1.options = g.options ∧
      g1.spawning = g.spawning := by
  have hI := WaitersInv_reachable allowed g hreach
  have hloop := detachAllLoop_ok (Group.clearGroups g.processes g.heap) g.disableWaitlist acts
    (fun w hw => (clearGroups_enabled _ _ _).trans (hI w hw))
  have hd : g.detachAll acts = Except.ok
      ({ g with
          heap := Group.clearGroups g.processes g.heap
          processes := []
          disabledProcesses := []
          pqueue := []
          count := 0
          disablingCount := 0
          disabledCount := 0
          disableWaitlist := [] },
        acts ++ disableCallbacks g.disableWaitlist) := by
    simp only [Group.detachAll, hloop]
  exact ⟨_, hd, rfl, rfl, rfl, rfl, rfl, rfl, rfl, rfl, rfl, rfl⟩

/-- Witness for C10: the group whose only process is DISABLING, with one waiting
disable callback. -/
theorem detachAll_effect_witness :
    Reachable (fun _ => True) afterDisableLast ∧
    ∃ g1, afterDisableLast.detachAll [] = Except.ok (g1, [Callback.plain 7]) ∧
      g1.processes = [] ∧ g1.disabledProcesses = [] ∧ g1.pqueue = [] ∧
      g1.count = 0 ∧ g1.disablingCount = 0 ∧ g1.disabledCount = 0 ∧
      g1.disableWaitlist = [] ∧
      g1.getWaitlist = afterDisableLast.getWaitlist ∧ g1.options = afterDisableLast.options ∧
      g1.spawning = afterDisableLast.spawning :=
  ⟨afterDisableLast_reachable,
    detachAll_effect (fun _ => True) afterDisableLast afterDisableLast_reachable []⟩

/-! ## C6: the result of `disable` -/

/-- C6. For every process p of the group (its back-reference is this group):
`disable(p, cb)` returns exactly when its assertions hold and its iterators are
valid (for an enabled p: `count > 0`, `count - disablingCount >= 1`, and p has
its nodes in `processes` and `pqueue` when it is to be moved); and whenever it
returns, it answers synchronously (true) exactly when p was DISABLED, or p was
ENABLED and `count - disablingCount > 1`, and pending (false) otherwise; in
exactly the pending case `disableWaitlist` gains the entry `(p, cb)` at the back;
and when p was already DISABLED the group is unchanged. -/
theorem disable_result (g : Group) (p cb : Nat)
    (hgrp : (g.heap p).group = some g.self) :
    ((∃ g1 r, g.disable p cb = Except.ok (g1, r)) ↔
      ((g.heap p).enabled = EnabledStatus.ENABLED →
        0 < g.count ∧ 1 ≤ g.count - g.disablingCount ∧
          (1 < g.count - g.disablingCount → p ∈ g.processes ∧ p ∈ g.pqueue.members))) ∧
    (∀ g1 r, g.disable p cb = Except.ok (g1, r) →
      (r = true ↔
        (g.heap p).enabled = EnabledStatus.DISABLED ∨
          ((g.heap p).enabled = EnabledStatus.ENABLED ∧ 1 < g.count - g.disablingCount)) ∧
      (r = false →
        g1.disableWaitlist = g.disableWaitlist ++ [{ process := p, callback := cb }]) ∧
      (r = true → g1.disableWaitlist = g.disableWaitlist) ∧
      ((g.heap p).enabled = EnabledStatus.DISABLED → g1 = g)) := by
  have hpre : ∀ g1 r, g.disable p cb = Except.ok (g1, r) →
      ((g.heap p).enabled = EnabledStatus.ENABLED →
        0 < g.count ∧ 1 ≤ g.count - g.disablingCount ∧
          (1 < g.count - g.disablingCount → p ∈ g.processes ∧ p ∈ g.pqueue.members)) := by
    intro g1 r h htag
    obtain ⟨_, hcases⟩ := disable_cases g g1 p cb r h
    rcases hcases with ⟨_, hc, hone, _, _⟩ | ⟨_, hc, hgt, hm1, hm2, _, _⟩ | ⟨ht, _, _⟩ |
      ⟨ht, _, _⟩
    · exact ⟨hc, by omega, fun hlt => absurd hlt (by omega)⟩
    · exact ⟨hc, by omega, fun _ => ⟨hm1, hm2⟩⟩
    · rw [htag] at ht; cases ht
    · rw [htag] at ht; cases ht
  refine ⟨⟨?_, ?_⟩, ?_⟩
  · rintro ⟨g1, r, h⟩
    exact hpre g1 r h
  · intro h
    obtain ⟨g1, r, hd, _⟩ := disable_total g p cb hgrp h
    exact ⟨g1, r, hd⟩
  · intro g1 r h
    obtain ⟨g2, r2, hd, hprops⟩ := disable_total g p cb hgrp (hpre g1 r h)
    rw [hd] at h
    simp only [Except.ok.injEq, Prod.mk.injEq] at h
    obtain ⟨rfl, rfl⟩ := h
    exact hprops

/-- Witness for C6: disabling the single enabled process of a group returns, and is
pending. -/
theorem disable_result_witness :
    (oneEnabled.heap 1).group = some oneEnabled.self ∧
    (((∃ g1 r, oneEnabled.disable 1 7 = Except.ok (g1, r)) ↔
      ((oneEnabled.heap 1).enabled = EnabledStatus.ENABLED →
        0 < oneEnabled.count ∧ 1 ≤ oneEnabled.count - oneEnabled.disablingCount ∧
          (1 < oneEnabled.count - oneEnabled.disablingCount →
            1 ∈ oneEnabled.processes ∧ 1 ∈ oneEnabled.pqueue.members))) ∧
    (∀ g1 r, oneEnabled.disable 1 7 = Except.ok (g1, r) →
      (r = true ↔
        (oneEnabled.heap 1).enabled = EnabledStatus.DISABLED ∨
          ((oneEnabled.heap 1).enabled = EnabledStatus.ENABLED ∧
            1 < oneEnabled.count - oneEnabled.disablingCount)) ∧
      (r = false →
        g1.disableWaitlist = oneEnabled.disableWaitlist ++ [{ process := 1, callback := 7 }]) ∧
      (r = true → g1.disableWaitlist = oneEnabled.disableWaitlist) ∧
      ((oneEnabled.heap 1).enabled = EnabledStatus.DISABLED → g1 = oneEnabled))) :=
  ⟨by decide, disable_result oneEnabled 1 7 (by decide)⟩

/-! ## The effect of `detach` where it returns -/

/-- The effect of `detach`.  For every process p whose group is this group:
`detach(p, acts)` returns
exactly when its assertions hold and its iterators are valid (an ENABLED or
DISABLING p: `count > 0` and p has its nodes in `processes` and `pqueue`; a
DISABLED p has its node in `disabledProcesses`); and whenever it returns, the
group back-reference of p is cleared and `getWaitlist` is unchanged.  If p was
ENABLED or DISABLING it is erased from `processes` and `pqueue` (so it is in
neither when it was listed once), `count` went down by one and
`disabledProcesses` and `disabledCount` are unchanged; if p was DISABLING then
also `disablingCount` went down by one, every `disableWaitlist` entry keyed to p
is removed with its callback appended to the actions in wait-list order, and the
other entries are kept in their order.  If p was DISABLED it is erased from
`disabledProcesses`, `disabledCount` went down by one, and `processes`, `pqueue`,
`count`, `disablingCount` and `disableWaitlist` are unchanged. -/
theorem detach_effect (g : Group) (p : Nat) (acts : List Callback)
    (hgrp : (g.heap p).group = some g.self) :
    ((∃ g1 acts1, g.detach p acts = Except.ok (g1, acts1)) ↔
      (((g.heap p).enabled ≠ EnabledStatus.DISABLED →
          0 < g.count ∧ p ∈ g.processes ∧ p ∈ g.pqueue.members) ∧
        ((g.heap p).enabled = EnabledStatus.DISABLED → p ∈ g.disabledProcesses))) ∧
    (∀ g1 acts1, g.detach p acts = Except.ok (g1, acts1) →
      (g1.heap p).group = none ∧
      g1.getWaitlist = g.getWaitlist ∧
      ((g.heap p).enabled ≠ EnabledStatus.DISABLED →
        g1.processes = g.processes.erase p ∧ g1.pqueue = g.pqueue.eraseProcess p ∧
        (g.processes.Nodup → p ∉ g1.processes) ∧
        (g.pqueue.members.Nodup → p ∉ g1.pqueue.members) ∧
        g1.count = g.count - 1 ∧
        g1.disabledProcesses = g.disabledProcesses ∧ g1.disabledCount = g.disabledCount) ∧
      ((g.heap p).enabled = EnabledStatus.ENABLED →
        g1.disablingCount = g.disablingCount ∧ g1.disableWaitlist = g.disableWaitlist ∧
        acts1 = acts) ∧
      ((g.heap p).enabled = EnabledStatus.DISABLING →
        g1.disablingCount = g.disablingCount - 1 ∧
        g1.disableWaitlist = g.disableWaitlist.filter (fun w => decide (w.process ≠ p)) ∧
        acts1 = acts ++
          disableCallbacks (g.disableWaitlist.filter (fun w => decide (w.process = p)))) ∧
      ((g.heap p).enabled = EnabledStatus.DISABLED →
        g1.disabledProcesses = g.disabledProcesses.erase p ∧
        (g.disabledProcesses.Nodup → p ∉ g1.disabledProcesses) ∧
        g1.disabledCount = g.disabledCount - 1 ∧
        g1.processes = g.processes ∧ g1.pqueue = g.pqueue ∧ g1.count = g.count ∧
        g1.disablingCount = g.disablingCount ∧ g1.disableWaitlist = g.disableWaitlist ∧
        acts1 = acts)) := by
  have hpre : ∀ g1 acts1, g.detach p acts = Except.ok (g1, acts1) →
      (((g.heap p).enabled ≠ EnabledStatus.DISABLED →
          0 < g.count ∧ p ∈ g.processes ∧ p ∈ g.pqueue.members) ∧
        ((g.heap p).enabled = EnabledStatus.DISABLED → p ∈ g.disabledProcesses)) := by
    intro g1 acts1 h
    obtain ⟨_, hcases⟩ := detach_cases g g1 p acts acts1 h
    rcases hcases with ⟨ht, hc, hm1, hm2, _, _⟩ | ⟨ht, hc, hm1, hm2, _, _⟩ | ⟨ht, hm, _, _⟩
    · exact ⟨fun _ => ⟨hc, hm1, hm2⟩, fun hd => by rw [ht] at hd; cases hd⟩
    · exact ⟨fun _ => ⟨hc, hm1, hm2⟩, fun hd => by rw [ht] at hd; cases hd⟩
    · exact ⟨fun hne => absurd ht hne, fun _ => hm⟩
  refine ⟨⟨?_, ?_⟩, ?_⟩
  · rintro ⟨g1, acts1, h⟩
    exact hpre g1 acts1 h
  · intro h
    obtain ⟨g1, acts1, hd, _⟩ := detach_total g p acts hgrp h.1 h.2
    exact ⟨g1, acts1, hd⟩
  · intro g1 acts1 h
    have hp := hpre g1 acts1 h
    obtain ⟨g2, acts2, hd, hprops⟩ := detach_total g p acts hgrp hp.1 hp.2
    rw [hd] at h
    simp only [Except.ok.injEq, Prod.mk.injEq] at h
    obtain ⟨rfl, rfl⟩ := h
    exact hprops

/-- Example of the effect of `detach`: detaching the DISABLING process of
`oneDisabling` returns and fires its two waiting callbacks. -/
theorem detach_effect_witness :
    (oneDisabling.heap 1).group = some oneDisabling.self ∧
    (((∃ g1 acts1, oneDisabling.detach 1 [] = Except.ok (g1, acts1)) ↔
      (((oneDisabling.heap 1).enabled ≠ EnabledStatus.DISABLED →
          0 < oneDisabling.count ∧ 1 ∈ oneDisabling.processes ∧
            1 ∈ oneDisabling.pqueue.members) ∧
        ((oneDisabling.heap 1).enabled = EnabledStatus.DISABLED →
          1 ∈ oneDisabling.disabledProcesses))) ∧
    (∀ g1 acts1, oneDisabling.detach 1 [] = Except.ok (g1, acts1) →
      (g1.heap 1).group = none ∧
      g1.getWaitlist = oneDisabling.getWaitlist ∧
      ((oneDisabling.heap 1).enabled ≠ EnabledStatus.DISABLED →
        g1.processes = [] ∧ g1.pqueue = [] ∧
        (oneDisabling.processes.Nodup → 1 ∉ g1.processes) ∧
        (oneDisabling.pqueue.members.Nodup → 1 ∉ g1.pqueue.members) ∧
        g1.count = 0 ∧
        g1.disabledProcesses = [] ∧ g1.disabledCount = 0) ∧
      ((oneDisabling.heap 1).enabled = EnabledStatus.ENABLED →
        g1.disablingCount = oneDisabling.disablingCount ∧
        g1.disableWaitlist = oneDisabling.disableWaitlist ∧
        acts1 = []) ∧
      ((oneDisabling.heap 1).enabled = EnabledStatus.DISABLING →
        g1.disablingCount = 0 ∧
        g1.disableWaitlist = [] ∧
        acts1 = [Callback.plain 7, Callback.plain 8]) ∧
      ((oneDisabling.heap 1).enabled = EnabledStatus.DISABLED →
        g1.disabledProcesses = [] ∧
        (oneDisabling.disabledProcesses.Nodup → 1 ∉ g1.disabledProcesses) ∧
        g1.disabledCount = oneDisabling.disabledCount - 1 ∧
        g1.processes = oneDisabling.processes ∧ g1.pqueue = oneDisabling.pqueue ∧
        g1.count = oneDisabling.count ∧
        g1.disablingCount = oneDisabling.disablingCount ∧
        g1.disableWaitlist = oneDisabling.disableWaitlist ∧
        acts1 = []))) :=
  ⟨by decide, detach_effect oneDisabling 1 [] (by decide)⟩

/-! ## C7: `attach` drains the disable wait list -/

theorem mem_members_of_eraseProcess (q : PriorityQueue) (p x : Nat)
    (h : x ∈ (q.eraseProcess p).members) : x ∈ q.members := by
  rw [members_eraseProcess] at h
  exact List.mem_of_mem_erase h

/-- When the loop of `attach` returns, every waiter it visited named a process that
was DISABLED, or DISABLING with its nodes in `processes` and `pqueue`. -/
theorem attachLoop_returns :
    ∀ (ws : List DisableWaiter) (g g2 : Group) (acts acts2 : List Callback),
      Group.attachLoop ws g acts = Except.ok (g2, acts2) →
      ∀ w ∈ ws, (g.heap w.process).enabled = EnabledStatus.DISABLED ∨
        ((g.heap w.process).enabled = EnabledStatus.DISABLING ∧
          w.process ∈ g.processes ∧ w.process ∈ g.pqueue.members) := by
  intro ws
  induction ws with
  | nil =>
    intro g g2 acts acts2 _ w hw
    exact absurd hw (List.not_mem_nil w)
  | cons a ws ih =>
    intro g g2 acts acts2 h w hw
    unfold Group.attachLoop at h
    split at h
    · cases h
    · rename_i htag
      rcases List.mem_cons.mp hw with hwa | hwa
      · rw [hwa]; exact Or.inl htag
      · exact ih _ _ _ _ h w hwa
    · rename_i htag
      split at h
      · rename_i hm
        rcases List.mem_cons.mp hw with hwa | hwa
        · rw [hwa]; exact Or.inr ⟨htag, hm.1, hm.2⟩
        · by_cases hwp : w.process = a.process
          · rw [hwp]; exact Or.inr ⟨htag, hm.1, hm.2⟩
          · rcases ih _ _ _ _ h w hwa with h1 | ⟨h1, h2, h3⟩
            · left
              simpa [Group.moveToDisabled, setProcess, hwp] using h1
            · right
              refine ⟨by simpa [Group.moveToDisabled, setProcess, hwp] using h1, ?_, ?_⟩
              · exact List.mem_of_mem_erase h2
              · exact mem_members_of_eraseProcess _ _ _ h3
      · cases h

/-- When `attach` returns, the process had no group, was not waiting to be
disabled, and every waiter named a process that was DISABLED, or DISABLING with
its nodes in `processes` and `pqueue`. -/
theorem attach_returns (g g1 : Group) (p : Nat) (acts acts1 : List Callback)
    (h : g.attach p acts = Except.ok (g1, acts1)) :
    (g.heap p).group = none ∧
    ∀ w ∈ g.disableWaitlist, w.process ≠ p ∧
      ((g.heap w.process).enabled = EnabledStatus.DISABLED ∨
        ((g.heap w.process).enabled = EnabledStatus.DISABLING ∧
          w.process ∈ g.processes ∧ w.process ∈ g.pqueue.members)) := by
  obtain ⟨hg, g2, hloop, _⟩ := attach_cases g g1 p acts acts1 h
  refine ⟨hg, ?_⟩
  intro w hw
  have hcase := attachLoop_returns _ _ _ _ _ hloop w hw
  have hne : w.process ≠ p := by
    intro hwp
    rcases hcase with h1 | ⟨h1, _, _⟩
    · simp [Group.addEnabled, setProcess, hwp] at h1
    · simp [Group.addEnabled, setProcess, hwp] at h1
  refine ⟨hne, ?_⟩
  rcases hcase with h1 | ⟨h1, h2, h3⟩
  · left
    simpa [Group.addEnabled, setProcess, hne] using h1
  · right
    refine ⟨by simpa [Group.addEnabled, setProcess, hne] using h1, ?_, ?_⟩
    · have h4 : w.process ∈ g.processes ++ [p] := h2
      rcases List.mem_append.mp h4 with h5 | h5
      · exact h5
      · rw [List.mem_singleton] at h5
        exact absurd h5 hne
    · have h4 : w.process ∈ PriorityQueue.members (g.pqueue.push p (g.heap p).usage) := h3
      rw [members_push] at h4
      rcases List.mem_append.mp h4 with h5 | h5
      · exact h5
      · rw [List.mem_singleton] at h5
        exact absurd h5 hne

/-- C7. Let every `disableWaitlist` entry name a process that is DISABLING and in
`processes`, and let p be a process without group.  Then `attach(p, acts)` returns
exactly when its assertion holds and its queue handles are valid (no entry names
p itself, and every waiting process has its node in `pqueue`).  Whenever it
returns: p is ENABLED, is the last element of `processes` and is in `pqueue`;
`disableWaitlist` is empty; the actions are the old actions followed by the
callbacks of all old entries, one per entry, in wait-list order; every distinct
process of the old wait list is DISABLED and has been erased from `processes` and
`pqueue` and appended to `disabledProcesses` (in the order of first occurrence),
so that it is in neither once it was listed once; and `count` and
`disablingCount` went down and `disabledCount` up once per distinct process
(`count` after its increment for p). -/
theorem attach_drains_disableWaitlist (g : Group) (p : Nat) (acts : List Callback)
    (hgrp : (g.heap p).group = none)
    (hws : ∀ w ∈ g.disableWaitlist,
      (g.heap w.process).enabled = EnabledStatus.DISABLING ∧ w.process ∈ g.processes) :
    ((∃ g1 acts1, g.attach p acts = Except.ok (g1, acts1)) ↔
      ((∀ w ∈ g.disableWaitlist, w.process ∈ g.pqueue.members) ∧
        (∀ w ∈ g.disableWaitlist, w.process ≠ p))) ∧
    (∀ g1 acts1, g.attach p acts = Except.ok (g1, acts1) →
      acts1 = acts ++ disableCallbacks g.disableWaitlist ∧
      (g1.heap p).enabled = EnabledStatus.ENABLED ∧
      g1.processes.getLast? = some p ∧ p ∈ g1.pqueue.members ∧
      g1.disableWaitlist = [] ∧
      (∀ q ∈ distinct (g.disableWaitlist.map DisableWaiter.process),
        (g1.heap q).enabled = EnabledStatus.DISABLED) ∧
      g1.processes =
        (distinct (g.disableWaitlist.map DisableWaiter.process)).foldl List.erase
          (g.processes ++ [p]) ∧
      g1.pqueue =
        (distinct (g.disableWaitlist.map DisableWaiter.process)).foldl
          PriorityQueue.eraseProcess (g.pqueue.push p (g.heap p).usage) ∧
      g1.disabledProcesses =
        g.disabledProcesses ++ distinct (g.disableWaitlist.map DisableWaiter.process) ∧
      (g.processes.Nodup → ∀ q ∈ distinct (g.disableWaitlist.map DisableWaiter.process),
        q ∉ g1.processes) ∧
      (g.pqueue.members.Nodup → ∀ q ∈ distinct (g.disableWaitlist.map DisableWaiter.process),
        q ∉ g1.pqueue.members) ∧
      g1.count = g.count + 1 - (distinct (g.disableWaitlist.map DisableWaiter.process)).length ∧
      g1.disablingCount =
        g.disablingCount - (distinct (g.disableWaitlist.map DisableWaiter.process)).length ∧
      g1.disabledCount =
        g.disabledCount + (distinct (g.disableWaitlist.map DisableWaiter.process)).length) := by
  have hpre : ∀ g1 acts1, g.attach p acts = Except.ok (g1, acts1) →
      ((∀ w ∈ g.disableWaitlist, w.process ∈ g.pqueue.members) ∧
        (∀ w ∈ g.disableWaitlist, w.process ≠ p)) := by
    intro g1 acts1 h
    obtain ⟨_, hall⟩ := attach_returns g g1 p acts acts1 h
    refine ⟨?_, fun w hw => (hall w hw).1⟩
    intro w hw
    rcases (hall w hw).2 with h1 | ⟨_, _, h3⟩
    · rw [(hws w hw).1] at h1; cases h1
    · exact h3
  refine ⟨⟨?_, ?_⟩, ?_⟩
  · rintro ⟨g1, acts1, h⟩
    exact hpre g1 acts1 h
  · intro h
    obtain ⟨g1, hd, _⟩ := attach_total g p acts hgrp hws h.1 h.2
    exact ⟨g1, _, hd⟩
  · intro g1 acts1 h
    have hp := hpre g1 acts1 h
    obtain ⟨g2, hd, hprops⟩ := attach_total g p acts hgrp hws hp.1 hp.2
    rw [hd] at h
    simp only [Except.ok.injEq, Prod.mk.injEq] at h
    obtain ⟨rfl, rfl⟩ := h
    exact ⟨rfl, hprops⟩

/-- Witness for C7: a process that is DISABLING with two waiting callbacks; the
attach of process 2 returns, fires both callbacks and disables process 1 once. -/
theorem attach_drains_disableWaitlist_witness :
    ((oneDisabling.heap 2).group = none ∧
      (∀ w ∈ oneDisabling.disableWaitlist,
        (oneDisabling.heap w.process).enabled = EnabledStatus.DISABLING ∧
          w.process ∈ oneDisabling.processes)) ∧
    (((∃ g1 acts1, oneDisabling.attach 2 [] = Except.ok (g1, acts1)) ↔
      ((∀ w ∈ oneDisabling.disableWaitlist, w.process ∈ oneDisabling.pqueue.members) ∧
        (∀ w ∈ oneDisabling.disableWaitlist, w.process ≠ 2))) ∧
    (∀ g1 acts1, oneDisabling.attach 2 [] = Except.ok (g1, acts1) →
      acts1 = [Callback.plain 7, Callback.plain 8] ∧
      (g1.heap 2).enabled = EnabledStatus.ENABLED ∧
      g1.processes.getLast? = some 2 ∧ 2 ∈ g1.pqueue.members ∧
      g1.disableWaitlist = [] ∧
      (∀ q ∈ [1], (g1.heap q).enabled = EnabledStatus.DISABLED) ∧
      g1.processes = [2] ∧
      g1.pqueue = [{ process := 2, key := 0 }] ∧
      g1.disabledProcesses = [1] ∧
      (oneDisabling.processes.Nodup → ∀ q ∈ [1], q ∉ g1.processes) ∧
      (oneDisabling.pqueue.members.Nodup → ∀ q ∈ [1], q ∉ g1.pqueue.members) ∧
      g1.count = 1 ∧ g1.disablingCount = 0 ∧ g1.disabledCount = 1)) :=
  ⟨⟨by decide, by decide⟩,
    attach_drains_disableWaitlist oneDisabling 2 [] (by decide) (by decide)⟩

/-! ## The dispatch of `get` where it returns -/

/-- The dispatch of `get`.  For a call of `get` that does not restart the group and
is not a no-op:
the call returns when its assertions hold (`count` is not negative, a group
without processes is spawning once `get` has had its chance to start a spawn, a
group with processes has a top process); and whenever it returns, it returns a
session exactly when `count > 0` and the top process is not at full capacity,
and then both wait lists are unchanged and the session is on that top process;
in every other case it returns null and `getWaitlist` is the old wait list with
exactly the waiter `(newOptions, callback)` appended at the back. -/
theorem get_dispatch (env : Env) (g : Group) (newOptions : Options) (callback : Nat)
    (hrestart : env.needsRestart g newOptions = false)
    (hnoop : newOptions.noop = false) :
    ((0 ≤ g.count ∧
        (g.count = 0 →
          g.spawning = true ∨ env.shouldSpawn (g.mergeOptions newOptions) = true) ∧
        (0 < g.count → g.pqueue.top ≠ none)) →
      ∃ g1 r, Group.get env g newOptions callback = Except.ok (g1, r)) ∧
    (∀ g1 r, Group.get env g newOptions callback = Except.ok (g1, r) →
      (r ≠ none ↔
        0 < g.count ∧ ∃ p, g.pqueue.top = some p ∧ (g.heap p).atFullCapacity = false) ∧
      (∀ s, r = some s →
        g1.getWaitlist = g.getWaitlist ∧ g1.disableWaitlist = g.disableWaitlist ∧
        ∃ p, g.pqueue.top = some p ∧ s.process = ProcessRef.ptr p) ∧
      (r = none →
        g1.getWaitlist =
          g.getWaitlist ++ [{ options := newOptions, callback := callback }])) := by
  constructor
  · rintro ⟨hc, hs, ht⟩
    obtain ⟨g1, r, h, _⟩ := get_total env g newOptions callback hrestart hnoop hc hs ht
    exact ⟨g1, r, h⟩
  · intro g1 r h
    obtain ⟨g2, hsame, hcases⟩ := get_cases env g g1 newOptions callback r hrestart h
    obtain ⟨_, hheap, hcount, _, _, hpq, _, _, hgw, hdw⟩ := hsame
    rcases hcases with ⟨hn, _⟩ | ⟨_, rfl, rfl, hwhy⟩ | ⟨_, s, p, rfl, htop, hfull, hns⟩
    · rw [hnoop] at hn; cases hn
    · refine ⟨?_, ?_, ?_⟩
      · constructor
        · intro hne; exact absurd rfl hne
        · rintro ⟨hpos, q, hq, hqf⟩
          rcases hwhy with h0 | ⟨p, hp, hpf⟩
          · rw [hcount] at h0; omega
          · rw [hpq, hq] at hp
            cases hp
            rw [hheap, hqf] at hpf
            cases hpf
      · intro s hs; cases hs
      · intro _
        show g2.getWaitlist ++ _ = _
        rw [hgw]
    · obtain ⟨p1, hpos, htop1, rfl, rfl⟩ := newSession_cases g2 g1 s hns
      rw [htop] at htop1
      cases htop1
      rw [hpq] at htop
      rw [hheap] at hfull
      rw [hcount] at hpos
      refine ⟨?_, ?_, ?_⟩
      · constructor
        · intro _; exact ⟨hpos, p, htop, hfull⟩
        · intro _ hn; cases hn
      · intro s hs
        simp only [Option.some.injEq] at hs
        subst hs
        exact ⟨hgw, hdw, p, htop, rfl⟩
      · intro hn; cases hn

/-- Example of the dispatch of `get`: the group with one idle enabled process serves
a `get` at once. -/
theorem get_dispatch_witness :
    ((Env.noRestart false).needsRestart oneEnabled exampleOptions = false ∧
      exampleOptions.noop = false) ∧
    (((0 ≤ oneEnabled.count ∧
        (oneEnabled.count = 0 →
          oneEnabled.spawning = true ∨
            (Env.noRestart false).shouldSpawn (oneEnabled.mergeOptions exampleOptions) = true) ∧
        (0 < oneEnabled.count → oneEnabled.pqueue.top ≠ none)) →
      ∃ g1 r, Group.get (Env.noRestart false) oneEnabled exampleOptions 5 = Except.ok (g1, r)) ∧
    (∀ g1 r, Group.get (Env.noRestart false) oneEnabled exampleOptions 5 = Except.ok (g1, r) →
      (r ≠ none ↔
        0 < oneEnabled.count ∧
          ∃ p, oneEnabled.pqueue.top = some p ∧ (oneEnabled.heap p).atFullCapacity = false) ∧
      (∀ s, r = some s →
        g1.getWaitlist = oneEnabled.getWaitlist ∧
        g1.disableWaitlist = oneEnabled.disableWaitlist ∧
        ∃ p, oneEnabled.pqueue.top = some p ∧ s.process = ProcessRef.ptr p) ∧
      (r = none →
        g1.getWaitlist =
          oneEnabled.getWaitlist ++ [{ options := exampleOptions, callback := 5 }]))) :=
  ⟨⟨rfl, rfl⟩, get_dispatch (Env.noRestart false) oneEnabled exampleOptions 5 rfl rfl⟩

/-! ## C8: the drain of the get wait list -/

/-- What the loop of the drain did when it returned: it served the first `k`
waiters, one session each on the top process of the moment, and stopped on an
empty list, an empty queue or a top process at full capacity. -/
theorem assignSessionsLoop_inv :
    ∀ (ws : List GetWaiter) (g g1 : Group) (acts acts1 : List Callback),
      Group.assignSessionsLoop ws g acts = Except.ok (g1, acts1) →
      ∃ k served,
        g1 = { afterSessions k g with getWaitlist := ws.drop k } ∧
        acts1 = acts ++ served ∧
        k ≤ ws.length ∧ served.length = k ∧
        (∀ i, i < k → ∃ w p, ws[i]? = some w ∧
          (afterSessions i g).pqueue.top = some p ∧
          ((afterSessions i g).heap p).atFullCapacity = false ∧
          served[i]? = some (Callback.bound w.callback
            (some { process := ProcessRef.ptr p, onInitiateFailure := true, onClose := true })
            none)) ∧
        (ws.drop k = [] ∨ (afterSessions k g).pqueue.top = none ∨
          ∃ p, (afterSessions k g).pqueue.top = some p ∧
            ((afterSessions k g).heap p).atFullCapacity = true) ∧
        (afterSessions k g).processes = g.processes ∧
        (k = 0 ∨ (afterSessions k g).pqueue ≠ []) := by
  intro ws
  induction ws with
  | nil =>
    intro g g1 acts acts1 h
    simp only [Group.assignSessionsLoop, Except.ok.injEq, Prod.mk.injEq] at h
    refine ⟨0, [], h.1.symm, by simp [h.2], le_refl _, rfl, ?_, Or.inl rfl, rfl, Or.inl rfl⟩
    intro i hi; exact absurd hi (Nat.not_lt_zero _)
  | cons w ws ih =>
    intro g g1 acts acts1 h
    unfold Group.assignSessionsLoop at h
    split at h
    · rename_i ht
      simp only [Except.ok.injEq, Prod.mk.injEq] at h
      refine ⟨0, [], h.1.symm, by simp [h.2], Nat.zero_le _, rfl, ?_, Or.inr (Or.inl ht), rfl,
        Or.inl rfl⟩
      intro i hi; exact absurd hi (Nat.not_lt_zero _)
    · rename_i p ht
      split at h
      · rename_i hf
        simp only [Except.ok.injEq, Prod.mk.injEq] at h
        refine ⟨0, [], h.1.symm, by simp [h.2], Nat.zero_le _, rfl, ?_,
          Or.inr (Or.inr ⟨p, ht, hf⟩), rfl, Or.inl rfl⟩
        intro i hi; exact absurd hi (Nat.not_lt_zero _)
      · rename_i hf
        have hf1 : (g.heap p).atFullCapacity = false := by simpa using hf
        split at h
        · cases h
        · rename_i g2 s hns
          obtain ⟨k, served, hg1, hacts, hk, hlen, hserved, hstop, hprocs, hpq⟩ :=
            ih g2 g1 _ acts1 h
          obtain ⟨p1, _, htop1, hg2, hs⟩ := newSession_cases g g2 s hns
          rw [ht] at htop1
          cases htop1
          have hsucc := fun n => afterSessions_succ_of_ok n g g2 s hns
          refine ⟨k + 1, Callback.bound w.callback (some s) none :: served, ?_, ?_, ?_, ?_,
            ?_, ?_, ?_, ?_⟩
          · rw [hsucc, List.drop_succ_cons]; exact hg1
          · rw [hacts]; simp
          · simp only [List.length_cons]; omega
          · simp only [List.length_cons, hlen]
          · intro i hi
            cases i with
            | zero => exact ⟨w, p, by simp, ht, hf1, by simp [hs]⟩
            | succ j =>
              obtain ⟨w1, q1, h1, h2, h3, h4⟩ := hserved j (by omega)
              refine ⟨w1, q1, ?_, ?_, ?_, ?_⟩
              · simpa using h1
              · rw [hsucc]; exact h2
              · rw [hsucc]; exact h3
              · simpa using h4
          · rw [hsucc, List.drop_succ_cons]; exact hstop
          · rw [hsucc, hprocs, hg2]
          · right
            rw [hsucc]
            rcases hpq with h0 | h0
            · subst h0
              rw [hg2]
              simp [afterSessions, PriorityQueue.push]
            · exact h0

/-- C8. The drain `assignSessionsToGetWaiters` is a loop over `getWaitlist` and ends
after at most one round per waiter.  It returns when the assertion of
`newSession` holds (`count > 0` when the queue is not empty); and whenever it
returns, for some `k` it removed the first `k` waiters of `getWaitlist` and left
the rest in order; it appended exactly `k` actions, the i-th being the callback
of the i-th waiter bound to no error and to a session on the process that was
the top of the queue after `i` sessions had been opened, a process then not at
full capacity; the group is the one reached by these `k` calls of `newSession`;
it stopped on an empty `getWaitlist`, an empty queue or a top process at full
capacity; hence, `processes` being empty exactly when the queue is, a non-empty
`getWaitlist` afterwards implies that `processes` is empty or the top process is
at full capacity. -/
theorem drain_serves_prefix (g : Group) (acts : List Callback) :
    ((g.pqueue ≠ [] → 0 < g.count) →
      ∃ g1 acts1, g.assignSessionsToGetWaiters acts = Except.ok (g1, acts1)) ∧
    (∀ g1 acts1, g.assignSessionsToGetWaiters acts = Except.ok (g1, acts1) →
      ∃ k served, acts1 = acts ++ served ∧
        k ≤ g.getWaitlist.length ∧ g1.getWaitlist = g.getWaitlist.drop k ∧
        served.length = k ∧
        g1 = { afterSessions k g with getWaitlist := g.getWaitlist.drop k } ∧
        (∀ i, i < k → ∃ w p, g.getWaitlist[i]? = some w ∧
          (afterSessions i g).pqueue.top = some p ∧
          ((afterSessions i g).heap p).atFullCapacity = false ∧
          served[i]? = some (Callback.bound w.callback
            (some { process := ProcessRef.ptr p, onInitiateFailure := true, onClose := true })
            none)) ∧
        (g1.getWaitlist = [] ∨ g1.pqueue.top = none ∨
          ∃ p, g1.pqueue.top = some p ∧ (g1.heap p).atFullCapacity = true) ∧
        ((g.processes = [] ↔ g.pqueue = []) → g1.getWaitlist ≠ [] →
          g1.processes = [] ∨
            ∃ p, g1.pqueue.top = some p ∧ (g1.heap p).atFullCapacity = true)) := by
  constructor
  · intro hcount
    obtain ⟨k, served, hloop, _⟩ := assignSessionsLoop_spec g.getWaitlist g acts hcount
    exact ⟨_, _, hloop⟩
  · intro g1 acts1 h
    obtain ⟨k, served, hg1, hacts, hk, hlen, hserved, hstop, hprocs, hpq⟩ :=
      assignSessionsLoop_inv g.getWaitlist g g1 acts acts1 h
    subst hg1
    refine ⟨k, served, hacts, hk, rfl, hlen, rfl, hserved, hstop, ?_⟩
    intro hidx hne
    rcases hstop with h1 | h1 | h1
    · exact absurd h1 hne
    · left
      have hempty : (afterSessions k g).pqueue = [] := (top_eq_none_iff _).mp h1
      rcases hpq with h0 | h0
      · subst h0
        exact hidx.mpr hempty
      · exact absurd hempty h0
    · exact Or.inr h1

/-- Witness for C8: one process with room for two sessions and three waiters; the
drain returns, serves the callbacks 5 and 6 on process 1 and leaves the third
waiter. -/
theorem drain_serves_prefix_witness :
    (∃ g1, oneEnabledThreeWaiting.assignSessionsToGetWaiters [] =
      Except.ok (g1,
        [Callback.bound 5
            (some { process := ProcessRef.ptr 1, onInitiateFailure := true, onClose := true })
            none,
          Callback.bound 6
            (some { process := ProcessRef.ptr 1, onInitiateFailure := true, onClose := true })
            none]) ∧
      g1.getWaitlist = [{ options := exampleOptions, callback := 7 }]) ∧
    (((oneEnabledThreeWaiting.pqueue ≠ [] → 0 < oneEnabledThreeWaiting.count) →
      ∃ g1 acts1, oneEnabledThreeWaiting.assignSessionsToGetWaiters [] = Except.ok (g1, acts1)) ∧
    (∀ g1 acts1, oneEnabledThreeWaiting.assignSessionsToGetWaiters [] = Except.ok (g1, acts1) →
      ∃ k served, acts1 = [] ++ served ∧
        k ≤ oneEnabledThreeWaiting.getWaitlist.length ∧
        g1.getWaitlist = oneEnabledThreeWaiting.getWaitlist.drop k ∧
        served.length = k ∧
        g1 = { afterSessions k oneEnabledThreeWaiting with
                getWaitlist := oneEnabledThreeWaiting.getWaitlist.drop k } ∧
        (∀ i, i < k → ∃ w p, oneEnabledThreeWaiting.getWaitlist[i]? = some w ∧
          (afterSessions i oneEnabledThreeWaiting).pqueue.top = some p ∧
          ((afterSessions i oneEnabledThreeWaiting).heap p).atFullCapacity = false ∧
          served[i]? = some (Callback.bound w.callback
            (some { process := ProcessRef.ptr p, onInitiateFailure := true, onClose := true })
            none)) ∧
        (g1.getWaitlist = [] ∨ g1.pqueue.top = none ∨
          ∃ p, g1.pqueue.top = some p ∧ (g1.heap p).atFullCapacity = true) ∧
        ((oneEnabledThreeWaiting.processes = [] ↔ oneEnabledThreeWaiting.pqueue = []) →
          g1.getWaitlist ≠ [] →
          g1.processes = [] ∨
            ∃ p, g1.pqueue.top = some p ∧ (g1.heap p).atFullCapacity = true))) :=
  ⟨⟨_, rfl, rfl⟩, drain_serves_prefix oneEnabledThreeWaiting []⟩

/-! ## C11: failing the get waiters -/

theorem assignExceptionLoop_eq (e : Option Nat) (ws : List GetWaiter) (acts : List Callback) :
    Group.assignExceptionLoop e ws acts =
      acts ++ ws.map (fun w => Callback.bound w.callback none e) := by
  induction ws generalizing acts with
  | nil => simp [Group.assignExceptionLoop]
  | cons w ws ih => simp [Group.assignExceptionLoop, ih]

/-- C11. For every group, exception `e` and list of actions,
`assignExceptionToGetWaiters(e, acts)` returns (its loop removes one waiter per
round) with `getWaitlist` empty and the actions equal to the old actions followed
by one action per old waiter, in wait-list order, each the callback of that
waiter bound to a null session and `e`: as many new actions as there were
waiters, the i-th for the i-th waiter.  Nothing else of the group changes; in
particular `processes`, `pqueue`, the store of the processes and the three
counters are unchanged. -/
theorem assignException_fails_all_waiters (g : Group) (e : Option Nat)
    (acts : List Callback) :
    (g.assignExceptionToGetWaiters e acts).1.getWaitlist = [] ∧
    (g.assignExceptionToGetWaiters e acts).2 =
      acts ++ g.getWaitlist.map (fun w => Callback.bound w.callback none e) ∧
    (g.assignExceptionToGetWaiters e acts).2.length = acts.length + g.getWaitlist.length ∧
    (∀ i w, g.getWaitlist[i]? = some w →
      (g.assignExceptionToGetWaiters e acts).2[acts.length + i]? =
        some (Callback.bound w.callback none e)) ∧
    (g.assignExceptionToGetWaiters e acts).1 = { g with getWaitlist := [] } ∧
    (g.assignExceptionToGetWaiters e acts).1.processes = g.processes ∧
    (g.assignExceptionToGetWaiters e acts).1.disabledProcesses = g.disabledProcesses ∧
    (g.assignExceptionToGetWaiters e acts).1.pqueue = g.pqueue ∧
    (g.assignExceptionToGetWaiters e acts).1.heap = g.heap ∧
    (g.assignExceptionToGetWaiters e acts).1.count = g.count ∧
    (g.assignExceptionToGetWaiters e acts).1.disablingCount = g.disablingCount ∧
    (g.assignExceptionToGetWaiters e acts).1.disabledCount = g.disabledCount := by
  have h2 : (g.assignExceptionToGetWaiters e acts).2 =
      acts ++ g.getWaitlist.map (fun w => Callback.bound w.callback none e) := by
    simp [Group.assignExceptionToGetWaiters, assignExceptionLoop_eq]
  refine ⟨rfl, h2, ?_, ?_, rfl, rfl, rfl, rfl, rfl, rfl, rfl, rfl⟩
  · rw [h2]; simp
  · intro i w hw
    rw [h2, List.getElem?_append_right (Nat.le_add_right _ _)]
    simp [hw]

/-! ## C18: `spawn` starts at most one thread -/

/-- C18. For every group, after `spawn()` the spawning flag is true.  If the group
was already spawning, `spawn()` creates no thread and changes nothing.  If it
was not, exactly one thread is created, bound to the copy of `options` that
`options.copyAndPersist().clearPerRequestFields()` makes at the call (equal to
`options` when no per-request flag is set in them), and nothing else changes but
the flag.  Hence a second `spawn()` right after the first changes nothing. -/
theorem spawn_starts_at_most_one (g : Group) :
    g.spawn.spawning = true ∧
    (g.spawning = true → g.spawn = g) ∧
    (g.spawning = false →
      g.spawn =
        { g with
          spawnThreads := g.spawnThreads ++ [g.options.clearPerRequestFields]
          m_spawning := true } ∧
      g.spawn.spawnThreads.length = g.spawnThreads.length + 1 ∧
      g.spawn.options = g.options) ∧
    (g.options.noop = false → g.options.clearPerRequestFields = g.options) ∧
    g.spawn.spawn = g.spawn := by
  refine ⟨spawn_spawning g, ?_, ?_, ?_, ?_⟩
  · intro h
    simp [Group.spawn, h]
  · intro h
    have heq : g.spawn =
        { g with
          spawnThreads := g.spawnThreads ++ [g.options.clearPerRequestFields]
          m_spawning := true } := by
      simp [Group.spawn, h]
    refine ⟨heq, ?_, ?_⟩
    · rw [heq]; simp
    · rw [heq]
  · intro h
    cases hopt : g.options with
    | mk a b c d e f =>
      rw [hopt] at h
      simp only [Options.clearPerRequestFields]
      simp only at h
      rw [h]
  · have h := spawn_spawning g
    generalize g.spawn = g1 at h
    simp [Group.spawn, h]

/-! ## C19 and C16: what `get` does to the options and on a no-op request -/

theorem spawn_options (g : Group) : g.spawn.options = g.options := by
  unfold Group.spawn; split <;> rfl

/-- The body of `get` on a call that does not restart the group, in terms of the
group `g2` left by its options and spawn steps. -/
theorem get_noRestart_body (env : Env) (g : Group) (o : Options) (cb : Nat)
    (hr : env.needsRestart g o = false) (g2 : Group)
    (hg2 : g2 = if (!o.noop && env.shouldSpawn (g.mergeOptions o)) = true
      then (g.mergeOptions o).spawn else g.mergeOptions o) :
    Group.get env g o cb =
      (if o.noop = true then
        Except.ok (g2,
          some { process := ProcessRef.dummy { Process.make with group := some g2.self },
                 onInitiateFailure := false, onClose := false })
      else if g2.count = 0 then
        if g2.spawning = true then
          Except.ok
            ({ g2 with getWaitlist := g2.getWaitlist ++ [{ options := o, callback := cb }] },
              none)
        else Except.error Fault.assertion
      else
        match g2.pqueue.top with
        | none => Except.error Fault.assertion
        | some p =>
          if (g2.heap p).atFullCapacity = true then
            Except.ok
              ({ g2 with getWaitlist :=
                  g2.getWaitlist ++ [{ options := o, callback := cb }] },
                none)
          else
            match g2.newSession with
            | Except.error f => Except.error f
            | Except.ok (g3, s) => Except.ok (g3, some s)) := by
  subst hg2
  simp only [Group.get, hr]
  rfl

/-- After a `get` that does not restart the group, the options of the group are the
old options with the four merged fields taken from the request. -/
theorem get_result_options (env : Env) (g g1 : Group) (o : Options) (cb : Nat)
    (r : Option Session) (hr : env.needsRestart g o = false)
    (h : Group.get env g o cb = Except.ok (g1, r)) :
    g1.options = (g.mergeOptions o).options := by
  have hopt : ∀ b : Bool,
      (if b = true then (g.mergeOptions o).spawn else g.mergeOptions o).options
        = (g.mergeOptions o).options := by
    intro b
    cases b
    · rfl
    · exact spawn_options _
  have hbody := get_noRestart_body env g o cb hr _ rfl
  generalize hg2 : (if (!o.noop && env.shouldSpawn (g.mergeOptions o)) = true
      then (g.mergeOptions o).spawn else g.mergeOptions o) = g2 at hbody
  have hopt2 : g2.options = (g.mergeOptions o).options := by
    rw [← hg2]; exact hopt _
  rw [hbody] at h
  split at h
  · simp only [Except.ok.injEq, Prod.mk.injEq] at h
    rw [← h.1]; exact hopt2
  · split at h
    · split at h
      · simp only [Except.ok.injEq, Prod.mk.injEq] at h
        rw [← h.1]; exact hopt2
      · cases h
    · split at h
      · cases h
      · split at h
        · simp only [Except.ok.injEq, Prod.mk.injEq] at h
          rw [← h.1]; exact hopt2
        · split at h
          · cases h
          · rename_i g3 s hns
            simp only [Except.ok.injEq, Prod.mk.injEq] at h
            obtain ⟨_, _, _, hg3, _⟩ := newSession_cases g2 g3 s hns
            rw [← h.1, hg3]; exact hopt2

/-- C19. For a no-op request on a call of `get` that does not restart the group:
`get` returns a session that is not null, on a process object made by the call
itself (no process of the store, hence in neither process list), with this group
as its back-reference and no session counted; no spawn thread is created and the
spawning flag is unchanged, whatever `shouldSpawn()` answers; the group is the old
group with the request options merged, so that `processes`, `disabledProcesses`,
`pqueue`, the store of the processes (their usage included), the three counters,
`getWaitlist` and `disableWaitlist` are unchanged. -/
theorem noop_get_frame (env : Env) (g : Group) (o : Options) (cb : Nat)
    (hr : env.needsRestart g o = false) (hn : o.noop = true) :
    ∃ g1 s obj, Group.get env g o cb = Except.ok (g1, some s) ∧
      s.process = ProcessRef.dummy obj ∧ (∀ a, s.process ≠ ProcessRef.ptr a) ∧
      obj.group = some g.self ∧ obj.sessions = 0 ∧
      g1 = g.mergeOptions o ∧
      g1.spawnThreads = g.spawnThreads ∧ g1.spawning = g.spawning ∧
      g1.processes = g.processes ∧ g1.disabledProcesses = g.disabledProcesses ∧
      g1.pqueue = g.pqueue ∧ g1.heap = g.heap ∧
      g1.count = g.count ∧ g1.disablingCount = g.disablingCount ∧
      g1.disabledCount = g.disabledCount ∧
      g1.getWaitlist = g.getWaitlist ∧ g1.disableWaitlist = g.disableWaitlist := by
  have hbody := get_noRestart_body env g o cb hr (g.mergeOptions o) (by simp [hn])
  rw [if_pos hn] at hbody
  refine ⟨_, _, _, hbody, rfl, ?_, rfl, rfl, rfl, rfl, rfl, rfl, rfl, rfl, rfl, rfl, rfl, rfl,
    rfl, rfl⟩
  intro a h
  cases h

/-- Witness for C19: a no-op request on the group with one enabled process, with
`shouldSpawn()` answering true. -/
theorem noop_get_frame_witness :
    ((Env.noRestart true).needsRestart oneEnabled { exampleOptions with noop := true } = false ∧
      ({ exampleOptions with noop := true } : Options).noop = true) ∧
    ∃ g1 s obj,
      Group.get (Env.noRestart true) oneEnabled { exampleOptions with noop := true } 5
        = Except.ok (g1, some s) ∧
      s.process = ProcessRef.dummy obj ∧ (∀ a, s.process ≠ ProcessRef.ptr a) ∧
      obj.group = some oneEnabled.self ∧ obj.sessions = 0 ∧
      g1 = oneEnabled.mergeOptions { exampleOptions with noop := true } ∧
      g1.spawnThreads = oneEnabled.spawnThreads ∧ g1.spawning = oneEnabled.spawning ∧
      g1.processes = oneEnabled.processes ∧
      g1.disabledProcesses = oneEnabled.disabledProcesses ∧
      g1.pqueue = oneEnabled.pqueue ∧ g1.heap = oneEnabled.heap ∧
      g1.count = oneEnabled.count ∧ g1.disablingCount = oneEnabled.disablingCount ∧
      g1.disabledCount = oneEnabled.disabledCount ∧
      g1.getWaitlist = oneEnabled.getWaitlist ∧
      g1.disableWaitlist = oneEnabled.disableWaitlist :=
  ⟨⟨rfl, rfl⟩,
    noop_get_frame (Env.noRestart true) oneEnabled { exampleOptions with noop := true } 5
      rfl rfl⟩

/-- C16, against the claim as stated: a request that asks for a memory limit of 512
on a group whose limit is 0 is served, and the limit of the group is still 0. -/
theorem get_does_not_merge_memoryLimit :
    (Env.noRestart false).needsRestart oneEnabled limitOptions = false ∧
    limitOptions.memoryLimit = 512 ∧
    ∃ g1 r, Group.get (Env.noRestart false) oneEnabled limitOptions 5 = Except.ok (g1, r) ∧
      g1.options.memoryLimit = 0 := by
  refine ⟨rfl, rfl, _, _, rfl, rfl⟩

/-- C16, amended. On a call of `get` that does not restart the group: the call
returns for a no-op request, and for any other request when the assertions of
`get` hold; and whenever it returns, `options.memoryLimit` of the group is what
it was before the call (`mergeOptions` does not copy it), while `maxRequests`,
`minProcesses`, `statThrottleRate` and `spawnerTimeout` are those of the
request. -/
theorem get_keeps_memoryLimit (env : Env) (g : Group) (o : Options) (cb : Nat)
    (hr : env.needsRestart g o = false) :
    ((o.noop = true ∨
        (o.noop = false ∧ 0 ≤ g.count ∧
          (g.count = 0 → g.spawning = true ∨ env.shouldSpawn (g.mergeOptions o) = true) ∧
          (0 < g.count → g.pqueue.top ≠ none))) →
      ∃ g1 r, Group.get env g o cb = Except.ok (g1, r)) ∧
    (∀ g1 r, Group.get env g o cb = Except.ok (g1, r) →
      g1.options.memoryLimit = g.options.memoryLimit ∧
      g1.options.maxRequests = o.maxRequests ∧
      g1.options.minProcesses = o.minProcesses ∧
      g1.options.statThrottleRate = o.statThrottleRate ∧
      g1.options.spawnerTimeout = o.spawnerTimeout) := by
  constructor
  · rintro (hn | ⟨hn, hc, hs, ht⟩)
    · obtain ⟨g1, s, _, h, _⟩ := noop_get_frame env g o cb hr hn
      exact ⟨g1, some s, h⟩
    · obtain ⟨g1, r, h, _⟩ := get_total env g o cb hr hn hc hs ht
      exact ⟨g1, r, h⟩
  · intro g1 r h
    rw [get_result_options env g g1 o cb r hr h]
    exact ⟨rfl, rfl, rfl, rfl, rfl⟩

/-- Witness for C16 (amended): the request for a memory limit of 512 on the group
with one enabled process. -/
theorem get_keeps_memoryLimit_witness :
    (Env.noRestart false).needsRestart oneEnabled limitOptions = false ∧
    (((limitOptions.noop = true ∨
        (limitOptions.noop = false ∧ 0 ≤ oneEnabled.count ∧
          (oneEnabled.count = 0 → oneEnabled.spawning = true ∨
            (Env.noRestart false).shouldSpawn (oneEnabled.mergeOptions limitOptions) = true) ∧
          (0 < oneEnabled.count → oneEnabled.pqueue.top ≠ none))) →
      ∃ g1 r, Group.get (Env.noRestart false) oneEnabled limitOptions 5 = Except.ok (g1, r)) ∧
    (∀ g1 r, Group.get (Env.noRestart false) oneEnabled limitOptions 5 = Except.ok (g1, r) →
      g1.options.memoryLimit = 0 ∧
      g1.options.maxRequests = limitOptions.maxRequests ∧
      g1.options.minProcesses = limitOptions.minProcesses ∧
      g1.options.statThrottleRate = limitOptions.statThrottleRate ∧
      g1.options.spawnerTimeout = limitOptions.spawnerTimeout)) :=
  ⟨rfl, get_keeps_memoryLimit (Env.noRestart false) oneEnabled limitOptions 5 rfl⟩

/-! ## C17: `garbageCollectable` -/

theorem u64sub_of_le (a b : Nat) (hle : b ≤ a) (ha : a < 2 ^ 64) :
    Group.u64sub a b = a - b := by
  have h64 : (2 : Nat) ^ 64 = 18446744073709551616 := by norm_num
  unfold Group.u64sub
  rw [h64] at ha ⊢
  omega

theorem u64mul_of_lt (a : Nat) (ha : a * 1000000 < 2 ^ 64) :
    Group.u64mul a 1000000 = a * 1000000 := by
  have h64 : (2 : Nat) ^ 64 = 18446744073709551616 := by norm_num
  unfold Group.u64mul
  rw [h64] at ha ⊢
  have h1 : (1000000 : Nat) % 18446744073709551616 = 1000000 := by norm_num
  have h2 : a % 18446744073709551616 = a := Nat.mod_eq_of_lt (by omega)
  rw [h1, h2]
  exact Nat.mod_eq_of_lt ha

/-- When `now` is not zero, not earlier than `spawner->lastUsed()` and neither the
clock value nor the timeout in microseconds exceeds 64 bits, the result of
`garbageCollectable(now)` is the conjunction of the five conditions, the elapsed
time being the difference `now - lastUsed`. -/
theorem garbageCollectable_of_le (g : Group) (lastUsed clock now : Nat) (hnow : now ≠ 0)
    (hle : lastUsed ≤ now) (hb : now < 2 ^ 64)
    (ht : g.options.spawnerTimeout * 1000000 < 2 ^ 64) :
    g.garbageCollectable lastUsed clock now = true ↔
      (g.usage = 0 ∧ g.getWaitlist = [] ∧ g.disabledProcesses = [] ∧
        g.options.spawnerTimeout ≠ 0 ∧
        g.options.spawnerTimeout * 1000000 < now - lastUsed) := by
  unfold Group.garbageCollectable
  simp only [hnow, if_false, Options.getSpawnerTimeout, u64sub_of_le now lastUsed hle hb,
    u64mul_of_lt _ ht, Bool.and_eq_true, beq_iff_eq, List.isEmpty_iff, bne_iff_ne, ne_eq,
    decide_eq_true_eq]
  tauto

/-- C17, evaluated on the code: with `now` earlier than `spawner->lastUsed()` the
unsigned difference
`now - spawner->lastUsed()` wraps around: on an idle group (no process, not
spawning, both lists empty, spawner timeout of one second), with
`lastUsed = 2000000` and `now = 1000000`, `garbageCollectable(now)` is true,
although `now` is not later than `lastUsed`. -/
theorem garbageCollectable_wraps :
    idleGroup.usage = 0 ∧ idleGroup.getWaitlist = [] ∧ idleGroup.disabledProcesses = [] ∧
    idleGroup.options.spawnerTimeout = 1 ∧ (1000000 : Nat) ≠ 0 ∧
    ¬ (2000000 : Nat) < 1000000 ∧
    ¬ ((1 : Int) * 1000000 < (1000000 : Int) - 2000000) ∧
    Group.garbageCollectable idleGroup 2000000 0 1000000 = true := by
  refine ⟨by decide, rfl, rfl, rfl, by decide, by decide, by decide, by decide⟩

/-! ## C20: `newSession` takes the least loaded process -/

theorem topEntry_min : ∀ (q : PriorityQueue) (e : PQEntry),
    q.topEntry = some e → ∀ x ∈ q, e.key ≤ x.key
  | [], e, h => by simp [PriorityQueue.topEntry] at h
  | a :: l, e, h => by
    intro x hx
    unfold PriorityQueue.topEntry at h
    cases hl : PriorityQueue.topEntry l with
    | none =>
      rw [hl] at h
      simp only [Option.some.injEq] at h
      have hnil : l = [] := (topEntry_eq_none_iff l).1 hl
      subst hnil
      simp only [List.mem_singleton] at hx
      rw [hx, h]
    | some m =>
      rw [hl] at h
      have ih := topEntry_min l m hl
      dsimp only at h
      split at h
      · rename_i hlt
        simp only [Option.some.injEq] at h
        subst h
        rcases List.mem_cons.1 hx with hxa | hxl
        · rw [hxa]; exact Nat.le_of_lt hlt
        · exact ih x hxl
      · rename_i hge
        simp only [Option.some.injEq] at h
        subst h
        rcases List.mem_cons.1 hx with hxa | hxl
        · rw [hxa]
        · exact Nat.le_trans (Nat.le_of_not_lt hge) (ih x hxl)

/-- C20. For every group with `count > 0` whose `pqueue.top()` is a process `p`
(at full capacity or not): `newSession` returns, with a session on `p`; the
entry of `p` had a key that is minimal among all entries of `pqueue`;
afterwards the set of processes in `pqueue`, the list `processes` and the three
counters are unchanged, the usage of `p` is one more than before and `p` is
entered in `pqueue` with that new usage (its only entry when `pqueue` listed
every process once), every entry of another process is kept with its key, and
every other process object is unchanged. -/
theorem newSession_least_loaded (g : Group) (p : Nat) (hc : 0 < g.count)
    (ht : g.pqueue.top = some p) :
    ∃ e g1, g.pqueue.topEntry = some e ∧ e.process = p ∧ e ∈ g.pqueue ∧
      (∀ x ∈ g.pqueue, e.key ≤ x.key) ∧
      g.newSession = Except.ok
        (g1, { process := ProcessRef.ptr p, onInitiateFailure := true, onClose := true }) ∧
      (∀ x, x ∈ g1.pqueue.members ↔ x ∈ g.pqueue.members) ∧
      g1.processes = g.processes ∧ g1.disabledProcesses = g.disabledProcesses ∧
      g1.count = g.count ∧ g1.disablingCount = g.disablingCount ∧
      g1.disabledCount = g.disabledCount ∧
      (g1.heap p).usage = (g.heap p).usage + 1 ∧
      (∀ x, x ≠ p → g1.heap x = g.heap x) ∧
      g1.pqueue = g.pqueue.erase e ++ [{ process := p, key := (g1.heap p).usage }] ∧
      (∀ x : PQEntry, x.process ≠ p → (x ∈ g1.pqueue ↔ x ∈ g.pqueue)) ∧
      (g.pqueue.members.Nodup → g1.pqueue.members.Nodup ∧
        ∀ x ∈ g1.pqueue, x.process = p → x.key = (g1.heap p).usage) := by
  have ht1 := ht
  simp only [PriorityQueue.top, Option.map_eq_some'] at ht1
  obtain ⟨e, he, hp⟩ := ht1
  have hmem : e ∈ g.pqueue := topEntry_mem g.pqueue e he
  have hq : (g.pqueue.pop).push p (setProcess g.heap p (g.heap p).newSession p).usage
      = g.pqueue.erase e
        ++ [{ process := p, key := (setProcess g.heap p (g.heap p).newSession p).usage }] := by
    simp only [PriorityQueue.pop, he, PriorityQueue.push]
  refine ⟨e, _, he, hp, hmem, topEntry_min g.pqueue e he, newSession_ok g p hc ht, ?_, rfl, rfl,
    rfl, rfl, rfl, ?_, ?_, hq, ?_, ?_⟩
  · intro x
    show x ∈ PriorityQueue.members
      ((g.pqueue.pop).push p (setProcess g.heap p (g.heap p).newSession p).usage)
      ↔ x ∈ g.pqueue.members
    rw [hq]
    simp only [PriorityQueue.members, List.map_append, List.map_cons, List.map_nil,
      List.mem_append, List.mem_map, List.mem_singleton]
    constructor
    · rintro (⟨y, hy, hyx⟩ | hx)
      · exact ⟨y, List.mem_of_mem_erase hy, hyx⟩
      · exact ⟨e, hmem, by rw [hp, hx]⟩
    · rintro ⟨y, hy, hyx⟩
      by_cases hye : y = e
      · right
        rw [← hyx, hye, hp]
      · left
        exact ⟨y, (List.mem_erase_of_ne hye).2 hy, hyx⟩
  · show (setProcess g.heap p (g.heap p).newSession p).usage = (g.heap p).usage + 1
    rw [setProcess_same]
    rfl
  · intro x hx
    show setProcess g.heap p (g.heap p).newSession x = g.heap x
    simp [setProcess, hx]
  · intro x hx
    show x ∈ (g.pqueue.pop).push p (setProcess g.heap p (g.heap p).newSession p).usage
      ↔ x ∈ g.pqueue
    rw [hq]
    have hxe : x ≠ e := by
      intro h
      exact hx (by rw [h, hp])
    simp only [List.mem_append, List.mem_singleton]
    constructor
    · rintro (h | h)
      · exact List.mem_of_mem_erase h
      · exact absurd (by rw [h]) hx
    · intro h
      exact Or.inl ((List.mem_erase_of_ne hxe).2 h)
  · intro hnd
    constructor
    · show (PriorityQueue.members
        ((g.pqueue.pop).push p (setProcess g.heap p (g.heap p).newSession p).usage)).Nodup
      rw [members_push, members_pop g.pqueue p hnd ht]
      exact nodup_erase_append _ p hnd
    · intro x hx hxp
      have hx1 : x ∈ g.pqueue.erase e
          ++ [{ process := p, key := (setProcess g.heap p (g.heap p).newSession p).usage }] := by
        rw [← hq]; exact hx
      rcases List.mem_append.1 hx1 with h | h
      · exfalso
        have h1 : x.process ∈ (g.pqueue.erase e).map PQEntry.process :=
          List.mem_map.2 ⟨x, h, rfl⟩
        rw [map_process_erase g.pqueue e hnd hmem, hp, hxp] at h1
        exact (List.Nodup.mem_erase_iff hnd).1 h1 |>.1 rfl
      · rw [List.mem_singleton.1 h]

/-- Witness for C20: the group with two processes, of which process 2 is the less
loaded one. -/
theorem newSession_least_loaded_witness :
    (0 < twoLoaded.count ∧ twoLoaded.pqueue.top = some 2) ∧
    ∃ e g1, twoLoaded.pqueue.topEntry = some e ∧ e.process = 2 ∧ e ∈ twoLoaded.pqueue ∧
      (∀ x ∈ twoLoaded.pqueue, e.key ≤ x.key) ∧
      twoLoaded.newSession = Except.ok
        (g1, { process := ProcessRef.ptr 2, onInitiateFailure := true, onClose := true }) ∧
      (∀ x, x ∈ g1.pqueue.members ↔ x ∈ twoLoaded.pqueue.members) ∧
      g1.processes = [1, 2] ∧ g1.disabledProcesses = [] ∧
      g1.count = 2 ∧ g1.disablingCount = 0 ∧
      g1.disabledCount = 0 ∧
      (g1.heap 2).usage = 0 + 1 ∧
      (∀ x, x ≠ 2 → g1.heap x = twoLoaded.heap x) ∧
      g1.pqueue = twoLoaded.pqueue.erase e ++ [{ process := 2, key := (g1.heap 2).usage }] ∧
      (∀ x : PQEntry, x.process ≠ 2 → (x ∈ g1.pqueue ↔ x ∈ twoLoaded.pqueue)) ∧
      (twoLoaded.pqueue.members.Nodup → g1.pqueue.members.Nodup ∧
        ∀ x ∈ g1.pqueue, x.process = 2 → x.key = (g1.heap 2).usage) :=
  ⟨⟨by decide, by decide⟩, newSession_least_loaded twoLoaded 2 (by decide) (by decide)⟩

/-! ## Lists without repetition -/

theorem distinct_nodup (l : List Nat) : (distinct l).Nodup := by
  induction l with
  | nil => exact List.nodup_nil
  | cons a l ih =>
    simp only [distinct]
    refine List.nodup_cons.2 ⟨?_, ih.filter _⟩
    simp [List.mem_filter]

theorem distinct_length_le (l : List Nat) : (distinct l).length ≤ l.length := by
  induction l with
  | nil => exact le_refl _
  | cons a l ih =>
    simp only [distinct, List.length_cons]
    exact Nat.succ_le_succ (le_trans (List.length_filter_le _ _) ih)

theorem distinct_append_of_not_mem (l : List Nat) (p : Nat) (h : p ∉ l) :
    distinct (l ++ [p]) = distinct l ++ [p] := by
  induction l with
  | nil => rfl
  | cons a l ih =>
    have h1 : p ≠ a := fun e => h (e ▸ List.mem_cons_self _ _)
    have h2 : p ∉ l := fun e => h (List.mem_cons_of_mem _ e)
    show a :: (distinct (l ++ [p])).filter (fun x => decide (x ≠ a))
      = a :: (distinct l).filter (fun x => decide (x ≠ a)) ++ [p]
    rw [ih h2, List.filter_append, List.filter_cons_of_pos (by simpa using h1)]
    rfl

theorem distinct_append_of_mem (l : List Nat) (p : Nat) (h : p ∈ l) :
    distinct (l ++ [p]) = distinct l := by
  induction l with
  | nil => cases h
  | cons a l ih =>
    show a :: (distinct (l ++ [p])).filter (fun x => decide (x ≠ a))
      = a :: (distinct l).filter (fun x => decide (x ≠ a))
    by_cases hl : p ∈ l
    · rw [ih hl]
    · have hpa : p = a := by
        rcases List.mem_cons.1 h with h1 | h1
        · exact h1
        · exact absurd h1 hl
      subst hpa
      rw [← distinct_filter, ← distinct_filter, List.filter_append,
        List.filter_cons_of_neg (by simp), List.filter_nil, List.append_nil]

theorem length_filter_ne_of_nodup (l : List Nat) (p : Nat) (hnd : l.Nodup) (hp : p ∈ l) :
    (l.filter (fun x => decide (x ≠ p))).length + 1 = l.length := by
  induction l with
  | nil => cases hp
  | cons a l ih =>
    obtain ⟨ha, hl⟩ := List.nodup_cons.1 hnd
    by_cases hpa : a = p
    · subst hpa
      have hfil : l.filter (fun x => decide (x ≠ a)) = l := by
        apply List.filter_eq_self.2
        intro x hx
        have : x ≠ a := fun h => ha (h ▸ hx)
        simpa using this
      rw [List.filter_cons_of_neg (by simp), hfil]
      rfl
    · have hpl : p ∈ l := by
        rcases List.mem_cons.1 hp with h1 | h1
        · exact absurd h1.symm hpa
        · exact h1
      have := ih hl hpl
      rw [List.filter_cons_of_pos (by simpa using hpa), List.length_cons, List.length_cons,
        this]

theorem distinct_filter_ne_length (l : List Nat) (p : Nat) (h : p ∈ l) :
    (distinct (l.filter (fun x => decide (x ≠ p)))).length + 1 = (distinct l).length := by
  rw [distinct_filter]
  exact length_filter_ne_of_nodup _ p (distinct_nodup l) ((mem_distinct l p).2 h)

theorem distinct_filter_ne_of_not_mem (l : List Nat) (p : Nat) (h : p ∉ l) :
    l.filter (fun x => decide (x ≠ p)) = l := by
  apply List.filter_eq_self.2
  intro x hx
  have : x ≠ p := fun h1 => h (h1 ▸ hx)
  simpa using this

theorem distinct_length_le_of_subset (l m : List Nat) (h : ∀ x ∈ l, x ∈ m) :
    (distinct l).length ≤ m.length :=
  (List.subperm_of_subset (distinct_nodup l)
    (fun x hx => h x ((mem_distinct l x).1 hx))).length_le

theorem erase_append_perm (l : List Nat) (p : Nat) (h : p ∈ l) : (l.erase p ++ [p]).Perm l :=
  (List.perm_append_singleton p (l.erase p)).trans (List.perm_cons_erase h).symm

theorem clearGroups_group_none (ps : List Nat) (heap : Nat → Process) (x : Nat)
    (h : (heap x).group = none) : (Group.clearGroups ps heap x).group = none := by
  induction ps generalizing heap with
  | nil => exact h
  | cons p ps ih =>
    simp only [Group.clearGroups]
    apply ih
    by_cases hx : x = p
    · simp [setProcess, hx]
    · simpa [setProcess, hx] using h

theorem clearGroups_group_of_mem (ps : List Nat) (heap : Nat → Process) (x : Nat)
    (h : x ∈ ps) : (Group.clearGroups ps heap x).group = none := by
  induction ps generalizing heap with
  | nil => cases h
  | cons p ps ih =>
    simp only [Group.clearGroups]
    by_cases hx : x = p
    · apply clearGroups_group_none
      simp [setProcess, hx]
    · rcases List.mem_cons.1 h with h1 | h1
      · exact absurd h1 hx
      · exact ih _ h1

theorem clearGroups_of_not_mem (ps : List Nat) (heap : Nat → Process) (x : Nat)
    (h : x ∉ ps) : Group.clearGroups ps heap x = heap x := by
  induction ps generalizing heap with
  | nil => rfl
  | cons p ps ih =>
    simp only [Group.clearGroups]
    have h1 : x ≠ p := fun e => h (e ▸ List.mem_cons_self _ _)
    have h2 : x ∉ ps := fun e => h (List.mem_cons_of_mem _ e)
    rw [ih _ h2, setProcess_other _ _ _ _ h1]

/-! ## The lists, the tags and the priority queue agree -/

theorem ListInv_congr (g g1 : Group) (hself : g1.self = g.self)
    (htag : ∀ x, (g1.heap x).enabled = EnabledStatus.DISABLED ↔
      (g.heap x).enabled = EnabledStatus.DISABLED)
    (hgrp : ∀ x, (g1.heap x).group = (g.heap x).group)
    (hm : g1.pqueue.members.Perm g.pqueue.members)
    (hproc : g1.processes = g.processes)
    (hdp : g1.disabledProcesses = g.disabledProcesses)
    (hcount : g1.count = g.count) (hI : ListInv g) : ListInv g1 := by
  obtain ⟨⟨hnd, hall⟩, hidx, hdn, hdt, hmem, hc⟩ := hI
  refine ⟨⟨hm.nodup_iff.2 hnd, ?_⟩, ?_, ?_, ?_, ?_, ?_⟩
  · intro q hq
    have h := hall q (hm.mem_iff.1 hq)
    rw [hself, hgrp]
    exact ⟨fun e => h.1 ((htag q).1 e), h.2⟩
  · rw [hproc]
    exact hm.trans hidx
  · rw [hdp]
    exact hdn
  · intro x hx
    rw [hdp] at hx
    have h := hdt x hx
    rw [hself, hgrp]
    exact ⟨(htag x).2 h.1, h.2⟩
  · intro x hx1 hx2
    rw [hproc]
    rw [hself, hgrp] at hx1
    exact hmem x hx1 (fun e => hx2 ((htag x).2 e))
  · rw [hproc, hcount]
    exact hc

theorem ListInv_toDisabled (g g1 : Group) (q : Nat) (hself : g1.self = g.self)
    (hheap : g1.heap = setProcess g.heap q { g.heap q with enabled := EnabledStatus.DISABLED })
    (hproc : g1.processes = g.processes.erase q)
    (hpq : g1.pqueue = g.pqueue.eraseProcess q)
    (hdp : g1.disabledProcesses = g.disabledProcesses ++ [q])
    (hcount : g.count - 1 ≤ g1.count)
    (hq : q ∈ g.processes) (htag : (g.heap q).enabled ≠ EnabledStatus.DISABLED)
    (hI : ListInv g) : ListInv g1 := by
  obtain ⟨⟨hnd, hall⟩, hidx, hdn, hdt, hmem, hc⟩ := hI
  have hqm : q ∈ g.pqueue.members := hidx.mem_iff.2 hq
  have hgq : (g.heap q).group = some g.self := (hall q hqm).2
  have hother : ∀ x, x ≠ q → g1.heap x = g.heap x := by
    intro x hx
    rw [hheap, setProcess_other _ _ _ _ hx]
  have hat : g1.heap q = { g.heap q with enabled := EnabledStatus.DISABLED } := by
    rw [hheap, setProcess_same]
  refine ⟨⟨?_, ?_⟩, ?_, ?_, ?_, ?_, ?_⟩
  · rw [hpq, members_eraseProcess]
    exact hnd.erase q
  · intro x hx
    rw [hpq, members_eraseProcess] at hx
    obtain ⟨hne, hx1⟩ := (hnd.mem_erase_iff).1 hx
    rw [hother x hne, hself]
    exact hall x hx1
  · rw [hpq, members_eraseProcess, hproc]
    exact hidx.erase q
  · rw [hdp]
    refine List.Nodup.append hdn (List.nodup_singleton q) ?_
    intro x hx hx1
    rw [List.mem_singleton] at hx1
    exact htag (hx1 ▸ (hdt x hx).1)
  · intro x hx
    rw [hdp] at hx
    by_cases hxq : x = q
    · rw [hxq, hat, hself]
      exact ⟨rfl, hgq⟩
    · rcases List.mem_append.1 hx with h | h
      · rw [hother x hxq, hself]
        exact hdt x h
      · exact absurd (List.mem_singleton.1 h) hxq
  · intro x hx1 hx2
    have hxq : x ≠ q := by
      intro e
      rw [e, hat] at hx2
      exact hx2 rfl
    rw [hother x hxq, hself] at hx1
    rw [hother x hxq] at hx2
    rw [hproc]
    exact (List.mem_erase_of_ne hxq).2 (hmem x hx1 hx2)
  · have h1 := List.length_erase_of_mem hq
    have h2 := List.length_pos_of_mem hq
    rw [hproc]
    omega

theorem ListInv_toEnabled (g g1 : Group) (p : Nat) (hself : g1.self = g.self)
    (hheap : ∀ x, x ≠ p → g1.heap x = g.heap x)
    (htag : (g1.heap p).enabled = EnabledStatus.ENABLED)
    (hgrp : (g1.heap p).group = some g.self)
    (hproc : g1.processes = g.processes ++ [p])
    (hpq : g1.pqueue.members = g.pqueue.members ++ [p])
    (hdp : g1.disabledProcesses = g.disabledProcesses.erase p)
    (hcount : g1.count = g.count + 1)
    (hp : p ∉ g.processes) (hI : ListInv g) : ListInv g1 := by
  obtain ⟨⟨hnd, hall⟩, hidx, hdn, hdt, hmem, hc⟩ := hI
  have hpm : p ∉ g.pqueue.members := fun h => hp (hidx.mem_iff.1 h)
  refine ⟨⟨?_, ?_⟩, ?_, ?_, ?_, ?_, ?_⟩
  · rw [hpq]
    refine List.Nodup.append hnd (List.nodup_singleton p) ?_
    intro x hx hx1
    rw [List.mem_singleton] at hx1
    exact hpm (hx1 ▸ hx)
  · intro x hx
    rw [hpq] at hx
    by_cases hxp : x = p
    · rw [hxp, htag, hgrp, hself]
      exact ⟨by decide, rfl⟩
    · rcases List.mem_append.1 hx with h | h
      · rw [hheap x hxp, hself]
        exact hall x h
      · exact absurd (List.mem_singleton.1 h) hxp
  · rw [hpq, hproc]
    exact hidx.append_right [p]
  · rw [hdp]
    exact hdn.erase p
  · intro x hx
    rw [hdp] at hx
    obtain ⟨hne, hx1⟩ := (hdn.mem_erase_iff).1 hx
    rw [hheap x hne, hself]
    exact hdt x hx1
  · intro x hx1 hx2
    rw [hproc]
    by_cases hxp : x = p
    · rw [hxp]
      exact List.mem_append_right _ (List.mem_singleton_self p)
    · rw [hheap x hxp, hself] at hx1
      rw [hheap x hxp] at hx2
      exact List.mem_append_left _ (hmem x hx1 hx2)
  · rw [hproc, hcount, List.length_append, List.length_singleton]
    push_cast
    omega

theorem ListInv_detached (g g1 : Group) (p : Nat) (hself : g1.self = g.self)
    (hheap : g1.heap = setProcess g.heap p { g.heap p with group := none })
    (hproc : g1.processes = g.processes.erase p)
    (hpq : g1.pqueue.members = g.pqueue.members.erase p)
    (hdp : g1.disabledProcesses = g.disabledProcesses.erase p)
    (hcount : (g1.processes.length : Int) ≤ g1.count)
    (hI : ListInv g) : ListInv g1 := by
  obtain ⟨⟨hnd, hall⟩, hidx, hdn, hdt, hmem, hc⟩ := hI
  have hother : ∀ x, x ≠ p → g1.heap x = g.heap x := by
    intro x hx
    rw [hheap, setProcess_other _ _ _ _ hx]
  have hat : (g1.heap p).group = none := by
    rw [hheap, setProcess_same]
  refine ⟨⟨?_, ?_⟩, ?_, ?_, ?_, ?_, hcount⟩
  · rw [hpq]
    exact hnd.erase p
  · intro x hx
    rw [hpq] at hx
    obtain ⟨hne, hx1⟩ := (hnd.mem_erase_iff).1 hx
    rw [hother x hne, hself]
    exact hall x hx1
  · rw [hpq, hproc]
    exact hidx.erase p
  · rw [hdp]
    exact hdn.erase p
  · intro x hx
    rw [hdp] at hx
    obtain ⟨hne, hx1⟩ := (hdn.mem_erase_iff).1 hx
    rw [hother x hne, hself]
    exact hdt x hx1
  · intro x hx1 hx2
    have hxp : x ≠ p := by
      intro e
      rw [e, hat] at hx1
      cases hx1
    rw [hother x hxp, hself] at hx1
    rw [hother x hxp] at hx2
    rw [hproc]
    exact (List.mem_erase_of_ne hxp).2 (hmem x hx1 hx2)

theorem sameProcesses_spawn (g : Group) : SameProcesses g g.spawn :=
  ⟨spawn_self _, spawn_heap _, spawn_count _, spawn_disablingCount _,
    spawn_disabledCount _, spawn_pqueue _, spawn_processes _, spawn_disabledProcesses _,
    spawn_getWaitlist _, spawn_disableWaitlist _⟩

theorem ListInv_same (g g2 : Group) (h : SameProcesses g g2) (hI : ListInv g) :
    ListInv g2 := by
  obtain ⟨hself, hheap, hcount, _, _, hpq, hproc, hdp, _, _⟩ := h
  exact ListInv_congr g g2 hself (fun x => by rw [hheap]) (fun x => by rw [hheap])
    (List.Perm.of_eq (by rw [hpq])) hproc hdp hcount hI

theorem ListInv_newSession (g g1 : Group) (s : Session)
    (h : g.newSession = Except.ok (g1, s)) (hI : ListInv g) : ListInv g1 := by
  obtain ⟨p, _, htop, rfl, _⟩ := newSession_cases g g1 s h
  have hnd := hI.queue.1
  have hp := top_mem_members _ _ htop
  refine ListInv_congr g _ rfl ?_ ?_ ?_ rfl rfl rfl hI
  · intro x
    by_cases hx : x = p
    · subst hx
      simp [setProcess, Process.newSession]
    · simp [setProcess, hx]
  · intro x
    by_cases hx : x = p
    · subst hx
      simp [setProcess, Process.newSession]
    · simp [setProcess, hx]
  · show (PriorityQueue.members ((g.pqueue.pop).push p _)).Perm g.pqueue.members
    rw [members_push, members_pop _ _ hnd htop]
    exact erase_append_perm _ _ hp

theorem ListInv_getWaitlist (g : Group) (ws : List GetWaiter) (hI : ListInv g) :
    ListInv { g with getWaitlist := ws } :=
  ListInv_congr g _ rfl (fun _ => Iff.rfl) (fun _ => rfl) (List.Perm.refl _) rfl rfl rfl hI

theorem ListInv_get (env : Env) (g g1 : Group) (o : Options) (cb : Nat)
    (r : Option Session) (hr : env.needsRestart g o = false)
    (h : Group.get env g o cb = Except.ok (g1, r)) (hI : ListInv g) : ListInv g1 := by
  obtain ⟨g2, hsame, hcases⟩ := get_cases env g g1 o cb r hr h
  have hI2 := ListInv_same g g2 hsame hI
  rcases hcases with ⟨_, rfl, _⟩ | ⟨_, _, rfl, _⟩ | ⟨_, s, p, _, _, _, hns⟩
  · exact hI2
  · exact ListInv_getWaitlist g2 _ hI2
  · exact ListInv_newSession g2 g1 s hns hI2

theorem ListInv_drain (g g1 : Group) (acts acts1 : List Callback)
    (h : g.assignSessionsToGetWaiters acts = Except.ok (g1, acts1)) (hI : ListInv g) :
    ListInv g1 :=
  assignSessionsLoop_induct ListInv (fun g g1 s hP hns => ListInv_newSession g g1 s hns hP)
    (fun g ws hP => ListInv_getWaitlist g ws hP) _ _ _ _ _ h hI

theorem ListInv_moveToDisabled (g : Group) (q : Nat)
    (htag : (g.heap q).enabled = EnabledStatus.DISABLING) (hq : q ∈ g.processes)
    (hI : ListInv g) : ListInv (g.moveToDisabled q) :=
  ListInv_toDisabled g _ q rfl rfl rfl rfl rfl (le_refl _) hq (by rw [htag]; decide) hI

theorem not_mem_processes_of_group_none (g : Group) (p : Nat) (hg : (g.heap p).group = none)
    (hI : ListInv g) : p ∉ g.processes := by
  intro h
  have h1 := (hI.queue.2 p (hI.index.mem_iff.2 h)).2
  rw [hg] at h1
  cases h1

theorem ListInv_addEnabled (g : Group) (p : Nat) (hg : (g.heap p).group = none)
    (hI : ListInv g) : ListInv (g.addEnabled p) := by
  have hp : p ∉ g.processes := not_mem_processes_of_group_none g p hg hI
  have hpd : p ∉ g.disabledProcesses := by
    intro h
    have h1 := (hI.disabled_tag p h).2
    rw [hg] at h1
    cases h1
  refine ListInv_toEnabled g _ p rfl ?_ ?_ ?_ rfl ?_ ?_ rfl hp hI
  · intro x hx
    exact setProcess_other _ _ _ _ hx
  · show (setProcess g.heap p _ p).enabled = EnabledStatus.ENABLED
    rw [setProcess_same]
  · show (setProcess g.heap p _ p).group = some g.self
    rw [setProcess_same]
  · exact members_push _ _ _
  · show g.disabledProcesses = g.disabledProcesses.erase p
    rw [List.erase_of_not_mem hpd]

theorem ListInv_disableWaitlist (g : Group) (ws : List DisableWaiter) (hI : ListInv g) :
    ListInv { g with disableWaitlist := ws } :=
  ListInv_congr g _ rfl (fun _ => Iff.rfl) (fun _ => rfl) (List.Perm.refl _) rfl rfl rfl hI

theorem ListInv_attach (g g1 : Group) (p : Nat) (acts acts1 : List Callback)
    (h : g.attach p acts = Except.ok (g1, acts1)) (hI : ListInv g) : ListInv g1 := by
  obtain ⟨hg, g2, hloop, rfl⟩ := attach_cases g g1 p acts acts1 h
  have h2 : ListInv g2 :=
    attachLoop_induct ListInv (fun g q hP ht hq _ => ListInv_moveToDisabled g q ht hq hP)
      _ _ _ _ _ hloop (ListInv_addEnabled g p hg hI)
  exact ListInv_disableWaitlist g2 [] h2

theorem processes_not_disabled (g : Group) (hI : ListInv g) (x : Nat) (hx : x ∈ g.processes) :
    (g.heap x).enabled ≠ EnabledStatus.DISABLED ∧ (g.heap x).group = some g.self :=
  hI.queue.2 x (hI.index.mem_iff.2 hx)

theorem ListInv_detach (g g1 : Group) (p : Nat) (acts acts1 : List Callback)
    (h : g.detach p acts = Except.ok (g1, acts1)) (hI : ListInv g) : ListInv g1 := by
  have hc := hI.count_ge
  obtain ⟨hg, hcases⟩ := detach_cases g g1 p acts acts1 h
  rcases hcases with ⟨htag, _, hp, _, rfl, _⟩ | ⟨htag, _, hp, _, rfl, _⟩ | ⟨htag, _, rfl, _⟩
  · have hpd : p ∉ g.disabledProcesses := by
      intro h1
      have h2 := (hI.disabled_tag p h1).1
      rw [htag] at h2
      cases h2
    refine ListInv_detached g _ p rfl rfl rfl (members_eraseProcess _ _) ?_ ?_ hI
    · show g.disabledProcesses = g.disabledProcesses.erase p
      rw [List.erase_of_not_mem hpd]
    · show ((g.processes.erase p).length : Int) ≤ g.count - 1
      have h1 := List.length_erase_of_mem hp
      have h2 := List.length_pos_of_mem hp
      omega
  · have hpd : p ∉ g.disabledProcesses := by
      intro h1
      have h2 := (hI.disabled_tag p h1).1
      rw [htag] at h2
      cases h2
    refine ListInv_detached g _ p rfl rfl rfl (members_eraseProcess _ _) ?_ ?_ hI
    · show g.disabledProcesses = g.disabledProcesses.erase p
      rw [List.erase_of_not_mem hpd]
    · show ((g.processes.erase p).length : Int) ≤ g.count - 1
      have h1 := List.length_erase_of_mem hp
      have h2 := List.length_pos_of_mem hp
      omega
  · have hpp : p ∉ g.processes := fun h1 => (processes_not_disabled g hI p h1).1 htag
    have hpm : p ∉ g.pqueue.members := fun h1 => hpp (hI.index.mem_iff.1 h1)
    refine ListInv_detached g _ p rfl rfl ?_ ?_ rfl ?_ hI
    · show g.processes = g.processes.erase p
      rw [List.erase_of_not_mem hpp]
    · show g.pqueue.members = g.pqueue.members.erase p
      rw [List.erase_of_not_mem hpm]
    · exact hc

theorem ListInv_detachAll (g g1 : Group) (acts acts1 : List Callback)
    (h : g.detachAll acts = Except.ok (g1, acts1)) (hI : ListInv g) : ListInv g1 := by
  rw [detachAll_cases g g1 acts acts1 h]
  refine ⟨⟨List.nodup_nil, fun q hq => absurd hq (List.not_mem_nil q)⟩, List.Perm.refl _,
    List.nodup_nil, fun x hx => absurd hx (List.not_mem_nil x), ?_, le_refl _⟩
  intro x hx1 hx2
  exfalso
  have hx3 : (Group.clearGroups g.processes g.heap x).group = some g.self := hx1
  have hx4 : (Group.clearGroups g.processes g.heap x).enabled ≠ EnabledStatus.DISABLED := hx2
  by_cases hx : x ∈ g.processes
  · rw [clearGroups_group_of_mem _ _ _ hx] at hx3
    cases hx3
  · rw [clearGroups_of_not_mem _ _ _ hx] at hx3 hx4
    exact hx (hI.member x hx3 hx4)

theorem ListInv_enable (g g1 : Group) (p : Nat) (acts acts1 : List Callback)
    (h : g.enable p acts = Except.ok (g1, acts1)) (hI : ListInv g) : ListInv g1 := by
  obtain ⟨hg, hcases⟩ := enable_cases g g1 p acts acts1 h
  rcases hcases with ⟨htag, rfl, _⟩ | ⟨htag, _, rfl, _⟩ | ⟨_, rfl, _⟩
  · refine ListInv_congr g _ rfl ?_ ?_ (List.Perm.refl _) rfl rfl rfl hI
    · intro x
      by_cases hx : x = p
      · subst hx
        simp [setProcess, htag]
      · simp [setProcess, hx]
    · intro x
      by_cases hx : x = p
      · subst hx
        simp [setProcess]
      · simp [setProcess, hx]
  · have hpp : p ∉ g.processes := fun h1 => (processes_not_disabled g hI p h1).1 htag
    refine ListInv_toEnabled g _ p rfl ?_ ?_ ?_ rfl (members_push _ _ _) rfl rfl hpp hI
    · intro x hx
      exact setProcess_other _ _ _ _ hx
    · show (setProcess g.heap p _ p).enabled = EnabledStatus.ENABLED
      rw [setProcess_same]
    · show (setProcess g.heap p _ p).group = some g.self
      rw [setProcess_same]
      exact hg
  · exact hI

theorem ListInv_disable (g g1 : Group) (p cb : Nat) (r : Bool)
    (h : g.disable p cb = Except.ok (g1, r)) (hI : ListInv g) : ListInv g1 := by
  obtain ⟨hg, hcases⟩ := disable_cases g g1 p cb r h
  rcases hcases with ⟨htag, _, _, _, rfl⟩ | ⟨htag, _, _, hp, _, _, rfl⟩ | ⟨_, _, rfl⟩ |
    ⟨_, _, rfl⟩
  · apply ListInv_same _ _ (sameProcesses_spawn _)
    refine ListInv_congr g _ rfl ?_ ?_ (List.Perm.refl _) rfl rfl rfl hI
    · intro x
      by_cases hx : x = p
      · subst hx
        simp [setProcess, htag]
      · simp [setProcess, hx]
    · intro x
      by_cases hx : x = p
      · subst hx
        simp [setProcess]
      · simp [setProcess, hx]
  · exact ListInv_toDisabled g _ p rfl rfl rfl rfl rfl (by show g.count - 1 ≤ g.count; omega)
      hp (by rw [htag]; decide) hI
  · exact ListInv_disableWaitlist g _ hI
  · exact hI

theorem ListInv_step (g g1 : Group) (op : Op) (h : step g op = Except.ok g1)
    (hI : ListInv g) : ListInv g1 := by
  cases op with
  | get b o cb =>
    obtain ⟨r, hr⟩ := map_fst_ok _ _ h
    exact ListInv_get (Env.noRestart b) g g1 o cb r rfl hr hI
  | assignSessionsToGetWaiters =>
    obtain ⟨r, hr⟩ := map_fst_ok _ _ h
    exact ListInv_drain g g1 [] r hr hI
  | attach p =>
    obtain ⟨r, hr⟩ := map_fst_ok _ _ h
    exact ListInv_attach g g1 p [] r hr hI
  | detach p =>
    obtain ⟨r, hr⟩ := map_fst_ok _ _ h
    exact ListInv_detach g g1 p [] r hr hI
  | detachAll =>
    obtain ⟨r, hr⟩ := map_fst_ok _ _ h
    exact ListInv_detachAll g g1 [] r hr hI
  | enable p =>
    obtain ⟨r, hr⟩ := map_fst_ok _ _ h
    exact ListInv_enable g g1 p [] r hr hI
  | disable p cb =>
    obtain ⟨r, hr⟩ := map_fst_ok _ _ h
    exact ListInv_disable g g1 p cb r hr hI

theorem ListInv_reachable (allowed : Op → Prop) (g : Group) (h : Reachable allowed g) :
    ListInv g := by
  induction h with
  | init g hempty =>
    obtain ⟨hproc, hdp, hpq, hcount, _, _, _, _, hnone⟩ := hempty
    refine ⟨⟨?_, ?_⟩, ?_, ?_, ?_, ?_, ?_⟩
    · rw [hpq]
      exact List.nodup_nil
    · intro q hq
      rw [hpq] at hq
      exact absurd hq (List.not_mem_nil q)
    · rw [hpq, hproc]
      exact List.Perm.refl _
    · rw [hdp]
      exact List.nodup_nil
    · intro x hx
      rw [hdp] at hx
      exact absurd hx (List.not_mem_nil x)
    · intro x hx
      exact absurd hx (hnone x)
    · rw [hproc, hcount]
      exact le_refl _
  | step g g1 op _ _ hstep ih => exact ListInv_step g g1 op hstep ih

/-! ## The disable wait list and `disablingCount` -/

theorem map_process_filter_ne (ws : List DisableWaiter) (p : Nat) :
    (ws.filter (fun w => decide (w.process ≠ p))).map DisableWaiter.process
      = (ws.map DisableWaiter.process).filter (fun x => decide (x ≠ p)) := by
  induction ws with
  | nil => rfl
  | cons w ws ih =>
    by_cases hw : w.process = p
    · rw [List.filter_cons_of_neg (by simpa using hw), List.map_cons,
        List.filter_cons_of_neg (by simpa using hw), ih]
    · rw [List.filter_cons_of_pos (by simpa using hw), List.map_cons, List.map_cons,
        List.filter_cons_of_pos (by simpa using hw), ih]

theorem WaitInv_frame (g g1 : Group)
    (hdc : g1.disablingCount = g.disablingCount)
    (hdw : g1.disableWaitlist = g.disableWaitlist)
    (hkeep : ∀ x ∈ g.processes, (g.heap x).enabled = EnabledStatus.DISABLING →
      (g1.heap x).enabled = EnabledStatus.DISABLING ∧ x ∈ g1.processes)
    (hnew : ∀ x ∈ g1.processes, (g1.heap x).enabled = EnabledStatus.DISABLING →
      x ∈ g.processes ∧ (g.heap x).enabled = EnabledStatus.DISABLING)
    (hW : WaitInv g) : WaitInv g1 := by
  obtain ⟨hw, heq, hl, hwt⟩ := hW
  refine ⟨?_, ?_, ?_, ?_⟩
  · intro w hwm
    rw [hdw] at hwm
    exact (hkeep _ (hl w hwm) (hw w hwm)).1
  · rw [hdc, hdw]
    exact heq
  · intro w hwm
    rw [hdw] at hwm
    exact (hkeep _ (hl w hwm) (hw w hwm)).2
  · intro x hx ht
    rw [hdw]
    obtain ⟨h1, h2⟩ := hnew x hx ht
    exact hwt x h1 h2

theorem WaitInv_same (g g2 : Group) (h : SameProcesses g g2) (hW : WaitInv g) :
    WaitInv g2 := by
  obtain ⟨_, hheap, _, hdc, _, _, hproc, _, _, hdw⟩ := h
  refine WaitInv_frame g g2 hdc hdw ?_ ?_ hW
  · intro x hx ht
    rw [hheap, hproc]
    exact ⟨ht, hx⟩
  · intro x hx ht
    rw [hheap] at ht
    rw [hproc] at hx
    exact ⟨hx, ht⟩

theorem WaitInv_newSession (g g1 : Group) (s : Session)
    (h : g.newSession = Except.ok (g1, s)) (hW : WaitInv g) : WaitInv g1 := by
  obtain ⟨p, _, _, rfl, _⟩ := newSession_cases g g1 s h
  have htag : ∀ x, (setProcess g.heap p (g.heap p).newSession x).enabled
      = (g.heap x).enabled := by
    intro x
    by_cases hx : x = p
    · subst hx
      simp [setProcess, Process.newSession]
    · simp [setProcess, hx]
  refine WaitInv_frame g _ rfl rfl ?_ ?_ hW
  · intro x hx ht
    exact ⟨(htag x).trans ht, hx⟩
  · intro x hx ht
    exact ⟨hx, (htag x).symm.trans ht⟩

theorem WaitInv_getWaitlist (g : Group) (ws : List GetWaiter) (hW : WaitInv g) :
    WaitInv { g with getWaitlist := ws } :=
  WaitInv_frame g _ rfl rfl (fun _ hx ht => ⟨ht, hx⟩) (fun _ hx ht => ⟨hx, ht⟩) hW

theorem WaitInv_get (env : Env) (g g1 : Group) (o : Options) (cb : Nat)
    (r : Option Session) (hr : env.needsRestart g o = false)
    (h : Group.get env g o cb = Except.ok (g1, r)) (hW : WaitInv g) : WaitInv g1 := by
  obtain ⟨g2, hsame, hcases⟩ := get_cases env g g1 o cb r hr h
  have hW2 := WaitInv_same g g2 hsame hW
  rcases hcases with ⟨_, rfl, _⟩ | ⟨_, _, rfl, _⟩ | ⟨_, s, p, _, _, _, hns⟩
  · exact hW2
  · exact WaitInv_getWaitlist g2 _ hW2
  · exact WaitInv_newSession g2 g1 s hns hW2

theorem WaitInv_drain (g g1 : Group) (acts acts1 : List Callback)
    (h : g.assignSessionsToGetWaiters acts = Except.ok (g1, acts1)) (hW : WaitInv g) :
    WaitInv g1 :=
  assignSessionsLoop_induct WaitInv (fun g g1 s hP hns => WaitInv_newSession g g1 s hns hP)
    (fun g ws hP => WaitInv_getWaitlist g ws hP) _ _ _ _ _ h hW

/-- The loop of `attach` leaves no DISABLING process in `processes` and brings
`disablingCount` to zero, when the waiters still to visit name every DISABLING
process of `processes` and `disablingCount` counts the distinct ones. -/
theorem attachLoop_wait :
    ∀ (ws : List DisableWaiter) (g g2 : Group) (acts acts2 : List Callback),
      Group.attachLoop ws g acts = Except.ok (g2, acts2) →
      g.disablingCount = ((pendingDisabling g ws).length : Int) →
      (∀ x ∈ g.processes, (g.heap x).enabled = EnabledStatus.DISABLING →
        x ∈ ws.map DisableWaiter.process) →
      g2.disablingCount = 0 ∧
        ∀ x ∈ g2.processes, (g2.heap x).enabled ≠ EnabledStatus.DISABLING := by
  intro ws
  induction ws with
  | nil =>
    intro g g2 acts acts2 h hdc hwt
    simp only [Group.attachLoop, Except.ok.injEq, Prod.mk.injEq] at h
    rw [← h.1]
    refine ⟨?_, ?_⟩
    · rw [hdc]
      rfl
    · intro x hx ht
      exact absurd (hwt x hx ht) (List.not_mem_nil x)
  | cons w ws ih =>
    intro g g2 acts acts2 h hdc hwt
    unfold Group.attachLoop at h
    split at h
    · cases h
    · rename_i htag
      refine ih _ _ _ _ h ?_ ?_
      · rw [← pendingDisabling_cons_disabled g w ws htag]
        exact hdc
      · intro x hx ht
        rcases List.mem_cons.1 (hwt x hx ht) with h1 | h1
        · rw [h1, htag] at ht
          cases ht
        · exact h1
    · rename_i htag
      split at h
      · refine ih _ _ _ _ h ?_ ?_
        · rw [pendingDisabling_cons_disabling g w ws htag, List.length_cons] at hdc
          show g.disablingCount - 1 = _
          push_cast at hdc
          omega
        · intro x hx ht
          have hxw : x ≠ w.process := by
            intro e
            rw [e] at ht
            simp [Group.moveToDisabled, setProcess] at ht
          have ht1 : (g.heap x).enabled = EnabledStatus.DISABLING := by
            simpa [Group.moveToDisabled, setProcess, hxw] using ht
          have hx1 : x ∈ g.processes := List.mem_of_mem_erase hx
          rcases List.mem_cons.1 (hwt x hx1 ht1) with h1 | h1
          · exact absurd h1 hxw
          · exact h1
      · cases h

theorem WaitInv_attach (g g1 : Group) (p : Nat) (acts acts1 : List Callback)
    (h : g.attach p acts = Except.ok (g1, acts1)) (hL : ListInv g) (hW : WaitInv g) :
    WaitInv g1 := by
  obtain ⟨hg, g2, hloop, rfl⟩ := attach_cases g g1 p acts acts1 h
  have hp : p ∉ g.processes := not_mem_processes_of_group_none g p hg hL
  have hne : ∀ w ∈ g.disableWaitlist, w.process ≠ p :=
    fun w hw e => hp (e ▸ hW.listed w hw)
  have hpd : pendingDisabling (g.addEnabled p) g.disableWaitlist
      = distinct (g.disableWaitlist.map DisableWaiter.process) := by
    rw [pendingDisabling_addEnabled g p _ hne, pendingDisabling_all g _ hW.waiters]
  obtain ⟨h0, hno⟩ := attachLoop_wait _ _ _ _ _ hloop
    (by
      show g.disablingCount = _
      rw [hpd]
      exact hW.disabling_eq)
    (by
      intro x hx ht
      have hxp : x ≠ p := by
        intro e
        rw [e] at ht
        simp [Group.addEnabled, setProcess] at ht
      have ht1 : (g.heap x).enabled = EnabledStatus.DISABLING := by
        simpa [Group.addEnabled, setProcess, hxp] using ht
      have hx1 : x ∈ g.processes := by
        rcases List.mem_append.1 hx with h1 | h1
        · exact h1
        · exact absurd (List.mem_singleton.1 h1) hxp
      exact hW.waits x hx1 ht1)
  refine ⟨?_, ?_, ?_, ?_⟩
  · intro w hw
    exact absurd hw (List.not_mem_nil w)
  · show g2.disablingCount = _
    rw [h0]
    rfl
  · intro w hw
    exact absurd hw (List.not_mem_nil w)
  · intro x hx ht
    exact absurd ht (hno x hx)

theorem WaitInv_detachAll (g g1 : Group) (acts acts1 : List Callback)
    (h : g.detachAll acts = Except.ok (g1, acts1)) : WaitInv g1 := by
  rw [detachAll_cases g g1 acts acts1 h]
  exact ⟨fun w hw => absurd hw (List.not_mem_nil w), rfl,
    fun w hw => absurd hw (List.not_mem_nil w), fun x hx => absurd hx (List.not_mem_nil x)⟩

/-- Taking a DISABLING process out of the disable wait list: all its entries go,
`disablingCount` drops by one. -/
theorem WaitInv_remove (g g1 : Group) (p : Nat)
    (hdc : g1.disablingCount = g.disablingCount - 1)
    (hdw : g1.disableWaitlist = g.disableWaitlist.filter (fun w => decide (w.process ≠ p)))
    (hp : p ∈ g.processes) (htag : (g.heap p).enabled = EnabledStatus.DISABLING)
    (hother : ∀ x, x ≠ p → (g1.heap x).enabled = (g.heap x).enabled)
    (hproc : ∀ x, x ≠ p → (x ∈ g1.processes ↔ x ∈ g.processes))
    (hgone : p ∈ g1.processes → (g1.heap p).enabled ≠ EnabledStatus.DISABLING)
    (hW : WaitInv g) : WaitInv g1 := by
  obtain ⟨hw, heq, hl, hwt⟩ := hW
  have hfil : ∀ w, w ∈ g1.disableWaitlist ↔ w ∈ g.disableWaitlist ∧ w.process ≠ p := by
    intro w
    rw [hdw, List.mem_filter]
    simp
  refine ⟨?_, ?_, ?_, ?_⟩
  · intro w hwm
    obtain ⟨h1, h2⟩ := (hfil w).1 hwm
    rw [hother _ h2]
    exact hw w h1
  · have h1 := distinct_filter_ne_length (g.disableWaitlist.map DisableWaiter.process) p
      (hwt p hp htag)
    rw [hdc, hdw, map_process_filter_ne, heq]
    omega
  · intro w hwm
    obtain ⟨h1, h2⟩ := (hfil w).1 hwm
    exact (hproc _ h2).2 (hl w h1)
  · intro x hx ht
    have hxp : x ≠ p := by
      intro e
      rw [e] at hx ht
      exact hgone hx ht
    rw [hother x hxp] at ht
    obtain ⟨w, hw1, hw2⟩ := List.mem_map.1 (hwt x ((hproc x hxp).1 hx) ht)
    exact List.mem_map.2 ⟨w, (hfil w).2 ⟨hw1, by rw [hw2]; exact hxp⟩, hw2⟩

theorem WaitInv_enable (g g1 : Group) (p : Nat) (acts acts1 : List Callback)
    (h : g.enable p acts = Except.ok (g1, acts1)) (hL : ListInv g) (hW : WaitInv g) :
    WaitInv g1 := by
  obtain ⟨hg, hcases⟩ := enable_cases g g1 p acts acts1 h
  rcases hcases with ⟨htag, rfl, _⟩ | ⟨htag, _, rfl, _⟩ | ⟨_, rfl, _⟩
  · have hp : p ∈ g.processes := hL.member p hg (by rw [htag]; decide)
    refine WaitInv_remove g _ p rfl rfl hp htag ?_ (fun _ _ => Iff.rfl) ?_ hW
    · intro x hx
      simp [setProcess, hx]
    · intro _
      simp [setProcess]
  · refine WaitInv_frame g _ rfl rfl ?_ ?_ hW
    · intro x hx ht
      have hxp : x ≠ p := by
        intro e
        rw [e, htag] at ht
        cases ht
      refine ⟨by simpa [setProcess, hxp] using ht, ?_⟩
      exact List.mem_append_left _ hx
    · intro x hx ht
      have hxp : x ≠ p := by
        intro e
        rw [e] at ht
        simp [setProcess] at ht
      have hx1 : x ∈ g.processes ++ [p] := hx
      refine ⟨?_, by simpa [setProcess, hxp] using ht⟩
      rcases List.mem_append.1 hx1 with h1 | h1
      · exact h1
      · exact absurd (List.mem_singleton.1 h1) hxp
  · exact hW

theorem WaitInv_detach (g g1 : Group) (p : Nat) (acts acts1 : List Callback)
    (h : g.detach p acts = Except.ok (g1, acts1)) (hL : ListInv g) (hW : WaitInv g) :
    WaitInv g1 := by
  have hnd : g.processes.Nodup := hL.index.nodup_iff.1 hL.queue.1
  have htags : ∀ x, (setProcess g.heap p { g.heap p with group := none } x).enabled
      = (g.heap x).enabled := by
    intro x
    by_cases hx : x = p
    · subst hx
      simp [setProcess]
    · simp [setProcess, hx]
  obtain ⟨hg, hcases⟩ := detach_cases g g1 p acts acts1 h
  rcases hcases with ⟨htag, _, hp, _, rfl, _⟩ | ⟨htag, _, hp, _, rfl, _⟩ | ⟨htag, _, rfl, _⟩
  · refine WaitInv_frame g _ rfl rfl ?_ ?_ hW
    · intro x hx ht
      have hxp : x ≠ p := by
        intro e
        rw [e, htag] at ht
        cases ht
      exact ⟨(htags x).trans ht, (List.mem_erase_of_ne hxp).2 hx⟩
    · intro x hx ht
      exact ⟨List.mem_of_mem_erase hx, (htags x).symm.trans ht⟩
  · refine WaitInv_remove g _ p rfl rfl hp htag (fun x _ => htags x) ?_ ?_ hW
    · intro x hx
      exact List.mem_erase_of_ne hx
    · intro hmem
      exact absurd rfl ((hnd.mem_erase_iff).1 hmem).1
  · refine WaitInv_frame g _ rfl rfl ?_ ?_ hW
    · intro x hx ht
      exact ⟨(htags x).trans ht, hx⟩
    · intro x hx ht
      exact ⟨hx, (htags x).symm.trans ht⟩

theorem WaitInv_disable (g g1 : Group) (p cb : Nat) (r : Bool)
    (h : g.disable p cb = Except.ok (g1, r)) (hL : ListInv g) (hW : WaitInv g) :
    WaitInv g1 := by
  obtain ⟨hw, heq, hl, hwt⟩ := hW
  obtain ⟨hg, hcases⟩ := disable_cases g g1 p cb r h
  rcases hcases with ⟨htag, _, _, _, rfl⟩ | ⟨htag, _, _, hp, _, _, rfl⟩ | ⟨htag, _, rfl⟩ |
    ⟨_, _, rfl⟩
  · apply WaitInv_same _ _ (sameProcesses_spawn _)
    have hp : p ∈ g.processes := hL.member p hg (by rw [htag]; decide)
    have hnot : p ∉ g.disableWaitlist.map DisableWaiter.process := by
      intro hm
      obtain ⟨w, hw1, hw2⟩ := List.mem_map.1 hm
      have h1 := hw w hw1
      rw [hw2, htag] at h1
      cases h1
    refine ⟨?_, ?_, ?_, ?_⟩
    · intro w hwm
      have hwm1 : w ∈ g.disableWaitlist ++ [DisableWaiter.mk p cb] := hwm
      by_cases hwp : w.process = p
      · rw [hwp]
        simp [setProcess]
      · rcases List.mem_append.1 hwm1 with h1 | h1
        · simpa [setProcess, hwp] using hw w h1
        · rw [List.mem_singleton.1 h1] at hwp
          exact absurd rfl hwp
    · show g.disablingCount + 1 = ((distinct
        ((g.disableWaitlist ++ [DisableWaiter.mk p cb]).map
          DisableWaiter.process)).length : Int)
      rw [List.map_append, List.map_singleton, distinct_append_of_not_mem _ _ hnot,
        List.length_append, List.length_singleton, heq]
      push_cast
      rfl
    · intro w hwm
      have hwm1 : w ∈ g.disableWaitlist ++ [DisableWaiter.mk p cb] := hwm
      rcases List.mem_append.1 hwm1 with h1 | h1
      · exact hl w h1
      · rw [List.mem_singleton.1 h1]
        exact hp
    · intro x hx ht
      show x ∈ (g.disableWaitlist ++ [DisableWaiter.mk p cb]).map
        DisableWaiter.process
      rw [List.map_append, List.map_singleton]
      by_cases hxp : x = p
      · rw [hxp]
        exact List.mem_append_right _ (List.mem_singleton_self p)
      · have ht1 : (g.heap x).enabled = EnabledStatus.DISABLING := by
          simpa [setProcess, hxp] using ht
        exact List.mem_append_left _ (hwt x hx ht1)
  · refine WaitInv_frame g _ rfl rfl ?_ ?_ ⟨hw, heq, hl, hwt⟩
    · intro x hx ht
      have hxp : x ≠ p := by
        intro e
        rw [e, htag] at ht
        cases ht
      exact ⟨by simpa [setProcess, hxp] using ht, (List.mem_erase_of_ne hxp).2 hx⟩
    · intro x hx ht
      have hxp : x ≠ p := by
        intro e
        rw [e] at ht
        simp [setProcess] at ht
      exact ⟨List.mem_of_mem_erase hx, by simpa [setProcess, hxp] using ht⟩
  · have hp : p ∈ g.processes := hL.member p hg (by rw [htag]; decide)
    have hin : p ∈ g.disableWaitlist.map DisableWaiter.process := hwt p hp htag
    refine ⟨?_, ?_, ?_, ?_⟩
    · intro w hwm
      have hwm1 : w ∈ g.disableWaitlist ++ [DisableWaiter.mk p cb] := hwm
      rcases List.mem_append.1 hwm1 with h1 | h1
      · exact hw w h1
      · rw [List.mem_singleton.1 h1]
        exact htag
    · show g.disablingCount = ((distinct
        ((g.disableWaitlist ++ [DisableWaiter.mk p cb]).map
          DisableWaiter.process)).length : Int)
      rw [List.map_append, List.map_singleton, distinct_append_of_mem _ _ hin]
      exact heq
    · intro w hwm
      have hwm1 : w ∈ g.disableWaitlist ++ [DisableWaiter.mk p cb] := hwm
      rcases List.mem_append.1 hwm1 with h1 | h1
      · exact hl w h1
      · rw [List.mem_singleton.1 h1]
        exact hp
    · intro x hx ht
      show x ∈ (g.disableWaitlist ++ [DisableWaiter.mk p cb]).map
        DisableWaiter.process
      rw [List.map_append]
      exact List.mem_append_left _ (hwt x hx ht)
  · exact ⟨hw, heq, hl, hwt⟩

theorem WaitInv_step (g g1 : Group) (op : Op) (h : step g op = Except.ok g1)
    (hL : ListInv g) (hW : WaitInv g) : WaitInv g1 := by
  cases op with
  | get b o cb =>
    obtain ⟨r, hr⟩ := map_fst_ok _ _ h
    exact WaitInv_get (Env.noRestart b) g g1 o cb r rfl hr hW
  | assignSessionsToGetWaiters =>
    obtain ⟨r, hr⟩ := map_fst_ok _ _ h
    exact WaitInv_drain g g1 [] r hr hW
  | attach p =>
    obtain ⟨r, hr⟩ := map_fst_ok _ _ h
    exact WaitInv_attach g g1 p [] r hr hL hW
  | detach p =>
    obtain ⟨r, hr⟩ := map_fst_ok _ _ h
    exact WaitInv_detach g g1 p [] r hr hL hW
  | detachAll =>
    obtain ⟨r, hr⟩ := map_fst_ok _ _ h
    exact WaitInv_detachAll g g1 [] r hr
  | enable p =>
    obtain ⟨r, hr⟩ := map_fst_ok _ _ h
    exact WaitInv_enable g g1 p [] r hr hL hW
  | disable p cb =>
    obtain ⟨r, hr⟩ := map_fst_ok _ _ h
    exact WaitInv_disable g g1 p cb r hr hL hW

theorem WaitInv_reachable (allowed : Op → Prop) (g : Group) (h : Reachable allowed g) :
    WaitInv g := by
  induction h with
  | init g hempty =>
    obtain ⟨hproc, _, _, _, hdc, _, _, hdw, _⟩ := hempty
    refine ⟨?_, ?_, ?_, ?_⟩
    · intro w hw
      rw [hdw] at hw
      exact absurd hw (List.not_mem_nil w)
    · rw [hdc, hdw]
      rfl
    · intro w hw
      rw [hdw] at hw
      exact absurd hw (List.not_mem_nil w)
    · intro x hx
      rw [hproc] at hx
      exact absurd hx (List.not_mem_nil x)
  | step g g1 op hreach _ hstep ih =>
    exact WaitInv_step g g1 op hstep (ListInv_reachable allowed g hreach) ih

/-- With the two invariants, `disablingCount` lies between 0 and `count` and is at
most the length of the disable wait list. -/
theorem disablingCount_bounds (g : Group) (hL : ListInv g) (hW : WaitInv g) :
    g.disablingCount ≤ (g.disableWaitlist.length : Int) ∧ 0 ≤ g.disablingCount ∧
      g.disablingCount ≤ g.count := by
  have h1 := distinct_length_le (g.disableWaitlist.map DisableWaiter.process)
  rw [List.length_map] at h1
  have h2 := distinct_length_le_of_subset (g.disableWaitlist.map DisableWaiter.process)
    g.processes (by
      intro x hx
      obtain ⟨w, hw1, hw2⟩ := List.mem_map.1 hx
      exact hw2 ▸ hW.listed w hw1)
  have h3 := hL.count_ge
  have h4 := hW.disabling_eq
  omega

/-! ## C13 and C15: the lists, the tags and the priority queue -/

theorem afterDisableOfTwo_reachable : Reachable (fun _ => True) afterDisableOfTwo :=
  reachable_of_run _ [Op.attach 1, Op.attach 2, Op.disable 1 7] emptyGroup _
    (Reachable.init _ emptyGroup_isEmptyGroup) (fun _ _ => trivial) rfl

theorem afterDisableTwice_reachable : Reachable (fun _ => True) afterDisableTwice :=
  reachable_of_run _ [Op.attach 1, Op.disable 1 7, Op.disable 1 8] emptyGroup _
    (Reachable.init _ emptyGroup_isEmptyGroup) (fun _ _ => trivial) rfl

theorem twoAttached_reachable : Reachable (fun _ => True) twoAttached :=
  reachable_of_run _ [Op.attach 1, Op.attach 2] emptyGroup _
    (Reachable.init _ emptyGroup_isEmptyGroup) (fun _ _ => trivial) rfl

/-- C13. In every state reached from an empty group by calls of `attach`, `detach`,
`detachAll`, `enable`, `disable`, `get` (without restart) and the drain of the
get wait list: every process in `processes` is tagged ENABLED or DISABLING,
every process in `disabledProcesses` is tagged DISABLED, and no process is in
both lists. -/
theorem tags_match_lists (allowed : Op → Prop) (g : Group) (hreach : Reachable allowed g) :
    (∀ x ∈ g.processes, (g.heap x).enabled = EnabledStatus.ENABLED ∨
      (g.heap x).enabled = EnabledStatus.DISABLING) ∧
    (∀ x ∈ g.disabledProcesses, (g.heap x).enabled = EnabledStatus.DISABLED) ∧
    (∀ x, ¬ (x ∈ g.processes ∧ x ∈ g.disabledProcesses)) := by
  have hL := ListInv_reachable allowed g hreach
  refine ⟨?_, ?_, ?_⟩
  · intro x hx
    exact enabled_or_disabling _ (processes_not_disabled g hL x hx).1
  · intro x hx
    exact (hL.disabled_tag x hx).1
  · rintro x ⟨h1, h2⟩
    exact (processes_not_disabled g hL x h1).1 (hL.disabled_tag x h2).1

/-- Witness for C13: the group with an enabled process 2 and a disabled process 1. -/
theorem tags_match_lists_witness :
    Reachable (fun _ => True) afterDisableOfTwo ∧
    afterDisableOfTwo.processes = [2] ∧ afterDisableOfTwo.disabledProcesses = [1] ∧
    (∀ x ∈ afterDisableOfTwo.processes,
      (afterDisableOfTwo.heap x).enabled = EnabledStatus.ENABLED ∨
      (afterDisableOfTwo.heap x).enabled = EnabledStatus.DISABLING) ∧
    (∀ x ∈ afterDisableOfTwo.disabledProcesses,
      (afterDisableOfTwo.heap x).enabled = EnabledStatus.DISABLED) ∧
    (∀ x, ¬ (x ∈ afterDisableOfTwo.processes ∧ x ∈ afterDisableOfTwo.disabledProcesses)) :=
  ⟨afterDisableOfTwo_reachable, rfl, rfl,
    tags_match_lists (fun _ => True) afterDisableOfTwo afterDisableOfTwo_reachable⟩

/-- C15. In every state reached from an empty group by calls of `get` (without
restart), `attach`, `detach`, `detachAll`, `enable`, `disable` and the drain of
the get wait list: a process has an entry in `pqueue` if and only if it is in
`processes`, no process is listed twice in either, so that the two have the
same length; and `processes` is empty if and only if `pqueue.top()` is NULL. -/
theorem pqueue_indexes_processes (allowed : Op → Prop) (g : Group)
    (hreach : Reachable allowed g) :
    (∀ x, x ∈ g.pqueue.members ↔ x ∈ g.processes) ∧
    g.pqueue.members.Nodup ∧ g.processes.Nodup ∧
    g.pqueue.length = g.processes.length ∧
    (g.processes = [] ↔ g.pqueue.top = none) := by
  have hL := ListInv_reachable allowed g hreach
  refine ⟨fun x => hL.index.mem_iff, hL.queue.1, hL.index.nodup_iff.1 hL.queue.1, ?_, ?_⟩
  · have h := hL.index.length_eq
    simpa [PriorityQueue.members] using h
  · rw [top_eq_none_iff]
    constructor
    · intro h
      have h1 := hL.index
      rw [h] at h1
      have h2 : g.pqueue.members = [] := h1.eq_nil
      simpa [PriorityQueue.members] using h2
    · intro h
      have h1 := hL.index
      rw [h] at h1
      exact h1.nil_eq.symm

/-- Witness for C15: the group with an enabled process 2 and a disabled process 1. -/
theorem pqueue_indexes_processes_witness :
    Reachable (fun _ => True) afterDisableOfTwo ∧
    afterDisableOfTwo.pqueue.members = [2] ∧
    (∀ x, x ∈ afterDisableOfTwo.pqueue.members ↔ x ∈ afterDisableOfTwo.processes) ∧
    afterDisableOfTwo.pqueue.members.Nodup ∧ afterDisableOfTwo.processes.Nodup ∧
    afterDisableOfTwo.pqueue.length = afterDisableOfTwo.processes.length ∧
    (afterDisableOfTwo.processes = [] ↔ afterDisableOfTwo.pqueue.top = none) :=
  ⟨afterDisableOfTwo_reachable, rfl,
    pqueue_indexes_processes (fun _ => True) afterDisableOfTwo afterDisableOfTwo_reachable⟩

/-! ## C14: the disable wait list covers every disabling process -/

/-- Totality of `enable`: when p belongs to the group and, if it is DISABLED, has
its node in `disabledProcesses`, the call returns. -/
theorem enable_total (g : Group) (p : Nat) (acts : List Callback)
    (hgrp : (g.heap p).group = some g.self)
    (hdis : (g.heap p).enabled = EnabledStatus.DISABLED → p ∈ g.disabledProcesses) :
    ∃ g1 acts1, g.enable p acts = Except.ok (g1, acts1) := by
  cases h : g.enable p acts with
  | ok v => exact ⟨v.1, v.2, rfl⟩
  | error f =>
    exfalso
    cases htag : (g.heap p).enabled with
    | ENABLED => simp [Group.enable, hgrp, htag] at h
    | DISABLING => simp [Group.enable, hgrp, htag] at h
    | DISABLED => simp [Group.enable, hgrp, htag, hdis htag] at h

/-- C14. In every state reached from an empty group by calls of `attach`, `detach`,
`detachAll`, `enable` and `disable` (and of `get` without restart and the drain
of the get wait list): `disablingCount` is at most the length of
`disableWaitlist` and lies between 0 and `count`.  Moreover, for a DISABLING
process p of the group, however many entries it has in the wait list, `enable`
and `detach` of p both return, and either call lowers `disablingCount` by
exactly one, removes exactly the entries of p, and leaves a state in which the
same inequalities hold. -/
theorem disableWaitlist_covers_disabling (allowed : Op → Prop) (g : Group)
    (hreach : Reachable allowed g) :
    g.disablingCount ≤ (g.disableWaitlist.length : Int) ∧ 0 ≤ g.disablingCount ∧
    g.disablingCount ≤ g.count ∧
    (∀ (p : Nat) (acts : List Callback), (g.heap p).group = some g.self →
      (g.heap p).enabled = EnabledStatus.DISABLING →
      (∃ g1 acts1, g.enable p acts = Except.ok (g1, acts1)) ∧
      (∃ g1 acts1, g.detach p acts = Except.ok (g1, acts1)) ∧
      ∀ g1 acts1,
        (g.enable p acts = Except.ok (g1, acts1) ∨ g.detach p acts = Except.ok (g1, acts1)) →
        g1.disablingCount = g.disablingCount - 1 ∧
        g1.disableWaitlist = g.disableWaitlist.filter (fun w => decide (w.process ≠ p)) ∧
        g1.disablingCount ≤ (g1.disableWaitlist.length : Int) ∧ 0 ≤ g1.disablingCount ∧
        g1.disablingCount ≤ g1.count) := by
  have hL := ListInv_reachable allowed g hreach
  have hW := WaitInv_reachable allowed g hreach
  obtain ⟨hb1, hb2, hb3⟩ := disablingCount_bounds g hL hW
  refine ⟨hb1, hb2, hb3, ?_⟩
  intro p acts hg htag
  have hp : p ∈ g.processes := hL.member p hg (by rw [htag]; decide)
  have hpm : p ∈ g.pqueue.members := hL.index.mem_iff.2 hp
  have hcpos : 0 < g.count := by
    have h1 := hL.count_ge
    have h2 := List.length_pos_of_mem hp
    omega
  refine ⟨enable_total g p acts hg (fun h => by rw [htag] at h; cases h), ?_, ?_⟩
  · obtain ⟨g1, acts1, h, _⟩ := detach_total g p acts hg (fun _ => ⟨hcpos, hp, hpm⟩)
      (fun h => by rw [htag] at h; cases h)
    exact ⟨g1, acts1, h⟩
  · intro g1 acts1 hcall
    rcases hcall with he | hd
    · have hL1 := ListInv_enable g g1 p acts acts1 he hL
      have hW1 := WaitInv_enable g g1 p acts acts1 he hL hW
      obtain ⟨_, hcases⟩ := enable_cases g g1 p acts acts1 he
      rcases hcases with ⟨_, hg1, _⟩ | ⟨h, _⟩ | ⟨h, _⟩
      · refine ⟨?_, ?_, disablingCount_bounds g1 hL1 hW1⟩
        · rw [hg1]
        · rw [hg1]
      · rw [htag] at h
        cases h
      · rw [htag] at h
        cases h
    · have hL1 := ListInv_detach g g1 p acts acts1 hd hL
      have hW1 := WaitInv_detach g g1 p acts acts1 hd hL hW
      obtain ⟨_, hcases⟩ := detach_cases g g1 p acts acts1 hd
      rcases hcases with ⟨h, _⟩ | ⟨_, _, _, _, hg1, _⟩ | ⟨h, _⟩
      · rw [htag] at h
        cases h
      · refine ⟨?_, ?_, disablingCount_bounds g1 hL1 hW1⟩
        · rw [hg1]
        · rw [hg1]
      · rw [htag] at h
        cases h

/-- Witness for C14: the group whose only process is DISABLING with two entries in
the disable wait list. -/
theorem disableWaitlist_covers_disabling_witness :
    Reachable (fun _ => True) afterDisableTwice ∧
    afterDisableTwice.disableWaitlist
      = [{ process := 1, callback := 7 }, { process := 1, callback := 8 }] ∧
    afterDisableTwice.disablingCount = 1 ∧
    afterDisableTwice.disablingCount ≤ (afterDisableTwice.disableWaitlist.length : Int) ∧
    0 ≤ afterDisableTwice.disablingCount ∧
    afterDisableTwice.disablingCount ≤ afterDisableTwice.count ∧
    (∀ (p : Nat) (acts : List Callback),
      (afterDisableTwice.heap p).group = some afterDisableTwice.self →
      (afterDisableTwice.heap p).enabled = EnabledStatus.DISABLING →
      (∃ g1 acts1, afterDisableTwice.enable p acts = Except.ok (g1, acts1)) ∧
      (∃ g1 acts1, afterDisableTwice.detach p acts = Except.ok (g1, acts1)) ∧
      ∀ g1 acts1,
        (afterDisableTwice.enable p acts = Except.ok (g1, acts1) ∨
          afterDisableTwice.detach p acts = Except.ok (g1, acts1)) →
        g1.disablingCount = afterDisableTwice.disablingCount - 1 ∧
        g1.disableWaitlist
          = afterDisableTwice.disableWaitlist.filter (fun w => decide (w.process ≠ p)) ∧
        g1.disablingCount ≤ (g1.disableWaitlist.length : Int) ∧ 0 ≤ g1.disablingCount ∧
        g1.disablingCount ≤ g1.count) :=
  ⟨afterDisableTwice_reachable, rfl, rfl,
    disableWaitlist_covers_disabling (fun _ => True) afterDisableTwice
      afterDisableTwice_reachable⟩

/-! ## C12: `disable` followed by `enable` -/

theorem setProcess_retag_back (heap : Nat → Process) (p : Nat) (t : EnabledStatus)
    (h : (heap p).enabled = EnabledStatus.ENABLED) :
    setProcess (setProcess heap p { heap p with enabled := t }) p
      { setProcess heap p { heap p with enabled := t } p with
        enabled := EnabledStatus.ENABLED } = heap := by
  funext x
  by_cases hx : x = p
  · subst hx
    rw [setProcess_same, setProcess_same]
    cases hP : heap x with
    | mk e gr se c =>
      rw [hP] at h
      simp only at h
      subst h
      rfl
  · rw [setProcess_other _ _ _ _ hx, setProcess_other _ _ _ _ hx]

theorem filter_ne_append_self (ws : List DisableWaiter) (p cb : Nat)
    (h : ∀ w ∈ ws, w.process ≠ p) :
    (ws ++ [DisableWaiter.mk p cb]).filter (fun w => decide (w.process ≠ p)) = ws := by
  rw [List.filter_append, List.filter_cons_of_neg (by simp), List.filter_nil,
    List.append_nil]
  apply List.filter_eq_self.2
  intro w hw
  simpa using h w hw

/-- C12. For every state reached from an empty group and every process p of
`processes` that is tagged ENABLED: `disable(p, cb)` returns, synchronously
(true, p DISABLED and moved to `disabledProcesses`) exactly when
`count - disablingCount > 1` and pending (false, p DISABLING and still listed)
otherwise; the following `enable(p, acts)` returns as well, and after it p is
tagged ENABLED, is in `processes` and in `pqueue` and not in
`disabledProcesses`; the process objects, the members of `processes` and of
`pqueue` (up to order), `disabledProcesses`, `disableWaitlist` and
`disablingCount` are as before the two calls. -/
theorem disable_enable_round_trip (allowed : Op → Prop) (g : Group)
    (hreach : Reachable allowed g) (p cb : Nat) (acts : List Callback)
    (hp : p ∈ g.processes) (htag : (g.heap p).enabled = EnabledStatus.ENABLED) :
    p ∈ g.pqueue.members ∧
    ∃ g1 r g2 acts2,
      g.disable p cb = Except.ok (g1, r) ∧
      (r = true ↔ 1 < g.count - g.disablingCount) ∧
      (r = true → (g1.heap p).enabled = EnabledStatus.DISABLED ∧ p ∉ g1.processes ∧
        p ∉ g1.pqueue.members ∧ p ∈ g1.disabledProcesses) ∧
      (r = false → (g1.heap p).enabled = EnabledStatus.DISABLING ∧ p ∈ g1.processes ∧
        p ∈ g1.pqueue.members ∧ p ∉ g1.disabledProcesses) ∧
      g1.enable p acts = Except.ok (g2, acts2) ∧
      (g2.heap p).enabled = EnabledStatus.ENABLED ∧ p ∈ g2.processes ∧
      p ∈ g2.pqueue.members ∧ p ∉ g2.disabledProcesses ∧
      g2.heap = g.heap ∧
      g2.processes.Perm g.processes ∧ g2.pqueue.members.Perm g.pqueue.members ∧
      g2.disabledProcesses = g.disabledProcesses ∧
      g2.disableWaitlist = g.disableWaitlist ∧ g2.disablingCount = g.disablingCount := by
  have hL := ListInv_reachable allowed g hreach
  have hW := WaitInv_reachable allowed g hreach
  have hpm : p ∈ g.pqueue.members := hL.index.mem_iff.2 hp
  have hg : (g.heap p).group = some g.self := (processes_not_disabled g hL p hp).2
  have hpd : p ∉ g.disabledProcesses := by
    intro h
    have h1 := (hL.disabled_tag p h).1
    rw [htag] at h1
    cases h1
  have hnd : g.processes.Nodup := hL.index.nodup_iff.1 hL.queue.1
  have hndm : g.pqueue.members.Nodup := hL.queue.1
  have hne : ∀ w ∈ g.disableWaitlist, w.process ≠ p := by
    intro w hw e
    have h1 := hW.waiters w hw
    rw [e, htag] at h1
    cases h1
  have hcount : 1 ≤ g.count - g.disablingCount := by
    have h1 := distinct_length_le_of_subset (g.disableWaitlist.map DisableWaiter.process)
      (g.processes.erase p) (by
        intro x hx
        obtain ⟨w, hw1, hw2⟩ := List.mem_map.1 hx
        rw [← hw2]
        exact (List.mem_erase_of_ne (hne w hw1)).2 (hW.listed w hw1))
    have h2 := List.length_erase_of_mem hp
    have h3 := List.length_pos_of_mem hp
    have h4 := hL.count_ge
    have h5 := hW.disabling_eq
    omega
  have hcpos : 0 < g.count := by
    have h3 := List.length_pos_of_mem hp
    have h4 := hL.count_ge
    omega
  obtain ⟨g1, r, hd, _, _⟩ := disable_total g p cb hg
    (fun _ => ⟨hcpos, hcount, fun _ => ⟨hp, hpm⟩⟩)
  obtain ⟨_, hcases⟩ := disable_cases g g1 p cb r hd
  rcases hcases with ⟨_, _, hone, hrf, hg1⟩ | ⟨_, _, hgt, _, _, hrt, hg1⟩ | ⟨h, _⟩ | ⟨h, _⟩
  · have hheap1 : g1.heap
        = setProcess g.heap p { g.heap p with enabled := EnabledStatus.DISABLING } := by
      rw [hg1, spawn_heap]
    have hself1 : g1.self = g.self := by rw [hg1, spawn_self]
    have hproc1 : g1.processes = g.processes := by rw [hg1, spawn_processes]
    have hpq1 : g1.pqueue = g.pqueue := by rw [hg1, spawn_pqueue]
    have hdp1 : g1.disabledProcesses = g.disabledProcesses := by
      rw [hg1, spawn_disabledProcesses]
    have hdw1 : g1.disableWaitlist = g.disableWaitlist ++ [DisableWaiter.mk p cb] := by
      rw [hg1, spawn_disableWaitlist]
    have hdc1 : g1.disablingCount = g.disablingCount + 1 := by
      rw [hg1, spawn_disablingCount]
    have htag1 : (g1.heap p).enabled = EnabledStatus.DISABLING := by
      rw [hheap1, setProcess_same]
    have hgrp1 : (g1.heap p).group = some g1.self := by
      rw [hheap1, setProcess_same, hself1]
      exact hg
    obtain ⟨g2, acts2, he⟩ := enable_total g1 p acts hgrp1
      (fun h => by rw [htag1] at h; cases h)
    obtain ⟨_, hc2⟩ := enable_cases g1 g2 p acts acts2 he
    rcases hc2 with ⟨_, hg2, _⟩ | ⟨h, _⟩ | ⟨h, _⟩
    · have hheap2 : g2.heap
          = setProcess g1.heap p { g1.heap p with enabled := EnabledStatus.ENABLED } := by
        rw [hg2]
      have hproc2 : g2.processes = g1.processes := by rw [hg2]
      have hpq2 : g2.pqueue = g1.pqueue := by rw [hg2]
      have hdp2 : g2.disabledProcesses = g1.disabledProcesses := by rw [hg2]
      have hdw2 : g2.disableWaitlist
          = g1.disableWaitlist.filter (fun w => decide (w.process ≠ p)) := by rw [hg2]
      have hdc2 : g2.disablingCount = g1.disablingCount - 1 := by rw [hg2]
      refine ⟨hpm, g1, r, g2, acts2, hd, ?_, ?_, ?_, he, ?_, ?_, ?_, ?_, ?_, ?_, ?_, ?_, ?_,
        ?_⟩
      · rw [hrf]
        constructor
        · intro h
          cases h
        · intro h
          omega
      · intro h
        rw [hrf] at h
        cases h
      · intro _
        refine ⟨htag1, ?_, ?_, ?_⟩
        · rw [hproc1]
          exact hp
        · rw [hpq1]
          exact hpm
        · rw [hdp1]
          exact hpd
      · rw [hheap2, setProcess_same]
      · rw [hproc2, hproc1]
        exact hp
      · rw [hpq2, hpq1]
        exact hpm
      · rw [hdp2, hdp1]
        exact hpd
      · rw [hheap2, hheap1]
        exact setProcess_retag_back g.heap p EnabledStatus.DISABLING htag
      · exact List.Perm.of_eq (by rw [hproc2, hproc1])
      · exact List.Perm.of_eq (by rw [hpq2, hpq1])
      · rw [hdp2, hdp1]
      · rw [hdw2, hdw1]
        exact filter_ne_append_self _ p cb hne
      · rw [hdc2, hdc1]
        omega
    · rw [htag1] at h
      cases h
    · rw [htag1] at h
      cases h
  · have hheap1 : g1.heap
        = setProcess g.heap p { g.heap p with enabled := EnabledStatus.DISABLED } := by
      rw [hg1]
    have hself1 : g1.self = g.self := by rw [hg1]
    have hproc1 : g1.processes = g.processes.erase p := by rw [hg1]
    have hpq1 : g1.pqueue = g.pqueue.eraseProcess p := by rw [hg1]
    have hdp1 : g1.disabledProcesses = g.disabledProcesses ++ [p] := by rw [hg1]
    have hdw1 : g1.disableWaitlist = g.disableWaitlist := by rw [hg1]
    have hdc1 : g1.disablingCount = g.disablingCount := by rw [hg1]
    have htag1 : (g1.heap p).enabled = EnabledStatus.DISABLED := by
      rw [hheap1, setProcess_same]
    have hgrp1 : (g1.heap p).group = some g1.self := by
      rw [hheap1, setProcess_same, hself1]
      exact hg
    have hin1 : p ∈ g1.disabledProcesses := by
      rw [hdp1]
      exact List.mem_append_right _ (List.mem_singleton_self p)
    obtain ⟨g2, acts2, he⟩ := enable_total g1 p acts hgrp1 (fun _ => hin1)
    obtain ⟨_, hc2⟩ := enable_cases g1 g2 p acts acts2 he
    rcases hc2 with ⟨h, _⟩ | ⟨_, _, hg2, _⟩ | ⟨h, _⟩
    · rw [htag1] at h
      cases h
    · have hheap2 : g2.heap
          = setProcess g1.heap p { g1.heap p with enabled := EnabledStatus.ENABLED } := by
        rw [hg2]
      have hproc2 : g2.processes = g1.processes ++ [p] := by rw [hg2]
      have hpq2 : g2.pqueue = g1.pqueue.push p (g1.heap p).usage := by rw [hg2]
      have hdp2 : g2.disabledProcesses = g1.disabledProcesses.erase p := by rw [hg2]
      have hdw2 : g2.disableWaitlist = g1.disableWaitlist := by rw [hg2]
      have hdc2 : g2.disablingCount = g1.disablingCount := by rw [hg2]
      have hmem2 : g2.pqueue.members = g.pqueue.members.erase p ++ [p] := by
        rw [hpq2, members_push, hpq1, members_eraseProcess]
      have hdp3 : g2.disabledProcesses = g.disabledProcesses := by
        rw [hdp2, hdp1, List.erase_append_right _ hpd, List.erase_cons_head,
          List.append_nil]
      refine ⟨hpm, g1, r, g2, acts2, hd, ?_, ?_, ?_, he, ?_, ?_, ?_, ?_, ?_, ?_, ?_, hdp3, ?_,
        ?_⟩
      · rw [hrt]
        exact ⟨fun _ => hgt, fun _ => rfl⟩
      · intro _
        refine ⟨htag1, ?_, ?_, hin1⟩
        · rw [hproc1]
          exact fun h => ((hnd.mem_erase_iff).1 h).1 rfl
        · rw [hpq1, members_eraseProcess]
          exact fun h => ((hndm.mem_erase_iff).1 h).1 rfl
      · intro h
        rw [hrt] at h
        cases h
      · rw [hheap2, setProcess_same]
      · rw [hproc2]
        exact List.mem_append_right _ (List.mem_singleton_self p)
      · rw [hmem2]
        exact List.mem_append_right _ (List.mem_singleton_self p)
      · rw [hdp3]
        exact hpd
      · rw [hheap2, hheap1]
        exact setProcess_retag_back g.heap p EnabledStatus.DISABLED htag
      · rw [hproc2, hproc1]
        exact erase_append_perm _ _ hp
      · rw [hmem2]
        exact erase_append_perm _ _ hpm
      · rw [hdw2, hdw1]
      · rw [hdc2, hdc1]
    · rw [htag1] at h
      cases h
  · rw [htag] at h
    cases h
  · rw [htag] at h
    cases h

/-- Witness for C12: process 1 of the group with two enabled processes, whose
`disable` is synchronous. -/
theorem disable_enable_round_trip_witness :
    (Reachable (fun _ => True) twoAttached ∧ 1 ∈ twoAttached.processes ∧
      (twoAttached.heap 1).enabled = EnabledStatus.ENABLED) ∧
    (1 ∈ twoAttached.pqueue.members ∧
    ∃ g1 r g2 acts2,
      twoAttached.disable 1 7 = Except.ok (g1, r) ∧
      (r = true ↔ 1 < twoAttached.count - twoAttached.disablingCount) ∧
      (r = true → (g1.heap 1).enabled = EnabledStatus.DISABLED ∧ 1 ∉ g1.processes ∧
        1 ∉ g1.pqueue.members ∧ 1 ∈ g1.disabledProcesses) ∧
      (r = false → (g1.heap 1).enabled = EnabledStatus.DISABLING ∧ 1 ∈ g1.processes ∧
        1 ∈ g1.pqueue.members ∧ 1 ∉ g1.disabledProcesses) ∧
      g1.enable 1 [] = Except.ok (g2, acts2) ∧
      (g2.heap 1).enabled = EnabledStatus.ENABLED ∧ 1 ∈ g2.processes ∧
      1 ∈ g2.pqueue.members ∧ 1 ∉ g2.disabledProcesses ∧
      g2.heap = twoAttached.heap ∧
      g2.processes.Perm twoAttached.processes ∧
      g2.pqueue.members.Perm twoAttached.pqueue.members ∧
      g2.disabledProcesses = twoAttached.disabledProcesses ∧
      g2.disableWaitlist = twoAttached.disableWaitlist ∧
      g2.disablingCount = twoAttached.disablingCount) :=
  ⟨⟨twoAttached_reachable, List.mem_cons_self 1 [2], rfl⟩,
    disable_enable_round_trip (fun _ => True) twoAttached twoAttached_reachable 1 7 []
      (List.mem_cons_self 1 [2]) rfl⟩

/-! ## C22: the assertions on the disable wait list -/

/-- C22. In every state reached from an empty group by calls of `attach`, `detach`,
`detachAll`, `enable` and `disable` (and of `get` without restart and the drain
of the get wait list): every entry of `disableWaitlist` names a process that is
tagged DISABLING and is in `processes`, and every DISABLING process of
`processes` has an entry; `attach` of any process without a group returns, so
that the assertion of its drain loop holds at every entry it visits, and
`detachAll` returns, so that its assertion holds at every entry as well; both
hand over the callbacks of all entries. -/
theorem waitlist_assertions_hold (allowed : Op → Prop) (g : Group)
    (hreach : Reachable allowed g) :
    (∀ w ∈ g.disableWaitlist,
      (g.heap w.process).enabled = EnabledStatus.DISABLING ∧ w.process ∈ g.processes) ∧
    (∀ x ∈ g.processes, (g.heap x).enabled = EnabledStatus.DISABLING →
      ∃ w ∈ g.disableWaitlist, w.process = x) ∧
    (∀ (p : Nat) (acts : List Callback), (g.heap p).group = none →
      ∃ g1, g.attach p acts = Except.ok (g1, acts ++ disableCallbacks g.disableWaitlist)) ∧
    (∀ (p : Nat) (acts : List Callback), (g.heap p).group = none →
      ∃ g2, Group.attachLoop g.disableWaitlist (g.addEnabled p) acts
        = Except.ok (g2, acts ++ disableCallbacks g.disableWaitlist)) ∧
    (∀ acts : List Callback,
      ∃ g1, g.detachAll acts = Except.ok (g1, acts ++ disableCallbacks g.disableWaitlist)) := by
  have hL := ListInv_reachable allowed g hreach
  have hW := WaitInv_reachable allowed g hreach
  have hattach : ∀ (p : Nat) (acts : List Callback), (g.heap p).group = none →
      ∃ g1, g.attach p acts
        = Except.ok (g1, acts ++ disableCallbacks g.disableWaitlist) := by
    intro p acts hgrp
    obtain ⟨g1, h, _⟩ := attach_total g p acts hgrp
      (fun w hw => ⟨hW.waiters w hw, hW.listed w hw⟩)
      (fun w hw => hL.index.mem_iff.2 (hW.listed w hw))
      (fun w hw e => not_mem_processes_of_group_none g p hgrp hL (e ▸ hW.listed w hw))
    exact ⟨g1, h⟩
  refine ⟨fun w hw => ⟨hW.waiters w hw, hW.listed w hw⟩, ?_, hattach, ?_, ?_⟩
  · intro x hx ht
    obtain ⟨w, hw1, hw2⟩ := List.mem_map.1 (hW.waits x hx ht)
    exact ⟨w, hw1, hw2⟩
  · intro p acts hgrp
    obtain ⟨g1, h⟩ := hattach p acts hgrp
    obtain ⟨_, g2, hloop, _⟩ := attach_cases g g1 p acts _ h
    exact ⟨g2, hloop⟩
  · intro acts
    have hloop := detachAllLoop_ok (Group.clearGroups g.processes g.heap) g.disableWaitlist
      acts (fun w hw => (clearGroups_enabled _ _ _).trans (hW.waiters w hw))
    have hd : g.detachAll acts = Except.ok
        ({ g with
            heap := Group.clearGroups g.processes g.heap
            processes := []
            disabledProcesses := []
            pqueue := []
            count := 0
            disablingCount := 0
            disabledCount := 0
            disableWaitlist := [] },
          acts ++ disableCallbacks g.disableWaitlist) := by
      simp only [Group.detachAll, hloop]
    exact ⟨_, hd⟩

/-- Witness for C22: the group whose only process is DISABLING with two entries in
the disable wait list. -/
theorem waitlist_assertions_hold_witness :
    Reachable (fun _ => True) afterDisableTwice ∧
    afterDisableTwice.disableWaitlist
      = [{ process := 1, callback := 7 }, { process := 1, callback := 8 }] ∧
    (∀ w ∈ afterDisableTwice.disableWaitlist,
      (afterDisableTwice.heap w.process).enabled = EnabledStatus.DISABLING ∧
      w.process ∈ afterDisableTwice.processes) ∧
    (∀ x ∈ afterDisableTwice.processes,
      (afterDisableTwice.heap x).enabled = EnabledStatus.DISABLING →
      ∃ w ∈ afterDisableTwice.disableWaitlist, w.process = x) ∧
    (∀ (p : Nat) (acts : List Callback), (afterDisableTwice.heap p).group = none →
      ∃ g1, afterDisableTwice.attach p acts
        = Except.ok (g1, acts ++ disableCallbacks afterDisableTwice.disableWaitlist)) ∧
    (∀ (p : Nat) (acts : List Callback), (afterDisableTwice.heap p).group = none →
      ∃ g2, Group.attachLoop afterDisableTwice.disableWaitlist
          (afterDisableTwice.addEnabled p) acts
        = Except.ok (g2, acts ++ disableCallbacks afterDisableTwice.disableWaitlist)) ∧
    (∀ acts : List Callback,
      ∃ g1, afterDisableTwice.detachAll acts
        = Except.ok (g1, acts ++ disableCallbacks afterDisableTwice.disableWaitlist)) :=
  ⟨afterDisableTwice_reachable, rfl,
    waitlist_assertions_hold (fun _ => True) afterDisableTwice afterDisableTwice_reachable⟩

/-! ## C21: back-references after `detachAll` -/

/-- C21, evaluated on the code: after `attach(1)`, `attach(2)`, `disable(1, 7)` and
`detachAll` on an empty group, both lists are empty and process 2 refers to no
group, but process 1, DISABLED, still refers to the group; so the `getGroup()`
precondition of `enable(1)` and `detach(1)` holds: `enable(1)` goes on to erase
process 1 from `disabledProcesses` through an iterator that `detachAll`
invalidated, and `detach(1)` fails the assertion that `disabledProcesses` is not
empty. -/
theorem detachAll_keeps_disabled_backref :
    run emptyGroup [Op.attach 1, Op.attach 2, Op.disable 1 7, Op.detachAll]
      = Except.ok afterDetachAllOfDisabled ∧
    afterDetachAllOfDisabled.processes = [] ∧
    afterDetachAllOfDisabled.disabledProcesses = [] ∧
    afterDetachAllOfDisabled.disabledCount = 0 ∧
    (afterDetachAllOfDisabled.heap 2).group = none ∧
    (afterDetachAllOfDisabled.heap 1).enabled = EnabledStatus.DISABLED ∧
    (afterDetachAllOfDisabled.heap 1).group = some afterDetachAllOfDisabled.self ∧
    afterDetachAllOfDisabled.enable 1 [] = Except.error Fault.invalidIterator ∧
    afterDetachAllOfDisabled.detach 1 [] = Except.error Fault.assertion :=
  ⟨rfl, rfl, rfl, rfl, rfl, rfl, rfl, rfl, rfl⟩

/-! ## C24: the detach decision of `Pool::updateProcessMetrics` -/

theorem setMetrics_sameIdentity (heap : Nat → PoolProcess) (p : Nat) (m : ProcessMetrics) :
    Pool.SameIdentity (Pool.setMetrics heap p m) heap := by
  intro q
  by_cases hq : q = p
  · subst hq
    simp [Pool.setMetrics]
  · simp [Pool.setMetrics, hq]

theorem queuedForDetach_congr (groups : Nat → Options)
    (allMetrics : Int → Option ProcessMetrics) (heap1 heap : Nat → PoolProcess)
    (h : Pool.SameIdentity heap1 heap) (p : Nat) :
    Pool.queuedForDetach groups allMetrics heap1 p
      = Pool.queuedForDetach groups allMetrics heap p := by
  obtain ⟨h1, h2, h3, h4⟩ := h p
  unfold Pool.queuedForDetach
  rw [h1, h2, h3, h4]

/-- What `updateProcessMetrics` returns when no process with metrics has a null
group. -/
theorem updateProcessMetrics_ok (groups : Nat → Options)
    (allMetrics : Int → Option ProcessMetrics) :
    ∀ (ps : List Nat) (heap : Nat → PoolProcess) (out : List Nat),
      (∀ p ∈ ps, allMetrics (heap p).pid ≠ none → (heap p).group ≠ none) →
      ∃ heap1, Pool.updateProcessMetrics groups allMetrics ps heap out
          = Except.ok (heap1, out ++ ps.filter (Pool.queuedForDetach groups allMetrics heap)) ∧
        Pool.SameIdentity heap1 heap ∧
        (∀ p ∈ ps, ∀ m, allMetrics (heap p).pid = some m → (heap1 p).metrics = m) ∧
        (∀ q, q ∉ ps → heap1 q = heap q) := by
  intro ps
  induction ps with
  | nil =>
    intro heap out _
    refine ⟨heap, by simp [Pool.updateProcessMetrics], fun q => ⟨rfl, rfl, rfl, rfl⟩, ?_, ?_⟩
    · intro p hp
      exact absurd hp (List.not_mem_nil p)
    · intro q _
      rfl
  | cons p rest ih =>
    intro heap out hgrp
    cases hm : allMetrics (heap p).pid with
    | none =>
      have hrest : ∀ x ∈ rest, allMetrics (heap x).pid ≠ none → (heap x).group ≠ none :=
        fun x hx => hgrp x (List.mem_cons_of_mem _ hx)
      have hq : Pool.queuedForDetach groups allMetrics heap p
          = (!(heap p).isDummy && !(heap p).osProcessExists) := by
        simp only [Pool.queuedForDetach, hm]
      by_cases hc : (!(heap p).isDummy && !(heap p).osProcessExists) = true
      · obtain ⟨heap1, hrun, hsame, hmet, hout⟩ := ih heap (out ++ [p]) hrest
        refine ⟨heap1, ?_, hsame, ?_, ?_⟩
        · simp only [Pool.updateProcessMetrics, hm]
          rw [if_pos hc, hrun, List.filter_cons_of_pos (by rw [hq]; exact hc),
            List.append_assoc]
          rfl
        · intro x hx m hxm
          rcases List.mem_cons.1 hx with h1 | h1
          · rw [h1, hm] at hxm
            cases hxm
          · exact hmet x h1 m hxm
        · intro q hq1
          exact hout q (fun h => hq1 (List.mem_cons_of_mem _ h))
      · obtain ⟨heap1, hrun, hsame, hmet, hout⟩ := ih heap out hrest
        refine ⟨heap1, ?_, hsame, ?_, ?_⟩
        · simp only [Pool.updateProcessMetrics, hm]
          rw [if_neg hc, hrun, List.filter_cons_of_neg (by rw [hq]; exact hc)]
        · intro x hx m hxm
          rcases List.mem_cons.1 hx with h1 | h1
          · rw [h1, hm] at hxm
            cases hxm
          · exact hmet x h1 m hxm
        · intro q hq1
          exact hout q (fun h => hq1 (List.mem_cons_of_mem _ h))
    | some m =>
      have hsame1 := setMetrics_sameIdentity heap p m
      have hrest : ∀ x ∈ rest, allMetrics (Pool.setMetrics heap p m x).pid ≠ none →
          (Pool.setMetrics heap p m x).group ≠ none := by
        intro x hx
        rw [(hsame1 x).1, (hsame1 x).2.1]
        exact hgrp x (List.mem_cons_of_mem _ hx)
      have hfil : rest.filter (Pool.queuedForDetach groups allMetrics (Pool.setMetrics heap p m))
          = rest.filter (Pool.queuedForDetach groups allMetrics heap) := by
        apply List.filter_congr
        intro x _
        exact queuedForDetach_congr groups allMetrics _ _ hsame1 x
      have hmetp : (Pool.setMetrics heap p m p).metrics = m := by
        simp [Pool.setMetrics]
      have hfinal : ∀ heap1 : Nat → PoolProcess,
          Pool.SameIdentity heap1 (Pool.setMetrics heap p m) →
          (∀ x ∈ rest, ∀ m1, allMetrics (Pool.setMetrics heap p m x).pid = some m1 →
            (heap1 x).metrics = m1) →
          (∀ q, q ∉ rest → heap1 q = Pool.setMetrics heap p m q) →
          Pool.SameIdentity heap1 heap ∧
          (∀ x ∈ p :: rest, ∀ m1, allMetrics (heap x).pid = some m1 →
            (heap1 x).metrics = m1) ∧
          (∀ q, q ∉ p :: rest → heap1 q = heap q) := by
        intro heap1 hsame hmet hout
        refine ⟨?_, ?_, ?_⟩
        · intro q
          obtain ⟨a1, a2, a3, a4⟩ := hsame q
          obtain ⟨b1, b2, b3, b4⟩ := hsame1 q
          exact ⟨a1.trans b1, a2.trans b2, a3.trans b3, a4.trans b4⟩
        · intro x hx m1 hxm
          by_cases hxr : x ∈ rest
          · exact hmet x hxr m1 (by rw [(hsame1 x).1]; exact hxm)
          · have hxp : x = p := by
              rcases List.mem_cons.1 hx with h1 | h1
              · exact h1
              · exact absurd h1 hxr
            rw [hout x hxr, hxp, hmetp]
            rw [hxp, hm] at hxm
            exact Option.some.inj hxm
        · intro q hq1
          have hqr : q ∉ rest := fun h => hq1 (List.mem_cons_of_mem _ h)
          have hqp : q ≠ p := fun h => hq1 (h ▸ List.mem_cons_self _ _)
          rw [hout q hqr]
          simp [Pool.setMetrics, hqp]
      cases hg : (heap p).group with
      | none => exact absurd hg (hgrp p (List.mem_cons_self _ _) (by rw [hm]; simp))
      | some grp =>
        have hg1 : (Pool.setMetrics heap p m p).group = some grp := by
          rw [(hsame1 p).2.1, hg]
        have hq : Pool.queuedForDetach groups allMetrics heap p
            = (decide (0 < (groups grp).memoryLimit)
              && decide ((groups grp).memoryLimit < m.realMemory / 1024)) := by
          simp only [Pool.queuedForDetach, hm, hg]
        by_cases hc : 0 < (groups grp).memoryLimit
            ∧ (groups grp).memoryLimit < m.realMemory / 1024
        · obtain ⟨heap1, hrun, hsame, hmet, hout⟩ :=
            ih (Pool.setMetrics heap p m) (out ++ [p]) hrest
          obtain ⟨c1, c2, c3⟩ := hfinal heap1 hsame hmet hout
          refine ⟨heap1, ?_, c1, c2, c3⟩
          simp only [Pool.updateProcessMetrics, hm, hg1, hmetp]
          rw [if_pos hc, hrun, hfil, List.filter_cons_of_pos (by rw [hq]; simp [hc]),
            List.append_assoc]
          rfl
        · obtain ⟨heap1, hrun, hsame, hmet, hout⟩ :=
            ih (Pool.setMetrics heap p m) out hrest
          obtain ⟨c1, c2, c3⟩ := hfinal heap1 hsame hmet hout
          refine ⟨heap1, ?_, c1, c2, c3⟩
          simp only [Pool.updateProcessMetrics, hm, hg1, hmetp]
          rw [if_neg hc, hrun, hfil, List.filter_cons_of_neg (by
            rw [hq]
            simpa using hc)]

/-- The call dereferences a null group when a process with metrics has none. -/
theorem updateProcessMetrics_error (groups : Nat → Options)
    (allMetrics : Int → Option ProcessMetrics) :
    ∀ (ps : List Nat) (heap : Nat → PoolProcess) (out : List Nat),
      (∃ p ∈ ps, allMetrics (heap p).pid ≠ none ∧ (heap p).group = none) →
      Pool.updateProcessMetrics groups allMetrics ps heap out
        = Except.error Fault.nullPointer := by
  intro ps
  induction ps with
  | nil =>
    rintro heap out ⟨p, hp, _⟩
    exact absurd hp (List.not_mem_nil p)
  | cons p rest ih =>
    rintro heap out ⟨x, hx, hxm, hxg⟩
    cases hm : allMetrics (heap p).pid with
    | none =>
      have hxr : x ∈ rest := by
        rcases List.mem_cons.1 hx with h1 | h1
        · rw [h1, hm] at hxm
          exact absurd rfl hxm
        · exact h1
      have h1 := ih heap out ⟨x, hxr, hxm, hxg⟩
      have h2 := ih heap (out ++ [p]) ⟨x, hxr, hxm, hxg⟩
      by_cases hc : (!(heap p).isDummy && !(heap p).osProcessExists) = true
      · simp only [Pool.updateProcessMetrics, hm]
        rw [if_pos hc]
        exact h2
      · simp only [Pool.updateProcessMetrics, hm]
        rw [if_neg hc]
        exact h1
    | some m =>
      have hsame1 := setMetrics_sameIdentity heap p m
      cases hg : (heap p).group with
      | none =>
        have hg1 : (Pool.setMetrics heap p m p).group = none := by
          rw [(hsame1 p).2.1, hg]
        simp only [Pool.updateProcessMetrics, hm, hg1]
      | some grp =>
        have hg1 : (Pool.setMetrics heap p m p).group = some grp := by
          rw [(hsame1 p).2.1, hg]
        have hxr : x ∈ rest := by
          rcases List.mem_cons.1 hx with h1 | h1
          · rw [h1, hg] at hxg
            cases hxg
          · exact h1
        have hx1 : ∃ y ∈ rest, allMetrics (Pool.setMetrics heap p m y).pid ≠ none ∧
            (Pool.setMetrics heap p m y).group = none :=
          ⟨x, hxr, by rw [(hsame1 x).1]; exact hxm, by rw [(hsame1 x).2.1]; exact hxg⟩
        have h1 := ih (Pool.setMetrics heap p m) out hx1
        have h2 := ih (Pool.setMetrics heap p m) (out ++ [p]) hx1
        simp only [Pool.updateProcessMetrics, hm, hg1]
        split
        · exact h2
        · exact h1

/-- C24, against the claim as stated: a process whose real memory is 525311 KB, that
is 512 MB and 1023 KB, in a group with a memory limit of 512 MB, has metrics and
is not queued for detach: `525311 / 1024` is 512, which is not above 512. -/
theorem memory_above_limit_not_queued :
    limitOptions.memoryLimit = 512 ∧ 512 * 1024 < (525311 : Nat) ∧
    measuredMetrics (measuredHeap 1).pid = some { realMemory := 525311 } ∧
    (measuredHeap 1).group = some 0 ∧
    ∃ heap1, Pool.updateProcessMetrics (fun _ => limitOptions) measuredMetrics [1]
      measuredHeap [] = Except.ok (heap1, []) := by
  refine ⟨rfl, by decide, rfl, rfl, _, rfl⟩

/-- C24, amended. For every process list, metrics lookup, store of processes and
group options: `updateProcessMetrics` returns exactly when every listed process
whose pid has metrics has a group; and whenever it returns, `processesToDetach`
is the old list followed by the listed processes, in list order and once per
occurrence, that satisfy the decision of the specification.  For a process
with metrics that decision holds exactly when the memory limit of its group is
positive and its real memory is at least `(memoryLimit + 1) * 1024` KB, so a
process whose real memory is above the limit by less than one MB is not queued,
and none is queued for a limit of 0; for a process without metrics it holds
exactly when the process is not a dummy and no longer exists.  The call changes
nothing of a process but its metrics, which become those found for its pid. -/
theorem updateProcessMetrics_decision (groups : Nat → Options)
    (allMetrics : Int → Option ProcessMetrics) (ps : List Nat) (heap : Nat → PoolProcess)
    (out : List Nat) :
    ((∃ r, Pool.updateProcessMetrics groups allMetrics ps heap out = Except.ok r) ↔
      ∀ p ∈ ps, allMetrics (heap p).pid ≠ none → (heap p).group ≠ none) ∧
    (∀ heap1 out1, Pool.updateProcessMetrics groups allMetrics ps heap out
        = Except.ok (heap1, out1) →
      out1 = out ++ ps.filter (Pool.queuedForDetach groups allMetrics heap) ∧
      (∀ p, p ∈ ps.filter (Pool.queuedForDetach groups allMetrics heap) ↔
        p ∈ ps ∧ Pool.queuedForDetach groups allMetrics heap p = true) ∧
      (∀ p, out1.count p = out.count p +
        if Pool.queuedForDetach groups allMetrics heap p = true then ps.count p else 0) ∧
      Pool.SameIdentity heap1 heap ∧
      (∀ p ∈ ps, ∀ m, allMetrics (heap p).pid = some m → (heap1 p).metrics = m) ∧
      (∀ q, q ∉ ps → heap1 q = heap q)) ∧
    (∀ p m grp, allMetrics (heap p).pid = some m → (heap p).group = some grp →
      (Pool.queuedForDetach groups allMetrics heap p = true ↔
        0 < (groups grp).memoryLimit ∧ ((groups grp).memoryLimit + 1) * 1024 ≤ m.realMemory) ∧
      (m.realMemory < ((groups grp).memoryLimit + 1) * 1024 →
        Pool.queuedForDetach groups allMetrics heap p = false) ∧
      ((groups grp).memoryLimit = 0 →
        Pool.queuedForDetach groups allMetrics heap p = false)) ∧
    (∀ p, allMetrics (heap p).pid = none →
      (Pool.queuedForDetach groups allMetrics heap p = true ↔
        (heap p).isDummy = false ∧ (heap p).osProcessExists = false)) := by
  refine ⟨⟨?_, ?_⟩, ?_, ?_, ?_⟩
  · rintro ⟨r, hr⟩ p hp hm
    intro hg
    rw [updateProcessMetrics_error groups allMetrics ps heap out ⟨p, hp, hm, hg⟩] at hr
    cases hr
  · intro h
    obtain ⟨heap1, hrun, _⟩ := updateProcessMetrics_ok groups allMetrics ps heap out h
    exact ⟨_, hrun⟩
  · intro heap1 out1 hrun
    have hgrp : ∀ p ∈ ps, allMetrics (heap p).pid ≠ none → (heap p).group ≠ none := by
      intro p hp hm hg
      rw [updateProcessMetrics_error groups allMetrics ps heap out ⟨p, hp, hm, hg⟩] at hrun
      cases hrun
    obtain ⟨heap2, hrun2, hsame, hmet, hout⟩ :=
      updateProcessMetrics_ok groups allMetrics ps heap out hgrp
    rw [hrun2] at hrun
    simp only [Except.ok.injEq, Prod.mk.injEq] at hrun
    obtain ⟨h1, h2⟩ := hrun
    subst h1
    subst h2
    refine ⟨rfl, ?_, ?_, hsame, hmet, hout⟩
    · intro p
      exact List.mem_filter
    · intro p
      rw [List.count_append]
      by_cases hq : Pool.queuedForDetach groups allMetrics heap p = true
      · rw [if_pos hq, List.count_filter hq]
      · rw [if_neg hq]
        have h0 : (ps.filter (Pool.queuedForDetach groups allMetrics heap)).count p = 0 :=
          List.count_eq_zero.2 (fun h => hq (List.mem_filter.1 h).2)
        rw [h0]
  · intro p m grp hm hg
    have hq : Pool.queuedForDetach groups allMetrics heap p
        = (decide (0 < (groups grp).memoryLimit)
          && decide ((groups grp).memoryLimit < m.realMemory / 1024)) := by
      simp only [Pool.queuedForDetach, hm, hg]
    refine ⟨?_, ?_, ?_⟩
    · rw [hq, Bool.and_eq_true, decide_eq_true_eq, decide_eq_true_eq]
      constructor
      · rintro ⟨h1, h2⟩
        exact ⟨h1, by omega⟩
      · rintro ⟨h1, h2⟩
        exact ⟨h1, by omega⟩
    · intro h
      rw [hq]
      have h2 : ¬ (groups grp).memoryLimit < m.realMemory / 1024 := by omega
      simp [h2]
    · intro h
      rw [hq]
      simp [h]
  · intro p hm
    have hq : Pool.queuedForDetach groups allMetrics heap p
        = (!(heap p).isDummy && !(heap p).osProcessExists) := by
      simp only [Pool.queuedForDetach, hm]
    rw [hq]
    simp

/-! ## C23: the three drains of the get wait list -/

theorem callVector_append (xs ys : List GetAction) (called : List Callback) :
    Group.callVector (xs ++ ys) called =
      match Group.callVector xs called with
      | Except.error f => Except.error f
      | Except.ok c => Group.callVector ys c := by
  induction xs generalizing called with
  | nil => rfl
  | cons a xs ih =>
    simp only [List.cons_append, Group.callVector]
    cases a.callback with
    | none => rfl
    | some cb => exact ih _

theorem callVector_snoc (xs : List GetAction) (acts : List Callback) (cb : Nat)
    (s : Option Session)
    (h : ∀ pre, Group.callVector xs pre = Except.ok (pre ++ acts)) (pre : List Callback) :
    Group.callVector (xs ++ [{ callback := some cb, session := s }]) pre
      = Except.ok (pre ++ (acts ++ [Callback.bound cb s none])) := by
  rw [callVector_append, h pre]
  simp only [Group.callVector, List.append_assoc]

theorem callVector_length (xs : List GetAction) (pre c : List Callback)
    (h : Group.callVector xs pre = Except.ok c) : c.length = pre.length + xs.length := by
  induction xs generalizing pre with
  | nil =>
    simp only [Group.callVector, Except.ok.injEq] at h
    rw [← h]
    rfl
  | cons a xs ih =>
    simp only [Group.callVector] at h
    cases hcb : a.callback with
    | none =>
      rw [hcb] at h
      cases h
    | some cb =>
      rw [hcb] at h
      have := ih _ h
      simp only [List.length_append, List.length_singleton, List.length_cons,
        List.length_nil] at this ⊢
      omega

/-- The vector loop and the loop of `assignSessionsToGetWaiters` run in step: they
fail alike, and when they return they leave the same group, the vector holding
the actions whose calls are the actions of the drain. -/
theorem quickVectorLoop_drain :
    ∀ (ws : List GetWaiter) (g : Group) (actions : List GetAction) (acts : List Callback),
      (∀ pre, Group.callVector actions pre = Except.ok (pre ++ acts)) →
      (∀ f, Group.assignSessionsLoop ws g acts = Except.error f →
        Group.quickVectorLoop ws g actions = Except.error f) ∧
      (∀ g1 acts1, Group.assignSessionsLoop ws g acts = Except.ok (g1, acts1) →
        ∃ actions1, Group.quickVectorLoop ws g actions = Except.ok (g1, actions1) ∧
          (∀ pre, Group.callVector actions1 pre = Except.ok (pre ++ acts1)) ∧
          actions1.length ≤ actions.length + ws.length) := by
  intro ws
  induction ws with
  | nil =>
    intro g actions acts hrel
    constructor
    · intro f h
      simp [Group.assignSessionsLoop] at h
    · intro g1 acts1 h
      simp only [Group.assignSessionsLoop, Except.ok.injEq, Prod.mk.injEq] at h
      refine ⟨actions, ?_, ?_, le_refl _⟩
      · simp only [Group.quickVectorLoop, h.1]
      · rw [← h.2]
        exact hrel
  | cons w ws ih =>
    intro g actions acts hrel
    cases ht : g.pqueue.top with
    | none =>
      constructor
      · intro f h
        simp [Group.assignSessionsLoop, ht] at h
      · intro g1 acts1 h
        simp only [Group.assignSessionsLoop, ht, Except.ok.injEq, Prod.mk.injEq] at h
        refine ⟨actions, ?_, ?_, Nat.le_add_right _ _⟩
        · simp only [Group.quickVectorLoop, ht, h.1]
        · rw [← h.2]
          exact hrel
    | some p =>
      cases hf : (g.heap p).atFullCapacity with
      | true =>
        constructor
        · intro f h
          simp [Group.assignSessionsLoop, ht, hf] at h
        · intro g1 acts1 h
          simp only [Group.assignSessionsLoop, ht, hf, if_true, Except.ok.injEq,
            Prod.mk.injEq] at h
          refine ⟨actions, ?_, ?_, Nat.le_add_right _ _⟩
          · simp only [Group.quickVectorLoop, ht, hf, if_true, h.1]
          · rw [← h.2]
            exact hrel
      | false =>
        cases hns : g.newSession with
        | error f0 =>
          constructor
          · intro f h
            simp only [Group.assignSessionsLoop, ht, hf, hns, Bool.false_eq_true, if_false] at h
            simp only [Group.quickVectorLoop, ht, hf, hns, Bool.false_eq_true, if_false]
            rw [Except.error.injEq] at h ⊢
            exact h
          · intro g1 acts1 h
            simp [Group.assignSessionsLoop, ht, hf, hns] at h
        | ok v =>
          obtain ⟨g2, s⟩ := v
          have hrel2 := callVector_snoc actions acts w.callback (some s) hrel
          obtain ⟨ih1, ih2⟩ := ih g2
            (actions ++ [{ callback := some w.callback, session := some s }])
            (acts ++ [Callback.bound w.callback (some s) none]) hrel2
          constructor
          · intro f h
            simp only [Group.assignSessionsLoop, ht, hf, hns, Bool.false_eq_true, if_false] at h
            simp only [Group.quickVectorLoop, ht, hf, hns, Bool.false_eq_true, if_false]
            exact ih1 f h
          · intro g1 acts1 h
            simp only [Group.assignSessionsLoop, ht, hf, hns, Bool.false_eq_true, if_false] at h
            obtain ⟨actions1, h1, h2, h3⟩ := ih2 g1 acts1 h
            refine ⟨actions1, ?_, h2, ?_⟩
            · simp only [Group.quickVectorLoop, ht, hf, hns, Bool.false_eq_true, if_false]
              exact h1
            · simp only [List.length_append, List.length_singleton, List.length_cons,
                List.length_nil] at h3 ⊢
              omega

theorem take_set_succ (l : List GetAction) (n : Nat) (a : GetAction) (h : n < l.length) :
    (l.set n a).take (n + 1) = l.take n ++ [a] := by
  induction l generalizing n with
  | nil => simp at h
  | cons x l ih =>
    cases n with
    | zero => simp
    | succ n =>
      simp only [List.length_cons, Nat.add_lt_add_iff_right] at h
      simp only [List.set_cons_succ, List.take_succ_cons, ih n h, List.cons_append]

/-- The array loop and the vector loop run in step: with room in the array for every
waiter still to serve, the array loop fails exactly as the vector loop does, and
when they return the counter is the length of the vector and the first `count`
cells of the array are the vector. -/
theorem quickArrayLoop_vector :
    ∀ (ws : List GetWaiter) (g : Group) (actions : List GetAction) (count : Nat),
      count + ws.length ≤ actions.length → actions.length < 2 ^ 32 →
      (∀ f, Group.quickVectorLoop ws g (actions.take count) = Except.error f →
        Group.quickArrayLoop ws g actions count = Except.error f) ∧
      (∀ g1 v1, Group.quickVectorLoop ws g (actions.take count) = Except.ok (g1, v1) →
        ∃ actions1, Group.quickArrayLoop ws g actions count
            = Except.ok (g1, actions1, v1.length) ∧
          actions1.take v1.length = v1 ∧ actions1.length = actions.length ∧
          v1.length ≤ actions.length) := by
  intro ws
  induction ws with
  | nil =>
    intro g actions count hroom _
    have hlen : (actions.take count).length = count := by
      rw [List.length_take]
      simp only [List.length_nil, Nat.add_zero] at hroom
      omega
    constructor
    · intro f h
      simp [Group.quickVectorLoop] at h
    · intro g1 v1 h
      simp only [Group.quickVectorLoop, Except.ok.injEq, Prod.mk.injEq] at h
      obtain ⟨h1, h2⟩ := h
      subst h2
      refine ⟨actions, ?_, ?_, rfl, ?_⟩
      · simp only [Group.quickArrayLoop, h1, hlen]
      · rw [hlen]
      · rw [hlen]
        simp only [List.length_nil, Nat.add_zero] at hroom
        exact hroom
  | cons w ws ih =>
    intro g actions count hroom hbound
    simp only [List.length_cons] at hroom
    have hlt : count < actions.length := by omega
    have hlen : (actions.take count).length = count := by
      rw [List.length_take]
      omega
    cases ht : g.pqueue.top with
    | none =>
      constructor
      · intro f h
        simp [Group.quickVectorLoop, ht] at h
      · intro g1 v1 h
        simp only [Group.quickVectorLoop, ht, Except.ok.injEq, Prod.mk.injEq] at h
        obtain ⟨h1, h2⟩ := h
        subst h2
        refine ⟨actions, ?_, ?_, rfl, ?_⟩
        · simp only [Group.quickArrayLoop, ht, h1, hlen]
        · rw [hlen]
        · rw [hlen]
          omega
    | some p =>
      cases hf : (g.heap p).atFullCapacity with
      | true =>
        constructor
        · intro f h
          simp [Group.quickVectorLoop, ht, hf] at h
        · intro g1 v1 h
          simp only [Group.quickVectorLoop, ht, hf, if_true, Except.ok.injEq,
            Prod.mk.injEq] at h
          obtain ⟨h1, h2⟩ := h
          subst h2
          refine ⟨actions, ?_, ?_, rfl, ?_⟩
          · simp only [Group.quickArrayLoop, ht, hf, if_true, h1, hlen]
          · rw [hlen]
          · rw [hlen]
            omega
      | false =>
        cases hns : g.newSession with
        | error f0 =>
          constructor
          · intro f h
            simp only [Group.quickVectorLoop, ht, hf, hns, Bool.false_eq_true, if_false] at h
            simp only [Group.quickArrayLoop, ht, hf, hns, hlt, if_true, Bool.false_eq_true,
              if_false]
            rw [Except.error.injEq] at h ⊢
            exact h
          · intro g1 v1 h
            simp [Group.quickVectorLoop, ht, hf, hns] at h
        | ok v =>
          obtain ⟨g2, s⟩ := v
          have hmod : (count + 1) % 2 ^ 32 = count + 1 := Nat.mod_eq_of_lt (by omega)
          have hset : (actions.set count { callback := some w.callback, session := some s }).take
              (count + 1)
              = actions.take count ++ [{ callback := some w.callback, session := some s }] :=
            take_set_succ actions count _ hlt
          have hsetlen : (actions.set count
              { callback := some w.callback, session := some s }).length = actions.length :=
            List.length_set _ _ _
          obtain ⟨ih1, ih2⟩ := ih g2
            (actions.set count { callback := some w.callback, session := some s }) (count + 1)
            (by rw [hsetlen]; omega) (by rw [hsetlen]; exact hbound)
          rw [hset] at ih1 ih2
          constructor
          · intro f h
            simp only [Group.quickVectorLoop, ht, hf, hns, Bool.false_eq_true, if_false] at h
            simp only [Group.quickArrayLoop, ht, hf, hns, hlt, if_true, hmod, Bool.false_eq_true,
              if_false]
            exact ih1 f h
          · intro g1 v1 h
            simp only [Group.quickVectorLoop, ht, hf, hns, Bool.false_eq_true, if_false] at h
            obtain ⟨actions1, h1, h2, h3, h4⟩ := ih2 g1 v1 h
            refine ⟨actions1, ?_, h2, ?_, ?_⟩
            · simp only [Group.quickArrayLoop, ht, hf, hns, hlt, if_true, hmod, Bool.false_eq_true,
              if_false]
              exact h1
            · rw [h3, hsetlen]
            · rw [hsetlen] at h4
              exact h4

/-- The calls of the array branch are those of the vector branch on the first
`n` cells of the array. -/
theorem callArray_eq (actions : List GetAction) :
    ∀ (n i : Nat) (called : List Callback), i + n ≤ actions.length →
      Group.callArray actions i n called
        = Group.callVector ((actions.drop i).take n) called := by
  intro n
  induction n with
  | zero =>
    intro i called _
    simp [Group.callArray, Group.callVector]
  | succ n ih =>
    intro i called h
    have hi : i < actions.length := by omega
    have hget : actions[i]? = some actions[i] := List.getElem?_eq_getElem hi
    have hdrop : actions.drop i = actions[i] :: actions.drop (i + 1) :=
      List.drop_eq_getElem_cons hi
    simp only [Group.callArray, hget, hdrop, List.take_succ_cons, Group.callVector]
    cases actions[i].callback with
    | none => rfl
    | some cb => exact ih (i + 1) _ (by omega)

theorem quicklyArray_eq_quicklyVector (g : Group) (h : g.getWaitlist.length < 2 ^ 32) :
    g.quicklyArray = g.quicklyVector := by
  have hrep : (List.replicate g.getWaitlist.length
      ({ callback := none, session := none } : GetAction)).length = g.getWaitlist.length :=
    List.length_replicate _ _
  obtain ⟨h1, h2⟩ := quickArrayLoop_vector g.getWaitlist g
    (List.replicate g.getWaitlist.length { callback := none, session := none }) 0
    (by rw [hrep]; omega) (by rw [hrep]; exact h)
  rw [List.take_zero] at h1 h2
  unfold Group.quicklyArray Group.quicklyVector
  cases hv : Group.quickVectorLoop g.getWaitlist g [] with
  | error f => rw [h1 f hv]
  | ok v =>
    obtain ⟨g1, v1⟩ := v
    obtain ⟨actions1, ha, htake, hlen, hle⟩ := h2 g1 v1 hv
    rw [ha]
    dsimp only
    cases g1.verifyInvariants with
    | error f => rfl
    | ok _ =>
      dsimp only
      rw [callArray_eq actions1 v1.length 0 [] (by rw [hlen]; omega), List.drop_zero, htake]

theorem quicklyVector_eq_drainThenVerify (g : Group) :
    g.quicklyVector = g.drainThenVerify := by
  obtain ⟨h1, h2⟩ := quickVectorLoop_drain g.getWaitlist g [] [] (fun pre => by
    simp [Group.callVector])
  unfold Group.quicklyVector Group.drainThenVerify Group.assignSessionsToGetWaiters
  cases hs : Group.assignSessionsLoop g.getWaitlist g [] with
  | error f => rw [h1 f hs]
  | ok v =>
    obtain ⟨g1, acts1⟩ := v
    obtain ⟨actions1, ha, hcall, _⟩ := h2 g1 acts1 hs
    rw [ha]
    dsimp only
    cases g1.verifyInvariants with
    | error f => rfl
    | ok _ =>
      dsimp only
      rw [hcall []]
      rfl

theorem assignSessionsLoop_append :
    ∀ (ws : List GetWaiter) (g : Group) (acts xs : List Callback),
      Group.assignSessionsLoop ws g (acts ++ xs) =
        match Group.assignSessionsLoop ws g xs with
        | Except.error f => Except.error f
        | Except.ok (g1, ys) => Except.ok (g1, acts ++ ys) := by
  intro ws
  induction ws with
  | nil =>
    intro g acts xs
    simp [Group.assignSessionsLoop]
  | cons w ws ih =>
    intro g acts xs
    cases ht : g.pqueue.top with
    | none => simp [Group.assignSessionsLoop, ht]
    | some p =>
      cases hf : (g.heap p).atFullCapacity with
      | true => simp [Group.assignSessionsLoop, ht, hf]
      | false =>
        cases hns : g.newSession with
        | error f0 => simp [Group.assignSessionsLoop, ht, hf, hns]
        | ok v =>
          obtain ⟨g2, s⟩ := v
          simp only [Group.assignSessionsLoop, ht, hf, hns, List.append_assoc, Bool.false_eq_true,
            if_false]
          exact ih g2 acts _

theorem assignSessionsLoop_error_kind :
    ∀ (ws : List GetWaiter) (g : Group) (acts : List Callback) (f : Fault),
      Group.assignSessionsLoop ws g acts = Except.error f →
      f = Fault.assertion ∨ f = Fault.nullPointer := by
  intro ws
  induction ws with
  | nil =>
    intro g acts f h
    simp [Group.assignSessionsLoop] at h
  | cons w ws ih =>
    intro g acts f h
    cases ht : g.pqueue.top with
    | none => simp [Group.assignSessionsLoop, ht] at h
    | some p =>
      cases hf : (g.heap p).atFullCapacity with
      | true => simp [Group.assignSessionsLoop, ht, hf] at h
      | false =>
        cases hns : g.newSession with
        | error f0 =>
          simp only [Group.assignSessionsLoop, ht, hf, hns, Bool.false_eq_true, if_false,
            Except.error.injEq] at h
          subst h
          unfold Group.newSession at hns
          split at hns
          · rw [ht] at hns
            cases hns
          · simp only [Except.error.injEq] at hns
            exact Or.inl hns.symm
        | ok v =>
          obtain ⟨g2, s⟩ := v
          simp only [Group.assignSessionsLoop, ht, hf, hns, Bool.false_eq_true,
            if_false] at h
          exact ih g2 _ f h

/-- The array loop started on an array of `getWaitlist.size()` empty actions: it
fails only where `newSession` fails, never by a write past the end of the array;
when it returns, the counter is at most the length of the array and the calls
of the first `count` cells all succeed. -/
theorem quickArrayLoop_safe (g : Group) (h : g.getWaitlist.length < 2 ^ 32) :
    (∀ f, Group.quickArrayLoop g.getWaitlist g
        (List.replicate g.getWaitlist.length { callback := none, session := none }) 0
        = Except.error f → f = Fault.assertion ∨ f = Fault.nullPointer) ∧
    (∀ g1 actions count, Group.quickArrayLoop g.getWaitlist g
        (List.replicate g.getWaitlist.length { callback := none, session := none }) 0
        = Except.ok (g1, actions, count) →
      count ≤ g.getWaitlist.length ∧ actions.length = g.getWaitlist.length ∧
      ∃ called, Group.callArray actions 0 count [] = Except.ok called ∧
        called.length = count) := by
  have hrep : (List.replicate g.getWaitlist.length
      ({ callback := none, session := none } : GetAction)).length = g.getWaitlist.length :=
    List.length_replicate _ _
  obtain ⟨h1, h2⟩ := quickArrayLoop_vector g.getWaitlist g
    (List.replicate g.getWaitlist.length { callback := none, session := none }) 0
    (by rw [hrep]; omega) (by rw [hrep]; exact h)
  rw [List.take_zero] at h1 h2
  obtain ⟨d1, d2⟩ := quickVectorLoop_drain g.getWaitlist g [] [] (fun pre => by
    simp [Group.callVector])
  cases hs : Group.assignSessionsLoop g.getWaitlist g [] with
  | error f0 =>
    have ha := h1 f0 (d1 f0 hs)
    constructor
    · intro f hf
      rw [ha, Except.error.injEq] at hf
      rw [← hf]
      exact assignSessionsLoop_error_kind _ _ _ _ hs
    · intro g1 actions count hok
      rw [ha] at hok
      cases hok
  | ok v =>
    obtain ⟨g2, acts2⟩ := v
    obtain ⟨v1, hv, hcall, _⟩ := d2 g2 acts2 hs
    obtain ⟨actions1, ha, htake, hlen, hle⟩ := h2 g2 v1 hv
    constructor
    · intro f hf
      rw [ha] at hf
      cases hf
    · intro g1 actions count hok
      rw [ha] at hok
      simp only [Except.ok.injEq, Prod.mk.injEq] at hok
      obtain ⟨_, e2, e3⟩ := hok
      subst e2
      subst e3
      rw [hrep] at hlen hle
      refine ⟨hle, hlen, acts2, ?_, ?_⟩
      · rw [callArray_eq actions1 v1.length 0 [] (by rw [hlen]; omega), List.drop_zero,
          htake, hcall []]
        rfl
      · have := callVector_length v1 [] acts2 (by rw [hcall []]; rfl)
        simpa using this

/-- C23, against the claim as stated: after a `get` that waits for a spawn,
`attach(1)`, `attach(2)` and `disable(1, 7)`, `assignSessionsToGetWaiters` returns
and hands the waiting callback a session on process 2, while both branches of
`assignSessionsToGetWaitersQuickly` stop at `verifyInvariants()` before any
callback is called. -/
theorem quickly_stops_where_drain_returns :
    run emptyGroup [Op.get true exampleOptions 5, Op.attach 1, Op.attach 2, Op.disable 1 7]
      = Except.ok waitingAfterDisable ∧
    waitingAfterDisable.getWaitlist.length < 50 ∧
    (∃ g1, waitingAfterDisable.assignSessionsToGetWaiters [] = Except.ok (g1,
      [Callback.bound 5
        (some { process := ProcessRef.ptr 2, onInitiateFailure := true, onClose := true })
        none])) ∧
    waitingAfterDisable.quicklyArray = Except.error Fault.assertion ∧
    waitingAfterDisable.quicklyVector = Except.error Fault.assertion ∧
    waitingAfterDisable.assignSessionsToGetWaitersQuickly false
      = Except.error Fault.assertion :=
  ⟨rfl, by decide, ⟨_, rfl⟩, rfl, rfl, rfl⟩

/-- C23, amended. For every group state: the array branch of
`assignSessionsToGetWaitersQuickly`, taken when `getWaitlist` has fewer than 50
entries, and its vector branch have the same outcome; either is the drain
`assignSessionsToGetWaiters` followed by `verifyInvariants()` on the group that
the drain leaves: it returns exactly when the drain returns and the invariants
hold there, and then leaves the same group as the drain and makes the calls
that the drain appends to its actions, in the same order, at most one per
waiter; when the drain fails or the invariants do not hold it stops before any
call.  In the array branch no write goes past the end of the array: the loop
fails only where `newSession` does, the counter never exceeds the array length
`getWaitlist.size()` taken at entry, and every call of the first `count` cells
succeeds. -/
theorem drains_agree (g : Group) :
    (g.getWaitlist.length < 50 → g.quicklyArray = g.quicklyVector) ∧
    g.quicklyVector = g.drainThenVerify ∧
    (∀ clang, g.assignSessionsToGetWaitersQuickly clang = g.drainThenVerify) ∧
    ((∃ r, g.drainThenVerify = Except.ok r) ↔
      ∃ g1 acts, g.assignSessionsToGetWaiters [] = Except.ok (g1, acts) ∧
        g1.verifyInvariants = Except.ok ()) ∧
    (∀ g1 ds, g.drainThenVerify = Except.ok (g1, ds) →
      g.assignSessionsToGetWaiters [] = Except.ok (g1, ds) ∧
      (∀ acts, g.assignSessionsToGetWaiters acts = Except.ok (g1, acts ++ ds)) ∧
      ds.length ≤ g.getWaitlist.length) ∧
    (g.getWaitlist.length < 50 →
      (∀ f, Group.quickArrayLoop g.getWaitlist g
          (List.replicate g.getWaitlist.length { callback := none, session := none }) 0
          = Except.error f → f = Fault.assertion ∨ f = Fault.nullPointer) ∧
      (∀ g1 actions count, Group.quickArrayLoop g.getWaitlist g
          (List.replicate g.getWaitlist.length { callback := none, session := none }) 0
          = Except.ok (g1, actions, count) →
        count ≤ g.getWaitlist.length ∧ actions.length = g.getWaitlist.length ∧
        ∃ called, Group.callArray actions 0 count [] = Except.ok called ∧
          called.length = count)) := by
  have hAV : g.getWaitlist.length < 50 → g.quicklyArray = g.quicklyVector :=
    fun h => quicklyArray_eq_quicklyVector g (by
      have h32 : (2 : Nat) ^ 32 = 4294967296 := by norm_num
      omega)
  have hVD := quicklyVector_eq_drainThenVerify g
  refine ⟨hAV, hVD, ?_, ?_, ?_, ?_⟩
  · intro clang
    unfold Group.assignSessionsToGetWaitersQuickly
    split
    · rename_i hc
      rw [hAV hc.2, hVD]
    · exact hVD
  · unfold Group.drainThenVerify
    constructor
    · rintro ⟨r, hr⟩
      cases hs : g.assignSessionsToGetWaiters [] with
      | error f =>
        rw [hs] at hr
        cases hr
      | ok v =>
        obtain ⟨g1, acts⟩ := v
        rw [hs] at hr
        dsimp only at hr
        cases hv : g1.verifyInvariants with
        | error f =>
          rw [hv] at hr
          cases hr
        | ok u => exact ⟨g1, acts, rfl, hv⟩
    · rintro ⟨g1, acts, hs, hv⟩
      rw [hs]
      dsimp only
      rw [hv]
      exact ⟨_, rfl⟩
  · intro g1 ds hd
    unfold Group.drainThenVerify at hd
    cases hs : g.assignSessionsToGetWaiters [] with
    | error f =>
      rw [hs] at hd
      cases hd
    | ok v =>
      obtain ⟨g2, acts⟩ := v
      rw [hs] at hd
      dsimp only at hd
      cases hv : g2.verifyInvariants with
      | error f =>
        rw [hv] at hd
        cases hd
      | ok u =>
        rw [hv] at hd
        simp only [Except.ok.injEq, Prod.mk.injEq] at hd
        obtain ⟨e1, e2⟩ := hd
        subst e1
        subst e2
        refine ⟨rfl, ?_, ?_⟩
        · intro acts0
          have h1 := assignSessionsLoop_append g.getWaitlist g acts0 []
          rw [List.append_nil] at h1
          unfold Group.assignSessionsToGetWaiters at hs ⊢
          rw [h1, hs]
        · obtain ⟨_, d2⟩ := quickVectorLoop_drain g.getWaitlist g [] [] (fun pre => by
            simp [Group.callVector])
          obtain ⟨actions1, _, hcall, hlen⟩ := d2 g2 acts hs
          have := callVector_length actions1 [] acts (by rw [hcall []]; rfl)
          simp only [List.length_nil, Nat.zero_add] at this hlen
          omega
  · intro h
    exact quickArrayLoop_safe g (by
      have h32 : (2 : Nat) ^ 32 = 4294967296 := by norm_num
      omega)

/-! ## C21: back-references without `detachAll` -/

theorem DisabledListed_congr (g g1 : Group) (hself : g1.self = g.self)
    (hheap : ∀ x, (g1.heap x).group = (g.heap x).group ∧
      ((g1.heap x).enabled = EnabledStatus.DISABLED →
        (g.heap x).enabled = EnabledStatus.DISABLED))
    (hdp : ∀ x ∈ g.disabledProcesses, (g1.heap x).group = some g.self →
      x ∈ g1.disabledProcesses)
    (hD : DisabledListed g) : DisabledListed g1 := by
  intro x hg ht
  rw [hself] at hg
  have hg0 := hg
  rw [(hheap x).1] at hg0
  exact hdp x (hD x hg0 ((hheap x).2 ht)) hg

theorem DisabledListed_same (g g2 : Group) (h : SameProcesses g g2) (hD : DisabledListed g) :
    DisabledListed g2 := by
  obtain ⟨hself, hheap, _, _, _, _, _, hdp, _, _⟩ := h
  refine DisabledListed_congr g g2 hself (fun x => by rw [hheap]; exact ⟨rfl, id⟩) ?_ hD
  intro x hx _
  rw [hdp]
  exact hx

theorem DisabledListed_newSession (g g1 : Group) (s : Session)
    (h : g.newSession = Except.ok (g1, s)) (hD : DisabledListed g) : DisabledListed g1 := by
  obtain ⟨p, _, _, rfl, _⟩ := newSession_cases g g1 s h
  refine DisabledListed_congr g _ rfl ?_ (fun x hx _ => hx) hD
  intro x
  by_cases hx : x = p
  · subst hx
    simp [setProcess, Process.newSession]
  · simp [setProcess, hx]

theorem DisabledListed_getWaitlist (g : Group) (ws : List GetWaiter) (hD : DisabledListed g) :
    DisabledListed { g with getWaitlist := ws } := hD

theorem DisabledListed_get (env : Env) (g g1 : Group) (o : Options) (cb : Nat)
    (r : Option Session) (hr : env.needsRestart g o = false)
    (h : Group.get env g o cb = Except.ok (g1, r)) (hD : DisabledListed g) :
    DisabledListed g1 := by
  obtain ⟨g2, hsame, hcases⟩ := get_cases env g g1 o cb r hr h
  have hD2 := DisabledListed_same g g2 hsame hD
  rcases hcases with ⟨_, rfl, _⟩ | ⟨_, _, rfl, _⟩ | ⟨_, s, p, _, _, _, hns⟩
  · exact hD2
  · exact hD2
  · exact DisabledListed_newSession g2 g1 s hns hD2

theorem DisabledListed_drain (g g1 : Group) (acts acts1 : List Callback)
    (h : g.assignSessionsToGetWaiters acts = Except.ok (g1, acts1)) (hD : DisabledListed g) :
    DisabledListed g1 :=
  assignSessionsLoop_induct DisabledListed
    (fun g g1 s hP hns => DisabledListed_newSession g g1 s hns hP)
    (fun _ _ hP => hP) _ _ _ _ _ h hD

theorem DisabledListed_moveToDisabled (g : Group) (q : Nat) (hD : DisabledListed g) :
    DisabledListed (g.moveToDisabled q) := by
  intro x hg ht
  show x ∈ g.disabledProcesses ++ [q]
  by_cases hx : x = q
  · rw [hx]
    exact List.mem_append_right _ (List.mem_singleton_self q)
  · have hg1 : (g.heap x).group = some g.self := by
      simpa [Group.moveToDisabled, setProcess, hx] using hg
    have ht1 : (g.heap x).enabled = EnabledStatus.DISABLED := by
      simpa [Group.moveToDisabled, setProcess, hx] using ht
    exact List.mem_append_left _ (hD x hg1 ht1)

theorem DisabledListed_attach (g g1 : Group) (p : Nat) (acts acts1 : List Callback)
    (h : g.attach p acts = Except.ok (g1, acts1)) (hD : DisabledListed g) :
    DisabledListed g1 := by
  obtain ⟨hg, g2, hloop, rfl⟩ := attach_cases g g1 p acts acts1 h
  have h0 : DisabledListed (g.addEnabled p) := by
    intro x hgx ht
    have hx : x ≠ p := by
      intro e
      rw [e] at ht
      simp [Group.addEnabled, setProcess] at ht
    have hg1 : (g.heap x).group = some g.self := by
      simpa [Group.addEnabled, setProcess, hx] using hgx
    have ht1 : (g.heap x).enabled = EnabledStatus.DISABLED := by
      simpa [Group.addEnabled, setProcess, hx] using ht
    exact hD x hg1 ht1
  have h2 : DisabledListed g2 :=
    attachLoop_induct DisabledListed (fun g q hP _ _ _ => DisabledListed_moveToDisabled g q hP)
      _ _ _ _ _ hloop h0
  exact h2

theorem DisabledListed_detach (g g1 : Group) (p : Nat) (acts acts1 : List Callback)
    (h : g.detach p acts = Except.ok (g1, acts1)) (hD : DisabledListed g) :
    DisabledListed g1 := by
  have hkey : ∀ x, (setProcess g.heap p { g.heap p with group := none } x).group
      = some g.self → x ≠ p ∧ (g.heap x).group = some g.self := by
    intro x hx
    by_cases hxp : x = p
    · rw [hxp] at hx
      simp [setProcess] at hx
    · exact ⟨hxp, by simpa [setProcess, hxp] using hx⟩
  have htags : ∀ x, (setProcess g.heap p { g.heap p with group := none } x).enabled
      = (g.heap x).enabled := by
    intro x
    by_cases hx : x = p
    · subst hx
      simp [setProcess]
    · simp [setProcess, hx]
  obtain ⟨_, hcases⟩ := detach_cases g g1 p acts acts1 h
  rcases hcases with ⟨_, _, _, _, rfl, _⟩ | ⟨_, _, _, _, rfl, _⟩ | ⟨_, _, rfl, _⟩
  · intro x hg ht
    obtain ⟨_, hg1⟩ := hkey x hg
    exact hD x hg1 ((htags x).symm.trans ht)
  · intro x hg ht
    obtain ⟨_, hg1⟩ := hkey x hg
    exact hD x hg1 ((htags x).symm.trans ht)
  · intro x hg ht
    obtain ⟨hxp, hg1⟩ := hkey x hg
    exact (List.mem_erase_of_ne hxp).2 (hD x hg1 ((htags x).symm.trans ht))

theorem DisabledListed_enable (g g1 : Group) (p : Nat) (acts acts1 : List Callback)
    (h : g.enable p acts = Except.ok (g1, acts1)) (hD : DisabledListed g) :
    DisabledListed g1 := by
  have hkey : ∀ x, (setProcess g.heap p
        { g.heap p with enabled := EnabledStatus.ENABLED } x).group = some g.self →
      (setProcess g.heap p { g.heap p with enabled := EnabledStatus.ENABLED } x).enabled
        = EnabledStatus.DISABLED →
      x ≠ p ∧ (g.heap x).group = some g.self ∧
        (g.heap x).enabled = EnabledStatus.DISABLED := by
    intro x hg ht
    by_cases hxp : x = p
    · rw [hxp] at ht
      simp [setProcess] at ht
    · exact ⟨hxp, by simpa [setProcess, hxp] using hg, by simpa [setProcess, hxp] using ht⟩
  obtain ⟨_, hcases⟩ := enable_cases g g1 p acts acts1 h
  rcases hcases with ⟨_, rfl, _⟩ | ⟨_, _, rfl, _⟩ | ⟨_, rfl, _⟩
  · intro x hg ht
    obtain ⟨_, hg1, ht1⟩ := hkey x hg ht
    exact hD x hg1 ht1
  · intro x hg ht
    obtain ⟨hxp, hg1, ht1⟩ := hkey x hg ht
    exact (List.mem_erase_of_ne hxp).2 (hD x hg1 ht1)
  · exact hD

theorem DisabledListed_disable (g g1 : Group) (p cb : Nat) (r : Bool)
    (h : g.disable p cb = Except.ok (g1, r)) (hD : DisabledListed g) :
    DisabledListed g1 := by
  obtain ⟨_, hcases⟩ := disable_cases g g1 p cb r h
  rcases hcases with ⟨_, _, _, _, rfl⟩ | ⟨_, _, _, _, _, _, rfl⟩ | ⟨_, _, rfl⟩ | ⟨_, _, rfl⟩
  · apply DisabledListed_same _ _ (sameProcesses_spawn _)
    intro x hg ht
    have hxp : x ≠ p := by
      intro e
      rw [e] at ht
      simp [setProcess] at ht
    exact hD x (by simpa [setProcess, hxp] using hg) (by simpa [setProcess, hxp] using ht)
  · intro x hg ht
    show x ∈ g.disabledProcesses ++ [p]
    by_cases hxp : x = p
    · rw [hxp]
      exact List.mem_append_right _ (List.mem_singleton_self p)
    · exact List.mem_append_left _
        (hD x (by simpa [setProcess, hxp] using hg) (by simpa [setProcess, hxp] using ht))
  · exact hD
  · exact hD

theorem DisabledListed_reachable (allowed : Op → Prop) (hno : ¬ allowed Op.detachAll)
    (g : Group) (hreach : Reachable allowed g) : DisabledListed g := by
  induction hreach with
  | init g hempty =>
    obtain ⟨_, _, _, _, _, _, _, _, hnone⟩ := hempty
    exact fun x hx => absurd hx (hnone x)
  | step g g1 op _ hall hstep ih =>
    cases op with
    | get b o cb =>
      obtain ⟨r, hr⟩ := map_fst_ok _ _ hstep
      exact DisabledListed_get (Env.noRestart b) g g1 o cb r rfl hr ih
    | assignSessionsToGetWaiters =>
      obtain ⟨r, hr⟩ := map_fst_ok _ _ hstep
      exact DisabledListed_drain g g1 [] r hr ih
    | attach p =>
      obtain ⟨r, hr⟩ := map_fst_ok _ _ hstep
      exact DisabledListed_attach g g1 p [] r hr ih
    | detach p =>
      obtain ⟨r, hr⟩ := map_fst_ok _ _ hstep
      exact DisabledListed_detach g g1 p [] r hr ih
    | detachAll => exact absurd hall hno
    | enable p =>
      obtain ⟨r, hr⟩ := map_fst_ok _ _ hstep
      exact DisabledListed_enable g g1 p [] r hr ih
    | disable p cb =>
      obtain ⟨r, hr⟩ := map_fst_ok _ _ hstep
      exact DisabledListed_disable g g1 p cb r hr ih

/-- In every state reached from an empty group without `detachAll`, a process
refers to the group exactly when it is in `processes` or in
`disabledProcesses`. -/
theorem backref_iff_listed (allowed : Op → Prop) (hno : ¬ allowed Op.detachAll) (g : Group)
    (hreach : Reachable allowed g) (x : Nat) :
    (g.heap x).group = some g.self ↔ x ∈ g.processes ∨ x ∈ g.disabledProcesses := by
  have hL := ListInv_reachable allowed g hreach
  have hD := DisabledListed_reachable allowed hno g hreach
  constructor
  · intro hg
    by_cases ht : (g.heap x).enabled = EnabledStatus.DISABLED
    · exact Or.inr (hD x hg ht)
    · exact Or.inl (hL.member x hg ht)
  · rintro (h | h)
    · exact (processes_not_disabled g hL x h).2
    · exact (hL.disabled_tag x h).2

/-! ## C1: `get` on a group whose processes were all disabled -/

/-- C1, evaluated on the code: after `attach(1)`, `attach(2)`, `disable(1, 7)` and
`disable(2, 8)` on an empty group, `processes` and the priority queue are empty
while `count` is 2; a `get` that is not a no-op and does not restart the group
then takes the branch for `count > 0` and fails `assert(process != NULL)`,
whatever `shouldSpawn()` answers: it returns nothing and appends no waiter. -/
theorem get_aborts_without_processes :
    run emptyGroup [Op.attach 1, Op.attach 2, Op.disable 1 7, Op.disable 2 8]
      = Except.ok afterTwoSyncDisables ∧
    afterTwoSyncDisables.processes = [] ∧ afterTwoSyncDisables.pqueue.top = none ∧
    afterTwoSyncDisables.count = 2 ∧ afterTwoSyncDisables.getWaitlist = [] ∧
    (Env.noRestart true).needsRestart afterTwoSyncDisables exampleOptions = false ∧
    exampleOptions.noop = false ∧
    Group.get (Env.noRestart true) afterTwoSyncDisables exampleOptions 5
      = Except.error Fault.assertion ∧
    Group.get (Env.noRestart false) afterTwoSyncDisables exampleOptions 5
      = Except.error Fault.assertion :=
  ⟨rfl, rfl, rfl, rfl, rfl, rfl, rfl, rfl, rfl⟩

/-! ## C9: `detach` of a process that `detachAll` left with its back-reference -/

/-- C9, evaluated on the code: after `attach(1)`, `attach(2)`, `disable(1, 7)` and
`detachAll` on an empty group, the DISABLED process 1 still refers to the group
while `disabledProcesses` is empty; `detach(1)` passes its `getGroup()`
precondition and fails `assert(!disabledProcesses.empty())`: the back-reference
is not cleared and nothing is removed. -/
theorem detach_aborts_on_stale_backref :
    run emptyGroup [Op.attach 1, Op.attach 2, Op.disable 1 7, Op.detachAll]
      = Except.ok afterDetachAllOfDisabled ∧
    (afterDetachAllOfDisabled.heap 1).group = some afterDetachAllOfDisabled.self ∧
    (afterDetachAllOfDisabled.heap 1).enabled = EnabledStatus.DISABLED ∧
    afterDetachAllOfDisabled.disabledProcesses = [] ∧
    afterDetachAllOfDisabled.disabledCount = 0 ∧
    afterDetachAllOfDisabled.detach 1 [] = Except.error Fault.assertion :=
  ⟨rfl, rfl, rfl, rfl, rfl, rfl⟩

end ApplicationPool2
